import Mathlib

/-!
Verification development for the SQL Safety & Analysis Engine of the
statathon-sql-api-gateway repository.

The repository's HTTP glue (`src/main.py`) delegates all real SQL parsing
work to an external parsing library that is not part of the repository's
sources.  Following the specification, the engine (lexer/parser, statement
classifier, metadata extractor, canonical formatter) is modelled here from
the specification's description; the request-handling glue
(`is_select_query`, `analyze_query`, `execute_query`, `analyze_sql_query`)
is translated from `src/main.py`.

The model works over `List Char` for lexing and `List Token` for parsing,
so that every definition is executable and every concrete claim can be
settled by evaluation.
-/

namespace SqlGateway

/-! ## Character classes and case folding -/

/-- Uppercase fold for ASCII letters (keywords are case-insensitive). -/
def upChar (c : Char) : Char :=
  if 97 ≤ c.toNat ∧ c.toNat ≤ 122 then Char.ofNat (c.toNat - 32) else c

/-- Uppercase fold of a character list. -/
def upList (cs : List Char) : List Char := cs.map upChar

/-- Uppercase fold of a string, used for the case-insensitive aggregate
function allow-list check (`func.this.upper()` in `src/main.py`). -/
def upStr (s : String) : String := ⟨upList s.data⟩

/-- Whitespace characters skipped by the lexer. -/
def isWsChar (c : Char) : Bool :=
  c.toNat = 32 || c.toNat = 10 || c.toNat = 9 || c.toNat = 13

/-- Decimal digit. -/
def isDigitC (c : Char) : Bool := 48 ≤ c.toNat && c.toNat ≤ 57

/-- ASCII letter or underscore: a character that can start an identifier. -/
def isIdentStart (c : Char) : Bool :=
  (65 ≤ c.toNat && c.toNat ≤ 90) || (97 ≤ c.toNat && c.toNat ≤ 122) ||
    c.toNat = 95

/-- Character that can continue an identifier. -/
def isIdentChar (c : Char) : Bool := isIdentStart c || isDigitC c

/-! ## Keywords

Modelled from the spec: the lexer recognizes keywords case-insensitively.
The grammar keywords cover the SELECT/CTE grammar; the trailing group are
the leading keywords of data-modifying / administrative statements, which
the parser only tags (`OtherStatement`). -/

inductive Kw where
  | select | fromK | whereK | group | byK | having | order | limit | offset
  | withK | recursive | asK | onK | join | inner | left | right | full
  | andK | orK | asc | desc
  | insert | update | delete | create | drop | alter | attach | pragma
deriving DecidableEq, Repr

/-- Canonical (uppercase) spelling of each keyword. -/
def kwStr : Kw → String
  | .select => "SELECT" | .fromK => "FROM" | .whereK => "WHERE"
  | .group => "GROUP" | .byK => "BY" | .having => "HAVING"
  | .order => "ORDER" | .limit => "LIMIT" | .offset => "OFFSET"
  | .withK => "WITH" | .recursive => "RECURSIVE" | .asK => "AS"
  | .onK => "ON" | .join => "JOIN" | .inner => "INNER" | .left => "LEFT"
  | .right => "RIGHT" | .full => "FULL" | .andK => "AND" | .orK => "OR"
  | .asc => "ASC" | .desc => "DESC"
  | .insert => "INSERT" | .update => "UPDATE" | .delete => "DELETE"
  | .create => "CREATE" | .drop => "DROP" | .alter => "ALTER"
  | .attach => "ATTACH" | .pragma => "PRAGMA"

/-- Every keyword, used for reserved-word lookup. -/
def allKws : List Kw :=
  [.select, .fromK, .whereK, .group, .byK, .having, .order, .limit, .offset,
   .withK, .recursive, .asK, .onK, .join, .inner, .left, .right, .full,
   .andK, .orK, .asc, .desc,
   .insert, .update, .delete, .create, .drop, .alter, .attach, .pragma]

/-- Reserved-word lookup on an (already uppercased) word. -/
def kwOfChars (w : List Char) : Option Kw :=
  allKws.find? (fun k => (kwStr k).data = w)

/-! ## Tokens -/

/-- Symbolic operator tokens produced by the lexer
(`= <> < > <= >= + - / ||`; `*` is the separate `star` token since it
doubles as the projection star). -/
inductive OpSym where
  | eqS | neS | ltS | gtS | leS | geS | plusS | minusS | divS | concatS
deriving DecidableEq, Repr

/-- A classified lexeme.  String literals are single-quoted; numeric
literals keep their digit characters. -/
inductive Token where
  | kw (k : Kw)
  | ident (s : String)
  | strLit (s : String)
  | numLit (ds : List Char)
  | opTok (o : OpSym)
  | lparen | rparen | comma | semi | dot | star
deriving DecidableEq, Repr

/-- The characters of a token as the canonical formatter re-emits them. -/
def lexChars : Token → List Char
  | .kw k => (kwStr k).data
  | .ident s => s.data
  | .strLit s => '\'' :: s.data ++ ['\'']
  | .numLit ds => ds
  | .opTok .eqS => ['=']
  | .opTok .neS => ['<', '>']
  | .opTok .ltS => ['<']
  | .opTok .gtS => ['>']
  | .opTok .leS => ['<', '=']
  | .opTok .geS => ['>', '=']
  | .opTok .plusS => ['+']
  | .opTok .minusS => ['-']
  | .opTok .divS => ['/']
  | .opTok .concatS => ['|', '|']
  | .lparen => ['(']
  | .rparen => [')']
  | .comma => [',']
  | .semi => [';']
  | .dot => ['.']
  | .star => ['*']

/-! ## Lexer

Modelled from the spec: keywords are case-insensitive; quoted string and
numeric literals; the operators `= <> < > <= >= + - * / ||`; punctuation
`( ) , ;`; line (`--`) and block comments are skipped and never contribute
to downstream analysis.  The lexer fails closed: an unrecognized character,
an unterminated string literal, or an unterminated block comment is a
lexical error. -/

/-- Skip a block comment, returning the characters after the closing
delimiter, or `none` if the comment never closes. -/
def skipBlock : List Char → Option (List Char)
  | '*' :: '/' :: rest => some rest
  | _ :: rest => skipBlock rest
  | [] => none

/-- Scan a single token from a non-empty input whose head is neither
whitespace nor the start of a comment. -/
def scan1 : List Char → Except String (Token × List Char)
  | [] => .error "scan1: empty input"
  | c :: cs =>
    if isIdentStart c then
      let w := (c :: cs).takeWhile isIdentChar
      let rest := (c :: cs).dropWhile isIdentChar
      match kwOfChars (upList w) with
      | some k => .ok (.kw k, rest)
      | none => .ok (.ident ⟨w⟩, rest)
    else if isDigitC c then
      let ds := (c :: cs).takeWhile isDigitC
      let rest := (c :: cs).dropWhile isDigitC
      .ok (.numLit ds, rest)
    else if c = '(' then .ok (.lparen, cs)
    else if c = ')' then .ok (.rparen, cs)
    else if c = ',' then .ok (.comma, cs)
    else if c = ';' then .ok (.semi, cs)
    else if c = '.' then .ok (.dot, cs)
    else if c = '*' then .ok (.star, cs)
    else if c = '=' then .ok (.opTok .eqS, cs)
    else if c = '+' then .ok (.opTok .plusS, cs)
    else if c = '-' then .ok (.opTok .minusS, cs)
    else if c = '/' then .ok (.opTok .divS, cs)
    else if c = '<' then
      match cs with
      | '=' :: cs' => .ok (.opTok .leS, cs')
      | '>' :: cs' => .ok (.opTok .neS, cs')
      | _ => .ok (.opTok .ltS, cs)
    else if c = '>' then
      match cs with
      | '=' :: cs' => .ok (.opTok .geS, cs')
      | _ => .ok (.opTok .gtS, cs)
    else if c = '|' then
      match cs with
      | '|' :: cs' => .ok (.opTok .concatS, cs')
      | _ => .error "lex: single pipe"
    else if c = '\'' then
      let content := cs.takeWhile (fun d => d ≠ '\'')
      let rest := cs.dropWhile (fun d => d ≠ '\'')
      match rest with
      | '\'' :: cs' => .ok (.strLit ⟨content⟩, cs')
      | _ => .error "lex: unterminated string literal"
    else .error "lex: unexpected character"

/-- Fuel-driven tokenization loop: skip whitespace and comments, otherwise
scan one token.  Each step consumes at least one character, so fuel equal
to the input length plus one always suffices. -/
def lexAux : Nat → List Char → Except String (List Token)
  | 0, _ => .error "lex: out of fuel"
  | _ + 1, [] => .ok []
  | fuel + 1, c :: cs =>
    if isWsChar c then lexAux fuel cs
    else if c = '-' && cs.head? = some '-' then
      lexAux fuel (cs.dropWhile (fun d => d ≠ '\n'))
    else if c = '/' && cs.head? = some '*' then
      match skipBlock cs.tail with
      | some rest => lexAux fuel rest
      | none => .error "lex: unterminated block comment"
    else
      match scan1 (c :: cs) with
      | .ok (t, rest) =>
        match lexAux fuel rest with
        | .ok ts => .ok (t :: ts)
        | .error e => .error e
      | .error e => .error e

/-- Tokenize a character list. -/
def lex (cs : List Char) : Except String (List Token) :=
  lexAux (cs.length + 1) cs

/-! ## Abstract syntax tree

Modelled from the spec: a tagged variant over statement and expression
kinds (`Select`, `Table`, `Column`, `Join`, `FunctionCall`, `Subquery`,
`With`, `BinaryOp`, `Literal`, and a catch-all `OtherStatement` carrying
its leading keyword).  A `With` node wraps the final body so that a
CTE-prefixed select reports the `With` statement kind.  Join clauses are
kept as a list attached to the leading source, one entry per `Join` node,
in source order; the `OtherStatement` tail keeps the raw tokens so the
formatter can re-emit the statement. -/

inductive BinOp where
  | eq | ne | lt | gt | le | ge | add | sub | mul | div | concat | andB | orB
deriving DecidableEq, Repr

inductive JoinKind where
  | plain | inner | left | right | full
deriving DecidableEq, Repr

inductive OrderDir where
  | asc | desc
deriving DecidableEq, Repr

mutual

inductive Expr where
  | col (tbl : Option String) (name : String)
  | numL (ds : List Char)
  | strL (s : String)
  | fn (name : String) (args : FnArgs)
  | bin (op : BinOp) (l r : Expr)
  | sub (s : Stmt)
deriving Repr

inductive FnArgs where
  | star
  | exprs (es : List Expr)
deriving Repr

inductive Proj where
  | star
  | expr (e : Expr) (al : Option String)
deriving Repr

/-- One table or subquery source (before any join clauses). -/
inductive SItem where
  | table (name : String) (al : Option String)
  | sub (s : Stmt) (al : Option String)
deriving Repr

/-- A FROM source: a leading item followed by its join clauses, each with
its join kind, right-hand item and ON predicate. -/
inductive Source where
  | item (base : SItem) (joins : List (JoinKind × SItem × Expr))
deriving Repr

inductive Stmt where
  | select (projs : List Proj) (src : Option Source) (whereC : Option Expr)
      (groupBy : List Expr) (havingC : Option Expr)
      (orderBy : List (Expr × OrderDir)) (limitC : Option (Expr × Option Expr))
  | withS (recur : Bool) (ctes : List (String × Stmt)) (body : Stmt)
  | other (k : Kw) (rest : List Token)
deriving Repr

end

/-! ## Parser

Modelled from the spec: recursive descent over the token list; `SELECT`
with projection list, `FROM`, `JOIN … ON`, `WHERE`, `GROUP BY`, `HAVING`,
`ORDER BY` with direction, `LIMIT`/`OFFSET`, `WITH` (optionally recursive)
with one or more CTEs, parenthesized subqueries in `FROM` and as scalar
operands.  Any other statement-leading keyword is recognized only far
enough to be tagged `OtherStatement`.  The parser fails closed: input it
cannot structurally place yields a parse error, never a partial tree. -/

/-- Leading keywords of data-modifying / administrative statements. -/
def otherKws : List Kw :=
  [.insert, .update, .delete, .create, .drop, .alter, .attach, .pragma]

/-- Collect the tail of an `OtherStatement`: everything up to (excluding)
an unmatched close paren or a top-level statement terminator.  The first
component is the consumed tail, the second the remaining tokens. -/
def splitOther : Nat → List Token → List Token × List Token
  | _, [] => ([], [])
  | depth, t :: ts =>
    match t with
    | .semi =>
      if depth = 0 then ([], Token.semi :: ts)
      else
        let (a, b) := splitOther depth ts
        (Token.semi :: a, b)
    | .rparen =>
      if depth = 0 then ([], Token.rparen :: ts)
      else
        let (a, b) := splitOther (depth - 1) ts
        (Token.rparen :: a, b)
    | .lparen =>
      let (a, b) := splitOther (depth + 1) ts
      (Token.lparen :: a, b)
    | t' =>
      let (a, b) := splitOther depth ts
      (t' :: a, b)

/-- Depth scan of an `OtherStatement` tail: returns the final paren depth
when no stop condition (top-level terminator, unmatched close paren)
occurs, `none` otherwise. -/
def rawScan : Nat → List Token → Option Nat
  | d, [] => some d
  | d, t :: ts =>
    match t with
    | .semi => if d = 0 then none else rawScan d ts
    | .rparen => if d = 0 then none else rawScan (d - 1) ts
    | .lparen => rawScan (d + 1) ts
    | _ => rawScan d ts

/-- Recognize the keywords opening a join clause. -/
def jkindOf : List Token → Option (JoinKind × List Token)
  | .kw .join :: r => some (.plain, r)
  | .kw .inner :: .kw .join :: r => some (.inner, r)
  | .kw .left :: .kw .join :: r => some (.left, r)
  | .kw .right :: .kw .join :: r => some (.right, r)
  | .kw .full :: .kw .join :: r => some (.full, r)
  | _ => none

/-- Comparison operator at the head of the token list. -/
def cmpOpOf : List Token → Option (BinOp × List Token)
  | .opTok .eqS :: r => some (.eq, r)
  | .opTok .neS :: r => some (.ne, r)
  | .opTok .ltS :: r => some (.lt, r)
  | .opTok .gtS :: r => some (.gt, r)
  | .opTok .leS :: r => some (.le, r)
  | .opTok .geS :: r => some (.ge, r)
  | _ => none

/-- Additive-level operator at the head of the token list. -/
def addOpOf : List Token → Option (BinOp × List Token)
  | .opTok .plusS :: r => some (.add, r)
  | .opTok .minusS :: r => some (.sub, r)
  | .opTok .concatS :: r => some (.concat, r)
  | _ => none

/-- Multiplicative-level operator at the head of the token list. -/
def mulOpOf : List Token → Option (BinOp × List Token)
  | .star :: r => some (.mul, r)
  | .opTok .divS :: r => some (.div, r)
  | _ => none

mutual

def pStmt : Nat → List Token → Except String (Stmt × List Token)
  | 0, _ => .error "parse: out of fuel"
  | fuel + 1, ts =>
    match ts with
    | .kw .select :: r => pSelect fuel r
    | .kw .withK :: r => pWith fuel r
    | .kw k :: r =>
      if k ∈ otherKws then
        let (raw, r2) := splitOther 0 r
        if rawScan 0 raw = some 0 then .ok (.other k raw, r2)
        else .error "parse: unbalanced parentheses in statement"
      else .error "parse: unexpected leading keyword"
    | _ => .error "parse: expected a statement"

def pWith : Nat → List Token → Except String (Stmt × List Token)
  | 0, _ => .error "parse: out of fuel"
  | fuel + 1, ts =>
    let (recur, ts1) :=
      match ts with
      | .kw .recursive :: r => (true, r)
      | _ => (false, ts)
    match pCtes fuel ts1 with
    | .ok (ctes, r2) =>
      match pStmt fuel r2 with
      | .ok (body, r3) => .ok (.withS recur ctes body, r3)
      | .error e => .error e
    | .error e => .error e

def pCtes : Nat → List Token → Except String (List (String × Stmt) × List Token)
  | 0, _ => .error "parse: out of fuel"
  | fuel + 1, ts =>
    match ts with
    | .ident n :: .kw .asK :: .lparen :: r =>
      match pStmt fuel r with
      | .ok (s, .rparen :: r2) =>
        match r2 with
        | .comma :: r3 =>
          match pCtes fuel r3 with
          | .ok (cs, r4) => .ok ((n, s) :: cs, r4)
          | .error e => .error e
        | _ => .ok ([(n, s)], r2)
      | .ok _ => .error "parse: expected close paren after CTE body"
      | .error e => .error e
    | _ => .error "parse: expected a CTE definition"

def pSelect : Nat → List Token → Except String (Stmt × List Token)
  | 0, _ => .error "parse: out of fuel"
  | fuel + 1, ts =>
    match pProjList fuel ts with
    | .error e => .error e
    | .ok (projs, ts1) =>
      match pFromOpt fuel ts1 with
      | .error e => .error e
      | .ok (src, ts2) =>
        match pWhereOpt fuel ts2 with
        | .error e => .error e
        | .ok (whereC, ts3) =>
          match pGroupOpt fuel ts3 with
          | .error e => .error e
          | .ok (groupBy, ts4) =>
            match pHavingOpt fuel ts4 with
            | .error e => .error e
            | .ok (havingC, ts5) =>
              match pOrderOpt fuel ts5 with
              | .error e => .error e
              | .ok (orderBy, ts6) =>
                match pLimitOpt fuel ts6 with
                | .error e => .error e
                | .ok (limitC, ts7) =>
                  .ok (.select projs src whereC groupBy havingC orderBy limitC, ts7)

def pProjList : Nat → List Token → Except String (List Proj × List Token)
  | 0, _ => .error "parse: out of fuel"
  | fuel + 1, ts =>
    match pProj fuel ts with
    | .ok (p, .comma :: r) =>
      match pProjList fuel r with
      | .ok (ps, r2) => .ok (p :: ps, r2)
      | .error e => .error e
    | .ok (p, r) => .ok ([p], r)
    | .error e => .error e

def pProj : Nat → List Token → Except String (Proj × List Token)
  | 0, _ => .error "parse: out of fuel"
  | fuel + 1, ts =>
    match ts with
    | .star :: r => .ok (.star, r)
    | _ =>
      match pOr fuel ts with
      | .ok (e, .kw .asK :: .ident a :: r) => .ok (.expr e (some a), r)
      | .ok (e, r) => .ok (.expr e none, r)
      | .error e => .error e

def pFromOpt : Nat → List Token → Except String (Option Source × List Token)
  | 0, _ => .error "parse: out of fuel"
  | fuel + 1, ts =>
    match ts with
    | .kw .fromK :: r =>
      match pFromItem fuel r with
      | .ok (s, r2) => .ok (some s, r2)
      | .error e => .error e
    | _ => .ok (none, ts)

def pFromItem : Nat → List Token → Except String (Source × List Token)
  | 0, _ => .error "parse: out of fuel"
  | fuel + 1, ts =>
    match pSItem fuel ts with
    | .ok (base, r) =>
      match pJoinList fuel r with
      | .ok (js, r2) => .ok (.item base js, r2)
      | .error e => .error e
    | .error e => .error e

def pJoinList : Nat → List Token →
    Except String (List (JoinKind × SItem × Expr) × List Token)
  | 0, _ => .error "parse: out of fuel"
  | fuel + 1, ts =>
    match jkindOf ts with
    | some (k, r) =>
      match pSItem fuel r with
      | .ok (it, .kw .onK :: r2) =>
        match pOr fuel r2 with
        | .ok (e, r3) =>
          match pJoinList fuel r3 with
          | .ok (js, r4) => .ok ((k, it, e) :: js, r4)
          | .error e2 => .error e2
        | .error e2 => .error e2
      | .ok _ => .error "parse: expected ON after join source"
      | .error e2 => .error e2
    | none => .ok ([], ts)

def pSItem : Nat → List Token → Except String (SItem × List Token)
  | 0, _ => .error "parse: out of fuel"
  | fuel + 1, ts =>
    match ts with
    | .ident n :: .kw .asK :: .ident a :: r => .ok (.table n (some a), r)
    | .ident n :: r => .ok (.table n none, r)
    | .lparen :: r =>
      match pStmt fuel r with
      | .ok (s, .rparen :: .kw .asK :: .ident a :: r2) => .ok (.sub s (some a), r2)
      | .ok (s, .rparen :: r2) => .ok (.sub s none, r2)
      | .ok _ => .error "parse: expected close paren after subquery"
      | .error e => .error e
    | _ => .error "parse: expected table or subquery"

def pWhereOpt : Nat → List Token → Except String (Option Expr × List Token)
  | 0, _ => .error "parse: out of fuel"
  | fuel + 1, ts =>
    match ts with
    | .kw .whereK :: r =>
      match pOr fuel r with
      | .ok (e, r2) => .ok (some e, r2)
      | .error e => .error e
    | _ => .ok (none, ts)

def pGroupOpt : Nat → List Token → Except String (List Expr × List Token)
  | 0, _ => .error "parse: out of fuel"
  | fuel + 1, ts =>
    match ts with
    | .kw .group :: .kw .byK :: r => pExprList fuel r
    | _ => .ok ([], ts)

def pHavingOpt : Nat → List Token → Except String (Option Expr × List Token)
  | 0, _ => .error "parse: out of fuel"
  | fuel + 1, ts =>
    match ts with
    | .kw .having :: r =>
      match pOr fuel r with
      | .ok (e, r2) => .ok (some e, r2)
      | .error e => .error e
    | _ => .ok (none, ts)

def pOrderOpt : Nat → List Token →
    Except String (List (Expr × OrderDir) × List Token)
  | 0, _ => .error "parse: out of fuel"
  | fuel + 1, ts =>
    match ts with
    | .kw .order :: .kw .byK :: r => pOrderList fuel r
    | _ => .ok ([], ts)

def pOrderList : Nat → List Token →
    Except String (List (Expr × OrderDir) × List Token)
  | 0, _ => .error "parse: out of fuel"
  | fuel + 1, ts =>
    match pOr fuel ts with
    | .error e => .error e
    | .ok (e, .kw .asc :: r2) => pOrderTail fuel e .asc r2
    | .ok (e, .kw .desc :: r2) => pOrderTail fuel e .desc r2
    | .ok (e, r2) => pOrderTail fuel e .asc r2

def pOrderTail : Nat → Expr → OrderDir → List Token →
    Except String (List (Expr × OrderDir) × List Token)
  | 0, _, _, _ => .error "parse: out of fuel"
  | fuel + 1, e, d, r2 =>
    match r2 with
    | .comma :: r3 =>
      match pOrderList fuel r3 with
      | .ok (es, r4) => .ok ((e, d) :: es, r4)
      | .error e2 => .error e2
    | _ => .ok ([(e, d)], r2)

def pLimitOpt : Nat → List Token →
    Except String (Option (Expr × Option Expr) × List Token)
  | 0, _ => .error "parse: out of fuel"
  | fuel + 1, ts =>
    match ts with
    | .kw .limit :: r =>
      match pOr fuel r with
      | .ok (e, .kw .offset :: r2) =>
        match pOr fuel r2 with
        | .ok (o, r3) => .ok (some (e, some o), r3)
        | .error e2 => .error e2
      | .ok (e, r2) => .ok (some (e, none), r2)
      | .error e2 => .error e2
    | _ => .ok (none, ts)

def pExprList : Nat → List Token → Except String (List Expr × List Token)
  | 0, _ => .error "parse: out of fuel"
  | fuel + 1, ts =>
    match pOr fuel ts with
    | .ok (e, .comma :: r) =>
      match pExprList fuel r with
      | .ok (es, r2) => .ok (e :: es, r2)
      | .error e2 => .error e2
    | .ok (e, r) => .ok ([e], r)
    | .error e => .error e

def pOr : Nat → List Token → Except String (Expr × List Token)
  | 0, _ => .error "parse: out of fuel"
  | fuel + 1, ts =>
    match pAnd fuel ts with
    | .ok (e, r) => pOrLoop fuel e r
    | .error e => .error e

def pOrLoop : Nat → Expr → List Token → Except String (Expr × List Token)
  | 0, _, _ => .error "parse: out of fuel"
  | fuel + 1, acc, ts =>
    match ts with
    | .kw .orK :: r =>
      match pAnd fuel r with
      | .ok (e, r2) => pOrLoop fuel (.bin .orB acc e) r2
      | .error e => .error e
    | _ => .ok (acc, ts)

def pAnd : Nat → List Token → Except String (Expr × List Token)
  | 0, _ => .error "parse: out of fuel"
  | fuel + 1, ts =>
    match pCmp fuel ts with
    | .ok (e, r) => pAndLoop fuel e r
    | .error e => .error e

def pAndLoop : Nat → Expr → List Token → Except String (Expr × List Token)
  | 0, _, _ => .error "parse: out of fuel"
  | fuel + 1, acc, ts =>
    match ts with
    | .kw .andK :: r =>
      match pCmp fuel r with
      | .ok (e, r2) => pAndLoop fuel (.bin .andB acc e) r2
      | .error e => .error e
    | _ => .ok (acc, ts)

def pCmp : Nat → List Token → Except String (Expr × List Token)
  | 0, _ => .error "parse: out of fuel"
  | fuel + 1, ts =>
    match pAdd fuel ts with
    | .ok (e, r) =>
      match cmpOpOf r with
      | some (o, r2) =>
        match pAdd fuel r2 with
        | .ok (e2, r3) => .ok (.bin o e e2, r3)
        | .error e2 => .error e2
      | none => .ok (e, r)
    | .error e => .error e

def pAdd : Nat → List Token → Except String (Expr × List Token)
  | 0, _ => .error "parse: out of fuel"
  | fuel + 1, ts =>
    match pMul fuel ts with
    | .ok (e, r) => pAddLoop fuel e r
    | .error e => .error e

def pAddLoop : Nat → Expr → List Token → Except String (Expr × List Token)
  | 0, _, _ => .error "parse: out of fuel"
  | fuel + 1, acc, ts =>
    match addOpOf ts with
    | some (o, r) =>
      match pMul fuel r with
      | .ok (e, r2) => pAddLoop fuel (.bin o acc e) r2
      | .error e => .error e
    | none => .ok (acc, ts)

def pMul : Nat → List Token → Except String (Expr × List Token)
  | 0, _ => .error "parse: out of fuel"
  | fuel + 1, ts =>
    match pPrim fuel ts with
    | .ok (e, r) => pMulLoop fuel e r
    | .error e => .error e

def pMulLoop : Nat → Expr → List Token → Except String (Expr × List Token)
  | 0, _, _ => .error "parse: out of fuel"
  | fuel + 1, acc, ts =>
    match mulOpOf ts with
    | some (o, r) =>
      match pPrim fuel r with
      | .ok (e, r2) => pMulLoop fuel (.bin o acc e) r2
      | .error e => .error e
    | none => .ok (acc, ts)

def pPrim : Nat → List Token → Except String (Expr × List Token)
  | 0, _ => .error "parse: out of fuel"
  | fuel + 1, ts =>
    match ts with
    | .numLit ds :: r => .ok (.numL ds, r)
    | .strLit s :: r => .ok (.strL s, r)
    | .ident n :: .lparen :: r =>
      match r with
      | .star :: .rparen :: r2 => .ok (.fn n .star, r2)
      | .rparen :: r2 => .ok (.fn n (.exprs []), r2)
      | _ =>
        match pArgs fuel r with
        | .ok (es, .rparen :: r2) => .ok (.fn n (.exprs es), r2)
        | .ok _ => .error "parse: expected close paren after arguments"
        | .error e => .error e
    | .ident t :: .dot :: .ident n :: r => .ok (.col (some t) n, r)
    | .ident n :: r => .ok (.col none n, r)
    | .lparen :: r =>
      match r with
      | .kw .select :: _ | .kw .withK :: _ =>
        match pStmt fuel r with
        | .ok (s, .rparen :: r2) => .ok (.sub s, r2)
        | .ok _ => .error "parse: expected close paren after subquery"
        | .error e => .error e
      | _ =>
        match pOr fuel r with
        | .ok (e, .rparen :: r2) => .ok (e, r2)
        | .ok _ => .error "parse: expected close paren"
        | .error e => .error e
    | _ => .error "parse: expected an expression"

def pArgs : Nat → List Token → Except String (List Expr × List Token)
  | 0, _ => .error "parse: out of fuel"
  | fuel + 1, ts =>
    match pOr fuel ts with
    | .ok (e, .comma :: r) =>
      match pArgs fuel r with
      | .ok (es, r2) => .ok (e :: es, r2)
      | .error e2 => .error e2
    | .ok (e, r) => .ok ([e], r)
    | .error e => .error e

end

/-- Parse the token list into the first statement: trailing input after a
statement terminator belongs to later statements and is not processed;
anything else left over is a parse error. -/
def pTop (ts : List Token) : Except String Stmt :=
  match pStmt (512 * (ts.length + 1)) ts with
  | .ok (s, []) => .ok s
  | .ok (s, .semi :: _) => .ok s
  | .ok _ => .error "parse: unexpected trailing tokens"
  | .error e => .error e

/-- Contract from the spec: `parse(sql) -> ParseResult`, with a parse
error carried as a message. -/
def parse (q : String) : Except String Stmt :=
  match lex q.data with
  | .ok ts => pTop ts
  | .error e => .error e

/-! ## Statement classifier

Modelled from the spec: `isReadOnlySelect` returns true iff the root is a
`Select`, or a `With` whose final (non-CTE) body resolves, recursively
through nested `With` nodes, to a `Select`, with every CTE body itself a
`Select`; every `OtherStatement` classifies false without exception. -/

/-- Root-tag check for a plain `Select`. -/
def isSelectStmt : Stmt → Bool
  | .select .. => true
  | _ => false

/-- The classifier of the engine (`is_select_query`'s statement check). -/
def isReadOnlySelect : Stmt → Bool
  | .select .. => true
  | .withS _ ctes body =>
    ctes.all (fun c => isSelectStmt c.2) && isReadOnlySelect body
  | .other .. => false

/-- Resolve a chain of `With` wrappers to the final (non-CTE) body. -/
def finalBody : Stmt → Stmt
  | .withS _ _ body => finalBody body
  | s => s

/-- Every CTE body, at every `With` layer, has root tag `Select`. -/
def allCtesSelect : Stmt → Bool
  | .withS _ ctes body =>
    ctes.all (fun c => isSelectStmt c.2) && allCtesSelect body
  | _ => true

/-! ## Metadata extractor

Modelled from the spec: a deterministic pre-order, left-to-right walk of
the whole tree (including subqueries and CTE bodies), collecting `Table`
and `Column` identifiers and the join / aggregation / subquery flags.
The report construction itself follows `analyze_query` in `src/main.py`:
names are appended when non-empty (no deduplication appears in the
source), and a function call counts as an aggregation when its
upper-cased name is in the literal allow-list. -/

/-- Node view produced by the walk: exactly the node kinds the extractor
inspects.  Unrecognized constructs (literals, `OtherStatement` tails, …)
produce no view and so contribute to no field. -/
inductive NodeV where
  | tbl (n : String)
  | colN (n : String)
  | joinN
  | fnN (n : String)
  | subN
deriving DecidableEq, Repr

mutual

def wExpr : Expr → List NodeV
  | .col _ n => [.colN n]
  | .numL _ => []
  | .strL _ => []
  | .fn n args => NodeV.fnN n :: wArgs args
  | .bin _ l r => wExpr l ++ wExpr r
  | .sub s => NodeV.subN :: wStmt s

def wArgs : FnArgs → List NodeV
  | .star => []
  | .exprs es => wExprList es

def wExprList : List Expr → List NodeV
  | [] => []
  | e :: es => wExpr e ++ wExprList es

def wProj : Proj → List NodeV
  | .star => []
  | .expr e _ => wExpr e

def wProjList : List Proj → List NodeV
  | [] => []
  | p :: ps => wProj p ++ wProjList ps

def wSItem : SItem → List NodeV
  | .table n _ => [.tbl n]
  | .sub s _ => NodeV.subN :: wStmt s

def wJoins : List (JoinKind × SItem × Expr) → List NodeV
  | [] => []
  | (_, it, e) :: js => NodeV.joinN :: (wSItem it ++ wExpr e) ++ wJoins js

def wSource : Source → List NodeV
  | .item base js => wSItem base ++ wJoins js

def wOptExpr : Option Expr → List NodeV
  | none => []
  | some e => wExpr e

def wOrder : List (Expr × OrderDir) → List NodeV
  | [] => []
  | (e, _) :: es => wExpr e ++ wOrder es

def wCtes : List (String × Stmt) → List NodeV
  | [] => []
  | (_, s) :: cs => wStmt s ++ wCtes cs

def wStmt : Stmt → List NodeV
  | .select projs src whereC groupBy havingC orderBy limitC =>
    wProjList projs ++
    (match src with | none => [] | some s => wSource s) ++
    wOptExpr whereC ++ wExprList groupBy ++ wOptExpr havingC ++
    wOrder orderBy ++
    (match limitC with
     | none => []
     | some (e, o) => wExpr e ++ wOptExpr o)
  | .withS _ ctes body => wCtes ctes ++ wStmt body
  | .other _ _ => []

end

/-- Tag name of the root node, recorded as the report's statement kind
(`type(parsed).__name__` in `src/main.py`). -/
def tagName : Stmt → String
  | .select .. => "Select"
  | .withS .. => "With"
  | .other k _ =>
    match k with
    | .insert => "Insert" | .update => "Update" | .delete => "Delete"
    | .create => "Create" | .drop => "Drop" | .alter => "Alter"
    | .attach => "Attach" | .pragma => "Pragma" | _ => "Other"

/-- The fixed aggregate-function allow-list from `src/main.py`. -/
def aggFunctions : List String :=
  ["COUNT", "SUM", "AVG", "MIN", "MAX", "GROUP_CONCAT"]

/-- The derived analysis snapshot. -/
structure Report where
  query_type : String
  tables : List String
  columns : List String
  has_joins : Bool
  has_aggregations : Bool
  has_subqueries : Bool
deriving DecidableEq, Repr

/-- Contract from the spec: `analyze(ast) -> AnalysisReport`, with the
field construction following the loops of `analyze_query`. -/
def analyzeAst (s : Stmt) : Report :=
  let ns := wStmt s
  { query_type := tagName s
    tables := ns.filterMap fun v =>
      match v with
      | .tbl n => if n = "" then none else some n
      | _ => none
    columns := ns.filterMap fun v =>
      match v with
      | .colN n => if n = "" then none else some n
      | _ => none
    has_joins := ns.any fun v =>
      match v with
      | .joinN => true
      | _ => false
    has_aggregations := ns.any fun v =>
      match v with
      | .fnN n => aggFunctions.contains (upStr n)
      | _ => false
    has_subqueries := ns.any fun v =>
      match v with
      | .subN => true
      | _ => false }

/-! ## Canonical formatter

Modelled from the spec: re-serializes the AST to syntactically valid SQL;
pretty mode puts each major clause on its own line.  Binary operations are
re-emitted fully parenthesized (semantics-preserving, whitespace and
original literal layout are not preserved).  An `OtherStatement` falls
back to re-emitting its recorded source tokens. -/

def opToken : BinOp → Token
  | .eq => .opTok .eqS
  | .ne => .opTok .neS
  | .lt => .opTok .ltS
  | .gt => .opTok .gtS
  | .le => .opTok .leS
  | .ge => .opTok .geS
  | .add => .opTok .plusS
  | .sub => .opTok .minusS
  | .mul => .star
  | .div => .opTok .divS
  | .concat => .opTok .concatS
  | .andB => .kw .andK
  | .orB => .kw .orK

def tokAlias : Option String → List Token
  | none => []
  | some a => [Token.kw .asK, Token.ident a]

def tokJoinKind : JoinKind → List Token
  | .plain => [.kw .join]
  | .inner => [.kw .inner, .kw .join]
  | .left => [.kw .left, .kw .join]
  | .right => [.kw .right, .kw .join]
  | .full => [.kw .full, .kw .join]

def dirToken : OrderDir → Token
  | .asc => .kw .asc
  | .desc => .kw .desc

set_option maxHeartbeats 1000000 in
mutual

def tokExpr : Expr → List Token
  | .col none n => [.ident n]
  | .col (some t) n => [.ident t, .dot, .ident n]
  | .numL ds => [.numLit ds]
  | .strL s => [.strLit s]
  | .fn n args => Token.ident n :: Token.lparen :: tokArgs args ++ [Token.rparen]
  | .bin o l r =>
    Token.lparen :: tokExpr l ++ opToken o :: tokExpr r ++ [Token.rparen]
  | .sub s => Token.lparen :: tokStmt s ++ [Token.rparen]

def tokArgs : FnArgs → List Token
  | .star => [.star]
  | .exprs es => tokExprList es

def tokExprList : List Expr → List Token
  | [] => []
  | e :: es => tokExpr e ++ tokExprListTail es

def tokExprListTail : List Expr → List Token
  | [] => []
  | e :: es => Token.comma :: (tokExpr e ++ tokExprListTail es)

def tokProj : Proj → List Token
  | .star => [.star]
  | .expr e none => tokExpr e
  | .expr e (some a) => tokExpr e ++ [Token.kw .asK, Token.ident a]

def tokProjList : List Proj → List Token
  | [] => []
  | p :: ps => tokProj p ++ tokProjListTail ps

def tokProjListTail : List Proj → List Token
  | [] => []
  | p :: ps => Token.comma :: (tokProj p ++ tokProjListTail ps)

def tokSItem : SItem → List Token
  | .table n al => Token.ident n :: tokAlias al
  | .sub s al => Token.lparen :: tokStmt s ++ Token.rparen :: tokAlias al

def tokJoins : List (JoinKind × SItem × Expr) → List Token
  | [] => []
  | (k, it, e) :: js =>
    tokJoinKind k ++ tokSItem it ++ Token.kw .onK :: tokExpr e ++ tokJoins js

def tokSource : Source → List Token
  | .item base js => tokSItem base ++ tokJoins js

def tokOrder : List (Expr × OrderDir) → List Token
  | [] => []
  | (e, d) :: es => tokExpr e ++ dirToken d :: tokOrderTail es

def tokOrderTail : List (Expr × OrderDir) → List Token
  | [] => []
  | (e, d) :: es => Token.comma :: (tokExpr e ++ dirToken d :: tokOrderTail es)

def tokCtes : List (String × Stmt) → List Token
  | [] => []
  | (n, s) :: cs =>
    Token.ident n :: Token.kw .asK :: Token.lparen :: tokStmt s ++
      Token.rparen :: tokCtesTail cs

def tokCtesTail : List (String × Stmt) → List Token
  | [] => []
  | (n, s) :: cs =>
    Token.comma :: Token.ident n :: Token.kw .asK :: Token.lparen ::
      tokStmt s ++ Token.rparen :: tokCtesTail cs

def tokFromSeg : Option Source → List Token
  | none => []
  | some s => Token.kw .fromK :: tokSource s

def tokWhereSeg : Option Expr → List Token
  | none => []
  | some e => Token.kw .whereK :: tokExpr e

def tokGroupSeg : List Expr → List Token
  | [] => []
  | e :: es =>
    Token.kw .group :: Token.kw .byK :: (tokExpr e ++ tokExprListTail es)

def tokHavingSeg : Option Expr → List Token
  | none => []
  | some e => Token.kw .having :: tokExpr e

def tokOrderSeg : List (Expr × OrderDir) → List Token
  | [] => []
  | (e, d) :: es =>
    Token.kw .order :: Token.kw .byK ::
      (tokExpr e ++ dirToken d :: tokOrderTail es)

def tokOffSeg : Option Expr → List Token
  | none => []
  | some oe => Token.kw .offset :: tokExpr oe

def tokLimitSeg : Option (Expr × Option Expr) → List Token
  | none => []
  | some (e, o) => Token.kw .limit :: tokExpr e ++ tokOffSeg o

def tokStmt : Stmt → List Token
  | .select projs src whereC groupBy havingC orderBy limitC =>
    Token.kw .select :: tokProjList projs ++ tokFromSeg src ++
    tokWhereSeg whereC ++ tokGroupSeg groupBy ++ tokHavingSeg havingC ++
    tokOrderSeg orderBy ++ tokLimitSeg limitC
  | .withS recur ctes body =>
    Token.kw .withK ::
      (if recur then [Token.kw .recursive] else []) ++
      tokCtes ctes ++ tokStmt body
  | .other k raw => Token.kw k :: raw

termination_by structural x => x
end

/-- Major clause keywords start a new line in pretty mode. -/
def isClauseKw : Token → Bool
  | .kw .fromK | .kw .whereK | .kw .group | .kw .having | .kw .order
  | .kw .limit | .kw .join | .kw .inner | .kw .left | .kw .right
  | .kw .full => true
  | _ => false

/-- Separator placed before a token when rendering. -/
def sepFor (pretty : Bool) (next : Token) : Char :=
  if pretty && isClauseKw next then '\n' else ' '

/-- Render a token list: each token's characters, consecutive tokens
separated by one whitespace character. -/
def render (pretty : Bool) : List Token → List Char
  | [] => []
  | [t] => lexChars t
  | t :: u :: ts => lexChars t ++ sepFor pretty u :: render pretty (u :: ts)

/-- Contract from the spec: `format(ast, dialect, pretty) -> string`. -/
def formatStmt (pretty : Bool) (s : Stmt) : String :=
  ⟨render pretty (tokStmt s)⟩

/-! ## Request-handling glue, translated from `src/main.py` -/

/-- The glue's `analyze_query`: parse, then extract; a parsing exception
becomes an `Analysis failed` error value instead of a report. -/
def analyze_query (q : String) : Except String Report :=
  match parse q with
  | .ok a => .ok (analyzeAst a)
  | .error e => .error ("Analysis failed: " ++ e)

/-- An HTTP 400 raised by `is_select_query` on a parse failure. -/
inductive ClassifyErr where
  | http400 (msg : String)
deriving DecidableEq, Repr

/-- The glue's `is_select_query`: parse, then classify; a parse failure
raises HTTP 400 rather than returning a classification. -/
def is_select_query (q : String) : Except ClassifyErr Bool :=
  match parse q with
  | .ok a => .ok (isReadOnlySelect a)
  | .error e => .error (.http400 ("Invalid SQL syntax: " ++ e))

/-- A query is forwarded for execution iff it parses and classifies as a
read-only select. -/
def allowed (q : String) : Bool :=
  match parse q with
  | .ok a => isReadOnlySelect a
  | .error _ => false

/-- Extracted tables of a query (empty when it does not parse); used to
state concrete extraction facts. -/
def tablesOfQuery (q : String) : List String :=
  match parse q with
  | .ok a => (analyzeAst a).tables
  | .error _ => []

/-- Response model of the `/query` endpoint: `executed` records whether
the SQL string reached the storage engine (`pd.read_sql_query`). -/
structure QueryResponseM where
  success : Bool
  executed : Bool
  error : Option String
  analysis : Except String Report
deriving Repr

/-- The `/query` endpoint handler `execute_query`, from `src/main.py`:
analyze first; the security check next (its HTTP 400 on a parse failure
is caught by the surrounding handler and surfaced as an error response);
only a query that classifies as a select reaches the database, and only
when the database file exists. -/
def execute_query (dbOk : Bool) (q : String) : QueryResponseM :=
  let qa := analyze_query q
  match is_select_query q with
  | .error (.http400 m) =>
    { success := false, executed := false
      error := some ("Unexpected error: 400: " ++ m), analysis := qa }
  | .ok false =>
    { success := false, executed := false
      error := some "Only SELECT queries are allowed for security reasons"
      analysis := qa }
  | .ok true =>
    if dbOk then
      { success := true, executed := true, error := none, analysis := qa }
    else
      { success := false, executed := false
        error := some "Database not found", analysis := qa }

/-! ## Derived helper definitions used in claim statements -/

/-- Function-call names in walk order. -/
def fnNamesOf (s : Stmt) : List String :=
  (wStmt s).filterMap fun v =>
    match v with
    | .fnN n => some n
    | _ => none

/-- Table identifiers in walk order, skipping empty names, exactly as the
extractor collects them. -/
def tableNamesOf (s : Stmt) : List String :=
  (wStmt s).filterMap fun v =>
    match v with
    | .tbl n => if n = "" then none else some n
    | _ => none

/-- Statement kind reported for a query (empty string when it does not
parse). -/
def kindOfQuery (q : String) : String :=
  match parse q with
  | .ok a => (analyzeAst a).query_type
  | .error _ => ""

/-! ## Well-formedness

A token or tree is well formed when its identifier, literal and
tail-token payloads are ones the lexer and parser can reproduce; every
token produced by the lexer and every tree produced by the parser is well
formed, and well-formed trees round-trip through the canonical
formatter. -/

/-- A reproducible identifier:非empty, identifier-shaped, and not a
reserved word. -/
def wfIdentB (s : String) : Bool :=
  match s.data with
  | [] => false
  | c :: cs =>
    isIdentStart c && cs.all isIdentChar && (kwOfChars (upList s.data)).isNone

/-- A reproducible token. -/
def wfTokenB : Token → Bool
  | .ident s => wfIdentB s
  | .strLit s => s.data.all fun c => c ≠ '\''
  | .numLit ds => !ds.isEmpty && ds.all isDigitC
  | _ => true

/-- Root-tag check for an `OtherStatement`. -/
def isOtherRoot : Stmt → Bool
  | .other .. => true
  | _ => false

/-- Alias well-formedness. -/
def wfAliasB : Option String → Bool
  | none => true
  | some a => wfIdentB a

mutual

def wfExprB : Expr → Bool
  | .col none n => wfIdentB n
  | .col (some t) n => wfIdentB t && wfIdentB n
  | .numL ds => !ds.isEmpty && ds.all isDigitC
  | .strL s => s.data.all fun c => c ≠ '\''
  | .fn n args => wfIdentB n && wfArgsB args
  | .bin _ l r => wfExprB l && wfExprB r
  | .sub s => !isOtherRoot s && wfStmtB s

def wfArgsB : FnArgs → Bool
  | .star => true
  | .exprs es => wfExprListB es

def wfExprListB : List Expr → Bool
  | [] => true
  | e :: es => wfExprB e && wfExprListB es

def wfProjB : Proj → Bool
  | .star => true
  | .expr e al => wfExprB e && wfAliasB al

def wfProjListB : List Proj → Bool
  | [] => true
  | p :: ps => wfProjB p && wfProjListB ps

def wfSItemB : SItem → Bool
  | .table n al => wfIdentB n && wfAliasB al
  | .sub s al => wfStmtB s && wfAliasB al

def wfJoinsB : List (JoinKind × SItem × Expr) → Bool
  | [] => true
  | (_, it, e) :: js => wfSItemB it && wfExprB e && wfJoinsB js

def wfSourceB : Source → Bool
  | .item base js => wfSItemB base && wfJoinsB js

def wfOptExprB : Option Expr → Bool
  | none => true
  | some e => wfExprB e

def wfOrderB : List (Expr × OrderDir) → Bool
  | [] => true
  | (e, _) :: es => wfExprB e && wfOrderB es

def wfCtesB : List (String × Stmt) → Bool
  | [] => true
  | (n, s) :: cs => wfIdentB n && wfStmtB s && wfCtesB cs

def wfOptSourceB : Option Source → Bool
  | none => true
  | some s => wfSourceB s

def wfLimitB : Option (Expr × Option Expr) → Bool
  | none => true
  | some (e, o) => wfExprB e && wfOptExprB o

def wfStmtB : Stmt → Bool
  | .select projs src whereC groupBy havingC orderBy limitC =>
    !projs.isEmpty && wfProjListB projs && wfOptSourceB src &&
    wfOptExprB whereC && wfExprListB groupBy && wfOptExprB havingC &&
    wfOrderB orderBy && wfLimitB limitC
  | .withS _ ctes body => !ctes.isEmpty && wfCtesB ctes && wfStmtB body
  | .other k raw =>
    decide (k ∈ otherKws) && raw.all wfTokenB && decide (rawScan 0 raw = some 0)

end

/-! ## Follow conditions

Each parsing routine is inverted on renderer output followed by a
remainder whose head token cannot extend the construct just parsed; the
`noneOf` sets record which head tokens each routine must not see. -/

/-- The remainder's head token is none of the given tokens. -/
def noneOf (bad : List Token) (r : List Token) : Prop :=
  ∀ t ∈ bad, r.head? ≠ some t

def primBad : List Token := [.lparen, .dot]

def mulBad : List Token := primBad ++ [.star, .opTok .divS]

def addBad : List Token :=
  mulBad ++ [.opTok .plusS, .opTok .minusS, .opTok .concatS]

def cmpBad : List Token :=
  addBad ++ [.opTok .eqS, .opTok .neS, .opTok .ltS, .opTok .gtS,
    .opTok .leS, .opTok .geS]

def andBad : List Token := cmpBad ++ [.kw .andK]

def orBad : List Token := andBad ++ [.kw .orK]

def projBad : List Token := orBad ++ [.kw .asK]

def projListBad : List Token := projBad ++ [.comma]

def exprListBad : List Token := orBad ++ [.comma]

def sitemBad : List Token := [.kw .asK]

def joinsBad : List Token :=
  orBad ++ [.kw .join, .kw .inner, .kw .left, .kw .right, .kw .full]

def srcBad : List Token := joinsBad ++ [.kw .asK]

def ctesBad : List Token := [.comma]

/-- Tokens that may follow a complete statement: end of input, a close
paren of an enclosing construct, or a statement terminator. -/
def stmtFollowB : List Token → Bool
  | [] => true
  | .rparen :: _ => true
  | .semi :: _ => true
  | _ => false

/-- Tokens that can start a rendered expression. -/
def exprStartTok : Token → Bool
  | .ident _ => true
  | .numLit _ => true
  | .strLit _ => true
  | .lparen => true
  | _ => false

/-- The head of the list, if any, fails the predicate. -/
def headNot {α : Type} (p : α → Bool) (rest : List α) : Prop :=
  match rest with
  | [] => True
  | c :: _ => p c = false

/-- The head of the character list, if any, is whitespace. -/
def wsB (rest : List Char) : Prop :=
  match rest with
  | [] => True
  | c :: _ => isWsChar c = true

/-- The head of the list, if any, satisfies the predicate. -/
def headIs {α : Type} (p : α → Bool) : List α → Prop
  | [] => True
  | t :: _ => p t = true

/-- Rank of the clause a token can open inside a rendered `SELECT`:
later clauses receive higher ranks, and the statement-follow tokens the
highest rank, so that a suffix of the clause chain has a head of rank at
least the position being parsed. -/
def clauseRank : Token → Nat
  | .kw .fromK => 1
  | .kw .whereK => 2
  | .kw .group => 3
  | .kw .having => 4
  | .kw .order => 5
  | .kw .limit => 6
  | .rparen => 7
  | .semi => 7
  | _ => 0

/-- Token whose clause rank is at least `n`. -/
def rankGe (n : Nat) (t : Token) : Bool := n ≤ clauseRank t

/-- Token that can open a join clause. -/
def joinStartTok : Token → Bool
  | .kw .join | .kw .inner | .kw .left | .kw .right | .kw .full => true
  | _ => false

/-- Token allowed after a FROM item: a join opener or a later clause. -/
def joinTailTok (t : Token) : Bool := joinStartTok t || rankGe 1 t

/-- Well-formedness of every parsing routine's output at a given fuel:
on well-formed input tokens, a successful parse yields a well-formed
tree and a well-formed remainder; statement parsers additionally record
that an `OtherStatement` root can only arise from a leading keyword
token carrying the same tag. -/
structure WfP (fuel : Nat) : Prop where
  stmtW : ∀ ts s r, ts.all wfTokenB = true → pStmt fuel ts = .ok (s, r) →
    wfStmtB s = true ∧ r.all wfTokenB = true ∧
    (∀ k raw, s = .other k raw → ts.head? = some (.kw k))
  withW : ∀ ts s r, ts.all wfTokenB = true → pWith fuel ts = .ok (s, r) →
    wfStmtB s = true ∧ r.all wfTokenB = true ∧ isOtherRoot s = false
  ctesW : ∀ ts cs r, ts.all wfTokenB = true → pCtes fuel ts = .ok (cs, r) →
    wfCtesB cs = true ∧ r.all wfTokenB = true ∧ cs ≠ []
  selW : ∀ ts s r, ts.all wfTokenB = true → pSelect fuel ts = .ok (s, r) →
    wfStmtB s = true ∧ r.all wfTokenB = true ∧ isOtherRoot s = false
  projListW : ∀ ts ps r, ts.all wfTokenB = true → pProjList fuel ts = .ok (ps, r) →
    wfProjListB ps = true ∧ r.all wfTokenB = true ∧ ps ≠ []
  projW : ∀ ts p r, ts.all wfTokenB = true → pProj fuel ts = .ok (p, r) →
    wfProjB p = true ∧ r.all wfTokenB = true
  fromOptW : ∀ ts o r, ts.all wfTokenB = true → pFromOpt fuel ts = .ok (o, r) →
    wfOptSourceB o = true ∧ r.all wfTokenB = true
  fromItemW : ∀ ts s r, ts.all wfTokenB = true → pFromItem fuel ts = .ok (s, r) →
    wfSourceB s = true ∧ r.all wfTokenB = true
  joinListW : ∀ ts js r, ts.all wfTokenB = true → pJoinList fuel ts = .ok (js, r) →
    wfJoinsB js = true ∧ r.all wfTokenB = true
  sitemW : ∀ ts it r, ts.all wfTokenB = true → pSItem fuel ts = .ok (it, r) →
    wfSItemB it = true ∧ r.all wfTokenB = true
  whereOptW : ∀ ts o r, ts.all wfTokenB = true → pWhereOpt fuel ts = .ok (o, r) →
    wfOptExprB o = true ∧ r.all wfTokenB = true
  groupOptW : ∀ ts es r, ts.all wfTokenB = true → pGroupOpt fuel ts = .ok (es, r) →
    wfExprListB es = true ∧ r.all wfTokenB = true
  havingOptW : ∀ ts o r, ts.all wfTokenB = true → pHavingOpt fuel ts = .ok (o, r) →
    wfOptExprB o = true ∧ r.all wfTokenB = true
  orderOptW : ∀ ts es r, ts.all wfTokenB = true → pOrderOpt fuel ts = .ok (es, r) →
    wfOrderB es = true ∧ r.all wfTokenB = true
  orderListW : ∀ ts es r, ts.all wfTokenB = true → pOrderList fuel ts = .ok (es, r) →
    wfOrderB es = true ∧ r.all wfTokenB = true
  orderTailW : ∀ e d ts es r, wfExprB e = true → ts.all wfTokenB = true →
    pOrderTail fuel e d ts = .ok (es, r) →
    wfOrderB es = true ∧ r.all wfTokenB = true
  limitOptW : ∀ ts lc r, ts.all wfTokenB = true → pLimitOpt fuel ts = .ok (lc, r) →
    wfLimitB lc = true ∧ r.all wfTokenB = true
  exprListW : ∀ ts es r, ts.all wfTokenB = true → pExprList fuel ts = .ok (es, r) →
    wfExprListB es = true ∧ r.all wfTokenB = true
  orW : ∀ ts e r, ts.all wfTokenB = true → pOr fuel ts = .ok (e, r) →
    wfExprB e = true ∧ r.all wfTokenB = true
  orLoopW : ∀ acc ts e r, wfExprB acc = true → ts.all wfTokenB = true →
    pOrLoop fuel acc ts = .ok (e, r) →
    wfExprB e = true ∧ r.all wfTokenB = true
  andW : ∀ ts e r, ts.all wfTokenB = true → pAnd fuel ts = .ok (e, r) →
    wfExprB e = true ∧ r.all wfTokenB = true
  andLoopW : ∀ acc ts e r, wfExprB acc = true → ts.all wfTokenB = true →
    pAndLoop fuel acc ts = .ok (e, r) →
    wfExprB e = true ∧ r.all wfTokenB = true
  cmpW : ∀ ts e r, ts.all wfTokenB = true → pCmp fuel ts = .ok (e, r) →
    wfExprB e = true ∧ r.all wfTokenB = true
  addW : ∀ ts e r, ts.all wfTokenB = true → pAdd fuel ts = .ok (e, r) →
    wfExprB e = true ∧ r.all wfTokenB = true
  addLoopW : ∀ acc ts e r, wfExprB acc = true → ts.all wfTokenB = true →
    pAddLoop fuel acc ts = .ok (e, r) →
    wfExprB e = true ∧ r.all wfTokenB = true
  mulW : ∀ ts e r, ts.all wfTokenB = true → pMul fuel ts = .ok (e, r) →
    wfExprB e = true ∧ r.all wfTokenB = true
  mulLoopW : ∀ acc ts e r, wfExprB acc = true → ts.all wfTokenB = true →
    pMulLoop fuel acc ts = .ok (e, r) →
    wfExprB e = true ∧ r.all wfTokenB = true
  primW : ∀ ts e r, ts.all wfTokenB = true → pPrim fuel ts = .ok (e, r) →
    wfExprB e = true ∧ r.all wfTokenB = true
  argsW : ∀ ts es r, ts.all wfTokenB = true → pArgs fuel ts = .ok (es, r) →
    wfExprListB es = true ∧ r.all wfTokenB = true

/-! ## Inverse statements: each parsing routine re-reads the canonical
token rendering of a well-formed tree, given enough fuel and a remainder
whose head cannot extend the construct. -/

def PrimSt (n : Nat) : Prop :=
  ∀ e : Expr, (tokExpr e).length ≤ n → wfExprB e = true →
    ∀ fuel rest, 64 * (tokExpr e).length ≤ fuel → noneOf primBad rest →
    pPrim fuel (tokExpr e ++ rest) = .ok (e, rest)

def MulSt (n : Nat) : Prop :=
  ∀ e : Expr, (tokExpr e).length ≤ n → wfExprB e = true →
    ∀ fuel rest, 64 * (tokExpr e).length + 2 ≤ fuel → noneOf mulBad rest →
    pMul fuel (tokExpr e ++ rest) = .ok (e, rest)

def AddSt (n : Nat) : Prop :=
  ∀ e : Expr, (tokExpr e).length ≤ n → wfExprB e = true →
    ∀ fuel rest, 64 * (tokExpr e).length + 4 ≤ fuel → noneOf addBad rest →
    pAdd fuel (tokExpr e ++ rest) = .ok (e, rest)

def CmpSt (n : Nat) : Prop :=
  ∀ e : Expr, (tokExpr e).length ≤ n → wfExprB e = true →
    ∀ fuel rest, 64 * (tokExpr e).length + 6 ≤ fuel → noneOf cmpBad rest →
    pCmp fuel (tokExpr e ++ rest) = .ok (e, rest)

def AndSt (n : Nat) : Prop :=
  ∀ e : Expr, (tokExpr e).length ≤ n → wfExprB e = true →
    ∀ fuel rest, 64 * (tokExpr e).length + 8 ≤ fuel → noneOf andBad rest →
    pAnd fuel (tokExpr e ++ rest) = .ok (e, rest)

def OrSt (n : Nat) : Prop :=
  ∀ e : Expr, (tokExpr e).length ≤ n → wfExprB e = true →
    ∀ fuel rest, 64 * (tokExpr e).length + 10 ≤ fuel → noneOf orBad rest →
    pOr fuel (tokExpr e ++ rest) = .ok (e, rest)

def ExprListSt (n : Nat) : Prop :=
  ∀ es : List Expr, es ≠ [] → (tokExprList es).length ≤ n →
    wfExprListB es = true →
    ∀ fuel rest, 64 * (tokExprList es).length + 16 ≤ fuel →
    noneOf exprListBad rest →
    pExprList fuel (tokExprList es ++ rest) = .ok (es, rest)

def ArgsSt (n : Nat) : Prop :=
  ∀ es : List Expr, es ≠ [] → (tokExprList es).length ≤ n →
    wfExprListB es = true →
    ∀ fuel rest, 64 * (tokExprList es).length + 16 ≤ fuel →
    noneOf exprListBad rest →
    pArgs fuel (tokExprList es ++ rest) = .ok (es, rest)

def ProjSt (n : Nat) : Prop :=
  ∀ p : Proj, (tokProj p).length ≤ n → wfProjB p = true →
    ∀ fuel rest, 64 * (tokProj p).length + 12 ≤ fuel → noneOf projBad rest →
    pProj fuel (tokProj p ++ rest) = .ok (p, rest)

def ProjListSt (n : Nat) : Prop :=
  ∀ ps : List Proj, ps ≠ [] → (tokProjList ps).length ≤ n →
    wfProjListB ps = true →
    ∀ fuel rest, 64 * (tokProjList ps).length + 16 ≤ fuel →
    noneOf projListBad rest →
    pProjList fuel (tokProjList ps ++ rest) = .ok (ps, rest)

def SItemSt (n : Nat) : Prop :=
  ∀ it : SItem, (tokSItem it).length ≤ n → wfSItemB it = true →
    ∀ fuel rest, 64 * (tokSItem it).length + 20 ≤ fuel → noneOf sitemBad rest →
    pSItem fuel (tokSItem it ++ rest) = .ok (it, rest)

def JoinsSt (n : Nat) : Prop :=
  ∀ js : List (JoinKind × SItem × Expr), (tokJoins js).length ≤ n →
    wfJoinsB js = true →
    ∀ fuel rest, 64 * (tokJoins js).length + 24 ≤ fuel →
    headIs (rankGe 1) rest →
    pJoinList fuel (tokJoins js ++ rest) = .ok (js, rest)

def SourceSt (n : Nat) : Prop :=
  ∀ s : Source, (tokSource s).length ≤ n → wfSourceB s = true →
    ∀ fuel rest, 64 * (tokSource s).length + 28 ≤ fuel →
    headIs (rankGe 1) rest →
    pFromItem fuel (tokSource s ++ rest) = .ok (s, rest)

def OrderSt (n : Nat) : Prop :=
  ∀ obs : List (Expr × OrderDir), obs ≠ [] → (tokOrder obs).length ≤ n →
    wfOrderB obs = true →
    ∀ fuel rest, 64 * (tokOrder obs).length + 16 ≤ fuel →
    headIs (rankGe 6) rest →
    pOrderList fuel (tokOrder obs ++ rest) = .ok (obs, rest)

def CtesSt (n : Nat) : Prop :=
  ∀ cs : List (String × Stmt), cs ≠ [] → (tokCtes cs).length ≤ n →
    wfCtesB cs = true →
    ∀ fuel rest, 64 * (tokCtes cs).length + 24 ≤ fuel →
    rest.head? ≠ some .comma →
    pCtes fuel (tokCtes cs ++ rest) = .ok (cs, rest)

def StmtSt (n : Nat) : Prop :=
  ∀ s : Stmt, (tokStmt s).length ≤ n → wfStmtB s = true →
    ∀ fuel rest, 64 * (tokStmt s).length + 32 ≤ fuel → stmtFollowB rest = true →
    pStmt fuel (tokStmt s ++ rest) = .ok (s, rest)

/-- The full inverse pack at a token-length bound. -/
structure InvP (n : Nat) : Prop where
  prim : PrimSt n
  mulI : MulSt n
  addI : AddSt n
  cmpI : CmpSt n
  andI : AndSt n
  orI : OrSt n
  exprListI : ExprListSt n
  argsI : ArgsSt n
  projI : ProjSt n
  projListI : ProjListSt n
  sitemI : SItemSt n
  joinsI : JoinsSt n
  sourceI : SourceSt n
  orderI : OrderSt n
  ctesI : CtesSt n
  stmtI : StmtSt n

/-! ## Classifier lemmas -/

/-- A statement whose `With` chain resolves to an `OtherStatement` always
classifies as not read-only. -/
theorem readOnly_false_of_finalBody_other :
    ∀ (s : Stmt) (k : Kw) (raw : List Token),
      finalBody s = .other k raw → isReadOnlySelect s = false
  | .select .., _, _, h => by simp [finalBody] at h
  | .withS recur ctes body, k, raw, h => by
    have ih := readOnly_false_of_finalBody_other body k raw
      (by simpa [finalBody] using h)
    simp [isReadOnlySelect, ih]
  | .other .., _, _, _ => rfl

/-- The classifier agrees with the spec's description: true iff the root
resolves through `With` wrappers to a `Select` and every CTE body is a
`Select`. -/
theorem readOnly_eq_resolve :
    ∀ s : Stmt,
      isReadOnlySelect s = (isSelectStmt (finalBody s) && allCtesSelect s)
  | .select .. => rfl
  | .withS recur ctes body => by
    have ih := readOnly_eq_resolve body
    simp [isReadOnlySelect, finalBody, allCtesSelect, ih]
    cases ctes.all (fun c => isSelectStmt c.2) <;>
      cases isSelectStmt (finalBody body) <;> simp
  | .other .. => rfl

/-- Any-over-filterMap exchange for function-name views. -/
theorem any_filterMap_fn (ns : List NodeV) (p : String → Bool) :
    ((ns.filterMap fun v =>
        match v with
        | .fnN n => some n
        | _ => none).any p)
      = ns.any fun v =>
          match v with
          | .fnN n => p n
          | _ => false := by
  induction ns with
  | nil => rfl
  | cons v ns ih => cases v <;> simp [List.filterMap_cons, ih]

/-! ## Claim theorems -/

/-- C1: for every successfully parsed statement whose root resolves
(through any `With` wrapping) to a data-modifying or administrative
statement — leading keyword in INSERT, UPDATE, DELETE, CREATE, DROP,
ALTER, ATTACH, PRAGMA — the classifier returns false, so `is_select_query`
reports false. -/
theorem c1_classification_soundness (q : String) (s : Stmt) (k : Kw)
    (raw : List Token) (hp : parse q = .ok s) (_hk : k ∈ otherKws)
    (hf : finalBody s = .other k raw) :
    is_select_query q = .ok false := by
  have hro := readOnly_false_of_finalBody_other s k raw hf
  simp [is_select_query, hp, hro]

/-- C1 witness: a DROP statement wrapped in a WITH clause classifies as
not read-only. -/
theorem c1_witness :
    is_select_query "WITH t AS (SELECT a FROM u) DROP TABLE t" = .ok false :=
  c1_classification_soundness _
    (.withS false
      [("t", .select [.expr (.col none "a") none]
        (some (.item (.table "u" none) [])) none [] none [] none)]
      (.other .drop [.ident "TABLE", .ident "t"]))
    .drop [.ident "TABLE", .ident "t"] rfl (by decide) rfl

/-- C2: a query reaches the storage engine only if it parses and
classifies as a read-only select; a parse failure or a false
classification leaves the database untouched and surfaces an error in the
response. -/
theorem c2_execution_gate (dbOk : Bool) (q : String) :
    ((execute_query dbOk q).executed = true → allowed q = true) ∧
    (allowed q = false →
      (execute_query dbOk q).executed = false ∧
      ((execute_query dbOk q).error.isSome = true)) := by
  unfold execute_query is_select_query allowed
  cases hp : parse q with
  | error e => simp
  | ok a =>
    cases hr : isReadOnlySelect a with
    | false => simp [hr]
    | true => cases dbOk <;> simp [hr]

/-- C2 witness: a DROP statement is rejected and never executed. -/
theorem c2_witness :
    (execute_query true "DROP TABLE x").executed = false ∧
    ((execute_query true "DROP TABLE x").error.isSome = true) :=
  (c2_execution_gate true "DROP TABLE x").2 (by decide)

/-- C3: a CTE whose body is a SELECT passes the classifier; a CTE whose
body is a DELETE fails it; in general the classifier accepts exactly the
statements that resolve through `With` wrappers to a `Select` with every
CTE body itself a `Select`. -/
theorem c3_cte_pass_through :
    allowed "WITH t AS (SELECT a FROM u) SELECT * FROM t" = true ∧
    allowed "WITH t AS (DELETE FROM u) SELECT * FROM t" = false ∧
    ∀ s : Stmt,
      isReadOnlySelect s = (isSelectStmt (finalBody s) && allCtesSelect s) :=
  ⟨by decide, by decide, readOnly_eq_resolve⟩

/-- C4: a table name inside a string literal is not mistaken for a table
reference: the P8 query classifies read-only with tables exactly `["t"]`,
and literal nodes contribute no node view at all, so they can never reach
any report field. -/
theorem c4_literal_immunity :
    allowed "SELECT 'DROP TABLE x' AS note FROM t" = true ∧
    tablesOfQuery "SELECT 'DROP TABLE x' AS note FROM t" = ["t"] ∧
    analyze_query "SELECT 'DROP TABLE x' AS note FROM t" =
      .ok ⟨"Select", ["t"], [], false, false, false⟩ ∧
    (∀ s : String, wExpr (.strL s) = []) ∧
    (∀ ds : List Char, wExpr (.numL ds) = []) :=
  ⟨by decide, by decide, rfl, fun _ => rfl, fun _ => rfl⟩

/-- C5: the aggregation flag is set exactly when some function-call node's
name, uppercased, is in the fixed allow-list; AVG(score) (in either case)
sets it, a bare column does not. -/
theorem c5_aggregation_detection :
    (∀ a : Stmt,
      (analyzeAst a).has_aggregations
        = (fnNamesOf a).any fun n => aggFunctions.contains (upStr n)) ∧
    analyze_query "SELECT AVG(score) FROM t" =
      .ok ⟨"Select", ["t"], ["score"], false, true, false⟩ ∧
    analyze_query "SELECT avg(score) FROM t" =
      .ok ⟨"Select", ["t"], ["score"], false, true, false⟩ ∧
    analyze_query "SELECT score FROM t" =
      .ok ⟨"Select", ["t"], ["score"], false, false, false⟩ :=
  ⟨fun a => (any_filterMap_fn (wStmt a) _).symm, rfl, rfl, rfl⟩

/-- C6: input that cannot be tokenized or structurally placed yields a
parse error — never a partial tree — and the classifier surfaces it as a
client-input (HTTP 400) error. -/
theorem c6_malformed_input :
    parse "SELEC * FORM t" = .error "parse: expected a statement" ∧
    is_select_query "SELEC * FORM t" =
      .error (.http400 "Invalid SQL syntax: parse: expected a statement") :=
  ⟨rfl, rfl⟩

/-- C7 counterexample: the extractor does not deduplicate table names — a
table referenced twice appears twice in the report, refuting the
exactly-once reading. -/
theorem c7_counterexample :
    tablesOfQuery "SELECT a FROM x JOIN x ON b = c" = ["x", "x"] ∧
    (tablesOfQuery "SELECT a FROM x JOIN x ON b = c").count "x" ≠ 1 :=
  ⟨by decide, by decide⟩

/-- C7 amended: the tables field lists every `Table` node's identifier in
deterministic pre-order traversal order with duplicates preserved (no
deduplication); on the P3 query the report is exactly as specified. -/
theorem c7_table_extraction :
    (∀ a : Stmt, (analyzeAst a).tables = tableNamesOf a) ∧
    tablesOfQuery "SELECT a FROM x JOIN y ON x.id = y.id" = ["x", "y"] ∧
    analyze_query "SELECT a FROM x JOIN y ON x.id = y.id" =
      .ok ⟨"Select", ["x", "y"], ["a", "id", "id"], true, false, false⟩ :=
  ⟨fun _ => rfl, by decide, rfl⟩

/-- C9: the statement kind records the tag of the root node only, so a
`With`-wrapped select reports the `With` kind rather than `Select`. -/
theorem c9_statement_kind :
    (∀ a : Stmt, (analyzeAst a).query_type = tagName a) ∧
    (∀ (recur : Bool) (ctes : List (String × Stmt)) (body : Stmt),
      tagName (.withS recur ctes body) = "With") ∧
    kindOfQuery "WITH t AS (SELECT a FROM u) SELECT * FROM t" = "With" ∧
    "With" ≠ "Select" :=
  ⟨fun _ => rfl, fun _ _ _ => rfl, by decide, by decide⟩

/-- C10: metadata extraction is total — after any successful parse the
glue returns a complete report, never an error — and unrecognized
constructs (the recorded tail of an `OtherStatement`) contribute to no
field of the report. -/
theorem c10_best_effort_analysis :
    (∀ (q : String) (a : Stmt),
      parse q = .ok a → analyze_query q = .ok (analyzeAst a)) ∧
    (∀ (k : Kw) (raw : List Token),
      analyzeAst (.other k raw) =
        ⟨tagName (.other k raw), [], [], false, false, false⟩) := by
  constructor
  · intro q a hp
    simp [analyze_query, hp]
  · intro k raw
    rfl

/-- C10 witness: a concrete successful parse yields the extractor's
report. -/
theorem c10_witness :
    analyze_query "SELECT a FROM t" =
      .ok (analyzeAst (.select [.expr (.col none "a") none]
        (some (.item (.table "t" none) [])) none [] none [] none)) :=
  c10_best_effort_analysis.1 "SELECT a FROM t"
    (.select [.expr (.col none "a") none]
      (some (.item (.table "t" none) [])) none [] none [] none) rfl


/-! ## Character-class facts -/

theorem string_eta (s : String) : String.mk s.data = s := by cases s; rfl

theorem ws_ne_of {c : Char} (hws : isWsChar c = true) (d : Char)
    (hd : isWsChar d = false) : c ≠ d := by
  intro h; subst h; rw [hws] at hd; cases hd

theorem ws_not_identChar {c : Char} (h : isWsChar c = true) :
    isIdentChar c = false := by
  simp [isWsChar] at h
  simp [isIdentChar, isIdentStart, isDigitC]
  omega

theorem ws_not_digit {c : Char} (h : isWsChar c = true) : isDigitC c = false := by
  simp [isWsChar] at h; simp [isDigitC]; omega

theorem digit_not_identStart {c : Char} (h : isDigitC c = true) :
    isIdentStart c = false := by
  simp [isDigitC] at h; simp [isIdentStart]; omega

theorem identStart_not_ws {c : Char} (h : isIdentStart c = true) :
    isWsChar c = false := by
  simp [isIdentStart] at h; simp [isWsChar]; omega

theorem identStart_identChar {c : Char} (h : isIdentStart c = true) :
    isIdentChar c = true := by simp [isIdentChar, h]

theorem digit_not_ws {c : Char} (h : isDigitC c = true) : isWsChar c = false := by
  simp [isDigitC] at h; simp [isWsChar]; omega

theorem wsB_headNot_identChar {rest : List Char} (h : wsB rest) :
    headNot isIdentChar rest := by
  match rest, h with
  | [], _ => trivial
  | c :: _, h => exact ws_not_identChar h

theorem wsB_headNot_digit {rest : List Char} (h : wsB rest) :
    headNot isDigitC rest := by
  match rest, h with
  | [], _ => trivial
  | c :: _, h => exact ws_not_digit h

/-! ## TakeWhile and dropWhile over a boundary -/

theorem takeWhile_append_all {α : Type} (p : α → Bool) :
    ∀ (xs rest : List α), xs.all p = true → headNot p rest →
      (xs ++ rest).takeWhile p = xs ∧ (xs ++ rest).dropWhile p = rest
  | [], rest, _, hb => by
    match rest, hb with
    | [], _ => exact ⟨rfl, rfl⟩
    | c :: rs, hb =>
      have hb' : p c = false := hb
      simp [List.takeWhile_cons, List.dropWhile_cons, hb']
  | x :: xs, rest, hall, hb => by
    simp only [List.all_cons, Bool.and_eq_true] at hall
    have ih := takeWhile_append_all p xs rest hall.2 hb
    simp [List.takeWhile_cons, List.dropWhile_cons, hall.1, ih.1, ih.2]

theorem all_takeWhile {α : Type} (p : α → Bool) :
    ∀ l : List α, (l.takeWhile p).all p = true
  | [] => rfl
  | x :: xs => by
    by_cases h : p x <;>
      simp [List.takeWhile_cons, h, all_takeWhile p xs]

/-! ## Scanning a single rendered token -/

theorem scan1_identStart (c : Char) (cs : List Char)
    (h : isIdentStart c = true) :
    scan1 (c :: cs) =
      (match kwOfChars (upList ((c :: cs).takeWhile isIdentChar)) with
       | some k => .ok (.kw k, (c :: cs).dropWhile isIdentChar)
       | none =>
         .ok (.ident ⟨(c :: cs).takeWhile isIdentChar⟩,
           (c :: cs).dropWhile isIdentChar)) := by
  simp [scan1, h]

theorem scan1_digitStart (c : Char) (cs : List Char)
    (h : isDigitC c = true) :
    scan1 (c :: cs) =
      .ok (.numLit ((c :: cs).takeWhile isDigitC),
        (c :: cs).dropWhile isDigitC) := by
  simp [scan1, digit_not_identStart h, h]

theorem scan1_word (c : Char) (cs rest : List Char) (k : Kw)
    (hc : isIdentStart c = true) (hcs : (c :: cs).all isIdentChar = true)
    (hk : kwOfChars (upList (c :: cs)) = some k)
    (hbId : headNot isIdentChar rest) :
    scan1 ((c :: cs) ++ rest) = .ok (.kw k, rest) := by
  have h2 := takeWhile_append_all isIdentChar (c :: cs) rest hcs hbId
  rw [List.cons_append, scan1_identStart c (cs ++ rest) hc,
    ← List.cons_append, h2.1, h2.2, hk]


theorem lexChars_start (t : Token) (hwf : wfTokenB t = true) :
    ∃ c cs, lexChars t = c :: cs ∧ isWsChar c = false ∧
      ((c = '-' ∨ c = '/') → cs = []) := by
  cases t with
  | kw k => cases k <;> exact ⟨_, _, rfl, by decide, by decide⟩
  | ident s =>
    rcases hs : s.data with _ | ⟨c, cs⟩
    · simp [wfTokenB, wfIdentB, hs] at hwf
    · simp only [wfTokenB, wfIdentB, hs, Bool.and_eq_true] at hwf
      refine ⟨c, cs, by simp [lexChars, hs], identStart_not_ws hwf.1.1, ?_⟩
      rintro (rfl | rfl) <;> exact absurd hwf.1.1 (by decide)
  | strLit s =>
    refine ⟨'\'', s.data ++ ['\''], rfl, by decide, ?_⟩
    rintro (h | h) <;> exact absurd h (by decide)
  | numLit ds =>
    rcases ds with _ | ⟨c, cs⟩
    · simp [wfTokenB] at hwf
    · simp only [wfTokenB, List.all_cons, Bool.and_eq_true] at hwf
      refine ⟨c, cs, rfl, digit_not_ws hwf.2.1, ?_⟩
      rintro (rfl | rfl) <;> exact absurd hwf.2.1 (by decide)
  | opTok o => cases o <;> exact ⟨_, _, rfl, by decide, by decide⟩
  | lparen => exact ⟨_, _, rfl, by decide, by decide⟩
  | rparen => exact ⟨_, _, rfl, by decide, by decide⟩
  | comma => exact ⟨_, _, rfl, by decide, by decide⟩
  | semi => exact ⟨_, _, rfl, by decide, by decide⟩
  | dot => exact ⟨_, _, rfl, by decide, by decide⟩
  | star => exact ⟨_, _, rfl, by decide, by decide⟩

theorem scan1_token (t : Token) (hwf : wfTokenB t = true) (rest : List Char)
    (hb : wsB rest) : scan1 (lexChars t ++ rest) = .ok (t, rest) := by
  have hbId : headNot isIdentChar rest := wsB_headNot_identChar hb
  have hbDig : headNot isDigitC rest := wsB_headNot_digit hb
  cases t with
  | kw k =>
    cases k <;>
      exact scan1_word _ _ rest _ (by decide) (by decide) (by decide) hbId
  | ident s =>
    rcases hs : s.data with _ | ⟨c, cs⟩
    · simp [wfTokenB, wfIdentB, hs] at hwf
    · simp only [wfTokenB, wfIdentB, hs, Bool.and_eq_true,
        Option.isNone_iff_eq_none] at hwf
      have hall : (c :: cs).all isIdentChar = true := by
        simp [identStart_identChar hwf.1.1, hwf.1.2]
      have h2 := takeWhile_append_all isIdentChar (c :: cs) rest hall hbId
      have hl : lexChars (.ident s) = c :: cs := by simp [lexChars, hs]
      have hk : kwOfChars (upList s.data) = none := by rw [hs]; exact hwf.2
      rw [hl, List.cons_append, scan1_identStart c (cs ++ rest) hwf.1.1,
        ← List.cons_append, h2.1, h2.2, ← hs, hk, string_eta]
  | strLit s =>
    have hq : lexChars (.strLit s) ++ rest = '\'' :: (s.data ++ '\'' :: rest) := by
      simp [lexChars]
    rw [hq]
    have h2 := takeWhile_append_all (fun d => decide (d ≠ '\'')) s.data
      ('\'' :: rest) (by simpa [wfTokenB] using hwf) (by simp [headNot])
    show (match (s.data ++ '\'' :: rest).dropWhile (fun d => d ≠ '\'') with
      | '\'' :: cs' =>
        Except.ok (Token.strLit ⟨(s.data ++ '\'' :: rest).takeWhile
          (fun d => d ≠ '\'')⟩, cs')
      | _ => Except.error "lex: unterminated string literal") =
        .ok (.strLit s, rest)
    rw [h2.1, h2.2, string_eta]
    rfl
  | numLit ds =>
    rcases ds with _ | ⟨c, cs⟩
    · simp [wfTokenB] at hwf
    · simp only [wfTokenB, Bool.and_eq_true] at hwf
      have hd : isDigitC c = true := by
        have := hwf.2; simp only [List.all_cons, Bool.and_eq_true] at this
        exact this.1
      have h2 := takeWhile_append_all isDigitC (c :: cs) rest hwf.2 hbDig
      show scan1 ((c :: cs) ++ rest) = _
      rw [List.cons_append, scan1_digitStart c (cs ++ rest) hd,
        ← List.cons_append, h2.1, h2.2]
  | opTok o =>
    cases o with
    | eqS => rfl
    | plusS => rfl
    | minusS => rfl
    | divS => rfl
    | leS => rfl
    | geS => rfl
    | neS => rfl
    | concatS => rfl
    | ltS =>
      rcases rest with _ | ⟨c, rs⟩
      · rfl
      · have hb' : isWsChar c = true := hb
        have h1 : c ≠ '=' := ws_ne_of hb' '=' (by decide)
        have h2 : c ≠ '>' := ws_ne_of hb' '>' (by decide)
        simp [scan1, lexChars, h1, h2,
          (by decide : isIdentStart '<' = false),
          (by decide : isDigitC '<' = false)]
    | gtS =>
      rcases rest with _ | ⟨c, rs⟩
      · rfl
      · have hb' : isWsChar c = true := hb
        have h1 : c ≠ '=' := ws_ne_of hb' '=' (by decide)
        simp [scan1, lexChars, h1,
          (by decide : isIdentStart '>' = false),
          (by decide : isDigitC '>' = false)]
  | lparen => rfl
  | rparen => rfl
  | comma => rfl
  | semi => rfl
  | dot => rfl
  | star => rfl


theorem sepFor_ws (pretty : Bool) (u : Token) :
    isWsChar (sepFor pretty u) = true := by
  unfold sepFor; split <;> decide

theorem lexChars_ne_nil (t : Token) (hwf : wfTokenB t = true) :
    1 ≤ (lexChars t).length := by
  obtain ⟨c, cs, hl, -, -⟩ := lexChars_start t hwf
  simp [hl]

theorem lexAux_token (t : Token) (hwf : wfTokenB t = true) (rest : List Char)
    (hb : wsB rest) (fuel : Nat) :
    lexAux (fuel + 1) (lexChars t ++ rest) =
      (match lexAux fuel rest with
       | .ok ts => .ok (t :: ts)
       | .error e => .error e) := by
  obtain ⟨c, cs, hl, hcws, hcm⟩ := lexChars_start t hwf
  have hscan : scan1 (c :: (cs ++ rest)) = .ok (t, rest) := by
    rw [← List.cons_append, ← hl]; exact scan1_token t hwf rest hb
  rw [hl, List.cons_append]
  by_cases hc : c = '-' ∨ c = '/'
  · have hcs0 : cs = [] := hcm hc
    subst hcs0
    simp only [List.nil_append] at hscan
    rcases rest with _ | ⟨d, rs⟩
    · simp [lexAux, hcws, hscan]
    · have hd : isWsChar d = true := hb
      have hd1 : d ≠ '-' := ws_ne_of hd '-' (by decide)
      have hd2 : d ≠ '*' := ws_ne_of hd '*' (by decide)
      simp [lexAux, hcws, hscan, hd1, hd2]
  · push_neg at hc
    simp [lexAux, hcws, hscan, hc.1, hc.2]

theorem lexAux_render (pretty : Bool) :
    ∀ (ts : List Token) (fuel : Nat), ts.all wfTokenB = true →
      (render pretty ts).length < fuel →
      lexAux fuel (render pretty ts) = .ok ts
  | [], fuel, _, hf => by
    obtain ⟨f, rfl⟩ : ∃ f, fuel = f + 1 := ⟨fuel - 1, by omega⟩
    rfl
  | [t], fuel, hwf, hf => by
    simp only [List.all_cons, List.all_nil, Bool.and_true] at hwf
    have hlen : 1 ≤ (render pretty [t]).length := by
      have := lexChars_ne_nil t hwf
      simp [render]; omega
    obtain ⟨f2, rfl⟩ : ∃ f2, fuel = f2 + 2 := ⟨fuel - 2, by omega⟩
    have hr : (render pretty [t] : List Char) = lexChars t ++ [] := by
      simp [render]
    rw [hr, lexAux_token t hwf [] trivial (f2 + 1)]
    rfl
  | t :: u :: ts, fuel, hwf, hf => by
    simp only [List.all_cons, Bool.and_eq_true] at hwf
    have hr : render pretty (t :: u :: ts) =
        lexChars t ++ (sepFor pretty u :: render pretty (u :: ts)) := rfl
    have hlen1 := lexChars_ne_nil t hwf.1
    have hlen : (render pretty (t :: u :: ts)).length =
        (lexChars t).length + 1 + (render pretty (u :: ts)).length := by
      rw [hr]; simp [List.length_append]; omega
    obtain ⟨f2, rfl⟩ : ∃ f2, fuel = f2 + 2 := ⟨fuel - 2, by omega⟩
    rw [hr, lexAux_token t hwf.1 _
      (show wsB (sepFor pretty u :: render pretty (u :: ts)) from
        sepFor_ws pretty u) (f2 + 1)]
    have hstep : lexAux (f2 + 1) (sepFor pretty u :: render pretty (u :: ts)) =
        lexAux f2 (render pretty (u :: ts)) := by
      simp [lexAux, sepFor_ws pretty u]
    rw [hstep, lexAux_render pretty (u :: ts) f2
      (by simp [hwf.2.1, hwf.2.2]) (by omega)]

theorem lex_render (pretty : Bool) (ts : List Token)
    (hwf : ts.all wfTokenB = true) :
    lex (render pretty ts) = .ok ts :=
  lexAux_render pretty ts ((render pretty ts).length + 1) hwf (by omega)


theorem wfTokenB_kw (k : Kw) : wfTokenB (.kw k) = true := rfl

theorem wfTokenB_ident (s : String) : wfTokenB (.ident s) = wfIdentB s := rfl

theorem wfTokenB_lparen : wfTokenB .lparen = true := rfl

theorem wfTokenB_rparen : wfTokenB .rparen = true := rfl

theorem wfTokenB_comma : wfTokenB .comma = true := rfl

theorem wfTokenB_star : wfTokenB .star = true := rfl

theorem wfTokenB_dot : wfTokenB .dot = true := rfl

theorem wfTokenB_semi : wfTokenB .semi = true := rfl

theorem opToken_wf (o : BinOp) : wfTokenB (opToken o) = true := by
  cases o <;> rfl

theorem dirToken_wf (d : OrderDir) : wfTokenB (dirToken d) = true := by
  cases d <;> rfl

theorem tokAlias_wf (al : Option String) (h : wfAliasB al = true) :
    (tokAlias al).all wfTokenB = true := by
  cases al with
  | none => rfl
  | some a =>
    simp only [wfAliasB] at h
    simp [tokAlias, wfTokenB_kw, wfTokenB_ident, h]

theorem tokJoinKind_wf (k : JoinKind) :
    (tokJoinKind k).all wfTokenB = true := by
  cases k <;> rfl

mutual

theorem tokExpr_wf : ∀ e, wfExprB e = true → (tokExpr e).all wfTokenB = true
  | .col none n, h => by
    simp only [wfExprB] at h
    simp [tokExpr, wfTokenB_ident, h]
  | .col (some t) n, h => by
    simp only [wfExprB, Bool.and_eq_true] at h
    simp [tokExpr, wfTokenB_ident, h.1, h.2, wfTokenB_dot]
  | .numL ds, h => by
    simp only [wfExprB] at h
    simp only [tokExpr, List.all_cons, List.all_nil, Bool.and_true]
    exact h
  | .strL s, h => by
    simp only [wfExprB] at h
    simp only [tokExpr, List.all_cons, List.all_nil, Bool.and_true]
    exact h
  | .fn n args, h => by
    simp only [wfExprB, Bool.and_eq_true] at h
    have h2 := tokArgs_wf args h.2
    simp [tokExpr, wfTokenB_ident, wfTokenB_lparen, wfTokenB_rparen, h.1, h2,
      List.all_append]
  | .bin o l r, h => by
    simp only [wfExprB, Bool.and_eq_true] at h
    have h1 := tokExpr_wf l h.1
    have h2 := tokExpr_wf r h.2
    simp [tokExpr, h1, h2, List.all_append, opToken_wf, wfTokenB_lparen,
      wfTokenB_rparen]
  | .sub s, h => by
    simp only [wfExprB, Bool.and_eq_true] at h
    have h1 := tokStmt_wf s h.2
    simp [tokExpr, h1, List.all_append, wfTokenB_lparen, wfTokenB_rparen]

theorem tokArgs_wf : ∀ a, wfArgsB a = true → (tokArgs a).all wfTokenB = true
  | .star, _ => rfl
  | .exprs es, h => by
    simp only [wfArgsB] at h
    exact tokExprList_wf es h

theorem tokExprList_wf :
    ∀ es, wfExprListB es = true → (tokExprList es).all wfTokenB = true
  | [], _ => rfl
  | e :: es, h => by
    simp only [wfExprListB, Bool.and_eq_true] at h
    have h1 := tokExpr_wf e h.1
    have h2 := tokExprListTail_wf es h.2
    simp [tokExprList, h1, h2, List.all_append]

theorem tokExprListTail_wf :
    ∀ es, wfExprListB es = true → (tokExprListTail es).all wfTokenB = true
  | [], _ => rfl
  | e :: es, h => by
    simp only [wfExprListB, Bool.and_eq_true] at h
    have h1 := tokExpr_wf e h.1
    have h2 := tokExprListTail_wf es h.2
    simp [tokExprListTail, h1, h2, List.all_append, wfTokenB_comma]

theorem tokProj_wf : ∀ p, wfProjB p = true → (tokProj p).all wfTokenB = true
  | .star, _ => rfl
  | .expr e none, h => by
    simp only [wfProjB, wfAliasB, Bool.and_true] at h
    simp only [tokProj]
    exact tokExpr_wf e h
  | .expr e (some a), h => by
    simp only [wfProjB, wfAliasB, Bool.and_eq_true] at h
    have h1 := tokExpr_wf e h.1
    simp [tokProj, h1, h.2, List.all_append, wfTokenB_kw, wfTokenB_ident]

theorem tokProjList_wf :
    ∀ ps, wfProjListB ps = true → (tokProjList ps).all wfTokenB = true
  | [], _ => rfl
  | p :: ps, h => by
    simp only [wfProjListB, Bool.and_eq_true] at h
    have h1 := tokProj_wf p h.1
    have h2 := tokProjListTail_wf ps h.2
    simp [tokProjList, h1, h2, List.all_append]

theorem tokProjListTail_wf :
    ∀ ps, wfProjListB ps = true → (tokProjListTail ps).all wfTokenB = true
  | [], _ => rfl
  | p :: ps, h => by
    simp only [wfProjListB, Bool.and_eq_true] at h
    have h1 := tokProj_wf p h.1
    have h2 := tokProjListTail_wf ps h.2
    simp [tokProjListTail, h1, h2, List.all_append, wfTokenB_comma]

theorem tokSItem_wf : ∀ it, wfSItemB it = true → (tokSItem it).all wfTokenB = true
  | .table n al, h => by
    simp only [wfSItemB, Bool.and_eq_true] at h
    have h2 := tokAlias_wf al h.2
    simp [tokSItem, wfTokenB_ident, h.1, h2]
  | .sub s al, h => by
    simp only [wfSItemB, Bool.and_eq_true] at h
    have h1 := tokStmt_wf s h.1
    have h2 := tokAlias_wf al h.2
    simp [tokSItem, h1, h2, List.all_append, wfTokenB_lparen, wfTokenB_rparen]

theorem tokJoins_wf :
    ∀ js, wfJoinsB js = true → (tokJoins js).all wfTokenB = true
  | [], _ => rfl
  | (k, it, e) :: js, h => by
    simp only [wfJoinsB, Bool.and_eq_true] at h
    have h1 := tokSItem_wf it h.1.1
    have h2 := tokExpr_wf e h.1.2
    have h3 := tokJoins_wf js h.2
    simp [tokJoins, h1, h2, h3, List.all_append, tokJoinKind_wf, wfTokenB_kw]

theorem tokSource_wf :
    ∀ s, wfSourceB s = true → (tokSource s).all wfTokenB = true
  | .item base js, h => by
    simp only [wfSourceB, Bool.and_eq_true] at h
    have h1 := tokSItem_wf base h.1
    have h2 := tokJoins_wf js h.2
    simp [tokSource, h1, h2, List.all_append]

theorem tokOrder_wf :
    ∀ es, wfOrderB es = true → (tokOrder es).all wfTokenB = true
  | [], _ => rfl
  | (e, d) :: es, h => by
    simp only [wfOrderB, Bool.and_eq_true] at h
    have h1 := tokExpr_wf e h.1
    have h2 := tokOrderTail_wf es h.2
    simp [tokOrder, h1, h2, List.all_append, dirToken_wf]

theorem tokOrderTail_wf :
    ∀ es, wfOrderB es = true → (tokOrderTail es).all wfTokenB = true
  | [], _ => rfl
  | (e, d) :: es, h => by
    simp only [wfOrderB, Bool.and_eq_true] at h
    have h1 := tokExpr_wf e h.1
    have h2 := tokOrderTail_wf es h.2
    simp [tokOrderTail, h1, h2, List.all_append, dirToken_wf, wfTokenB_comma]

theorem tokCtes_wf :
    ∀ cs, wfCtesB cs = true → (tokCtes cs).all wfTokenB = true
  | [], _ => rfl
  | (n, s) :: cs, h => by
    simp only [wfCtesB, Bool.and_eq_true] at h
    have h1 := tokStmt_wf s h.1.2
    have h2 := tokCtesTail_wf cs h.2
    simp [tokCtes, h1, h2, List.all_append, wfTokenB_kw, wfTokenB_ident,
      wfTokenB_lparen, wfTokenB_rparen, h.1.1]

theorem tokCtesTail_wf :
    ∀ cs, wfCtesB cs = true → (tokCtesTail cs).all wfTokenB = true
  | [], _ => rfl
  | (n, s) :: cs, h => by
    simp only [wfCtesB, Bool.and_eq_true] at h
    have h1 := tokStmt_wf s h.1.2
    have h2 := tokCtesTail_wf cs h.2
    simp [tokCtesTail, h1, h2, List.all_append, wfTokenB_kw, wfTokenB_ident,
      wfTokenB_lparen, wfTokenB_rparen, wfTokenB_comma, h.1.1]

theorem tokFromSeg_wf :
    ∀ src, wfOptSourceB src = true → (tokFromSeg src).all wfTokenB = true
  | none, _ => rfl
  | some s, h => by
    simp only [wfOptSourceB] at h
    simp [tokFromSeg, tokSource_wf s h, wfTokenB_kw]

theorem tokWhereSeg_wf :
    ∀ w, wfOptExprB w = true → (tokWhereSeg w).all wfTokenB = true
  | none, _ => rfl
  | some e, h => by
    simp only [wfOptExprB] at h
    simp [tokWhereSeg, tokExpr_wf e h, wfTokenB_kw]

theorem tokGroupSeg_wf :
    ∀ g, wfExprListB g = true → (tokGroupSeg g).all wfTokenB = true
  | [], _ => rfl
  | e :: es, h => by
    simp only [wfExprListB, Bool.and_eq_true] at h
    have h1 := tokExpr_wf e h.1
    have h2 := tokExprListTail_wf es h.2
    simp [tokGroupSeg, h1, h2, List.all_append, wfTokenB_kw]

theorem tokHavingSeg_wf :
    ∀ w, wfOptExprB w = true → (tokHavingSeg w).all wfTokenB = true
  | none, _ => rfl
  | some e, h => by
    simp only [wfOptExprB] at h
    simp [tokHavingSeg, tokExpr_wf e h, wfTokenB_kw]

theorem tokOrderSeg_wf :
    ∀ o, wfOrderB o = true → (tokOrderSeg o).all wfTokenB = true
  | [], _ => rfl
  | (e, d) :: es, h => by
    simp only [wfOrderB, Bool.and_eq_true] at h
    have h1 := tokExpr_wf e h.1
    have h2 := tokOrderTail_wf es h.2
    simp [tokOrderSeg, h1, h2, List.all_append, wfTokenB_kw, dirToken_wf]

theorem tokOffSeg_wf :
    ∀ o, wfOptExprB o = true → (tokOffSeg o).all wfTokenB = true
  | none, _ => rfl
  | some e, h => by
    simp only [wfOptExprB] at h
    simp [tokOffSeg, tokExpr_wf e h, wfTokenB_kw]

theorem tokLimitSeg_wf :
    ∀ l, wfLimitB l = true → (tokLimitSeg l).all wfTokenB = true
  | none, _ => rfl
  | some (e, o), h => by
    simp only [wfLimitB, Bool.and_eq_true] at h
    simp [tokLimitSeg, tokExpr_wf e h.1, tokOffSeg_wf o h.2,
      List.all_append, wfTokenB_kw]

theorem tokStmt_wf : ∀ s, wfStmtB s = true → (tokStmt s).all wfTokenB = true
  | .select projs src whereC groupBy havingC orderBy limitC, h => by
    simp only [wfStmtB, Bool.and_eq_true] at h
    obtain ⟨⟨⟨⟨⟨⟨⟨hne, hp⟩, hsrc⟩, hw⟩, hg⟩, hh⟩, ho⟩, hl⟩ := h
    simp [tokStmt, List.all_append, tokProjList_wf projs hp,
      tokFromSeg_wf src hsrc, tokWhereSeg_wf whereC hw,
      tokGroupSeg_wf groupBy hg, tokHavingSeg_wf havingC hh,
      tokOrderSeg_wf orderBy ho, tokLimitSeg_wf limitC hl, wfTokenB_kw]
  | .withS recur ctes body, h => by
    simp only [wfStmtB, Bool.and_eq_true] at h
    have h1 := tokCtes_wf ctes h.1.2
    have h2 := tokStmt_wf body h.2
    cases recur <;>
      simp [tokStmt, h1, h2, List.all_append, wfTokenB_kw]
  | .other k raw, h => by
    simp only [wfStmtB, Bool.and_eq_true] at h
    simp [tokStmt, wfTokenB_kw, h.1.2]

end


/-! ## The lexer only produces well-formed tokens -/

set_option maxHeartbeats 2000000 in
theorem scan1_wf (cs : List Char) (t : Token) (rest : List Char)
    (h : scan1 cs = .ok (t, rest)) : wfTokenB t = true := by
  match cs with
  | [] => exact absurd h (by simp [scan1])
  | c :: cs' =>
    simp only [scan1] at h
    cases h1 : isIdentStart c with
    | true =>
      rw [if_pos h1] at h
      split at h
      · cases h; rfl
      · rename_i hkw
        cases h
        have hw : List.takeWhile isIdentChar (c :: cs') =
            c :: List.takeWhile isIdentChar cs' := by
          rw [List.takeWhile_cons, if_pos (identStart_identChar h1)]
        show wfIdentB ⟨List.takeWhile isIdentChar (c :: cs')⟩ = true
        unfold wfIdentB
        simp only [hw, Bool.and_eq_true]
        refine ⟨⟨h1, all_takeWhile isIdentChar cs'⟩, ?_⟩
        rw [← hw, hkw]
        rfl
    | false =>
      rw [if_neg (by rw [h1]; exact Bool.false_ne_true)] at h
      cases h2 : isDigitC c with
      | true =>
        rw [if_pos h2] at h
        cases h
        simp only [wfTokenB, Bool.and_eq_true]
        constructor
        · rw [List.takeWhile_cons, if_pos h2]; simp
        · exact all_takeWhile isDigitC (c :: cs')
      | false =>
        rw [if_neg (by rw [h2]; exact Bool.false_ne_true)] at h
        by_cases hc1 : c = '('
        · rw [if_pos hc1] at h; cases h; rfl
        rw [if_neg hc1] at h
        by_cases hc2 : c = ')'
        · rw [if_pos hc2] at h; cases h; rfl
        rw [if_neg hc2] at h
        by_cases hc3 : c = ','
        · rw [if_pos hc3] at h; cases h; rfl
        rw [if_neg hc3] at h
        by_cases hc4 : c = ';'
        · rw [if_pos hc4] at h; cases h; rfl
        rw [if_neg hc4] at h
        by_cases hc5 : c = '.'
        · rw [if_pos hc5] at h; cases h; rfl
        rw [if_neg hc5] at h
        by_cases hc6 : c = '*'
        · rw [if_pos hc6] at h; cases h; rfl
        rw [if_neg hc6] at h
        by_cases hc7 : c = '='
        · rw [if_pos hc7] at h; cases h; rfl
        rw [if_neg hc7] at h
        by_cases hc8 : c = '+'
        · rw [if_pos hc8] at h; cases h; rfl
        rw [if_neg hc8] at h
        by_cases hc9 : c = '-'
        · rw [if_pos hc9] at h; cases h; rfl
        rw [if_neg hc9] at h
        by_cases hc10 : c = '/'
        · rw [if_pos hc10] at h; cases h; rfl
        rw [if_neg hc10] at h
        by_cases hc11 : c = '<'
        · rw [if_pos hc11] at h
          split at h <;> (cases h; rfl)
        rw [if_neg hc11] at h
        by_cases hc12 : c = '>'
        · rw [if_pos hc12] at h
          split at h <;> (cases h; rfl)
        rw [if_neg hc12] at h
        by_cases hc13 : c = '|'
        · rw [if_pos hc13] at h
          split at h
          · cases h; rfl
          · exact Except.noConfusion h
        rw [if_neg hc13] at h
        by_cases hc14 : c = '\''
        · rw [if_pos hc14] at h
          split at h
          · cases h
            simp only [wfTokenB]
            exact all_takeWhile _ cs'
          · exact Except.noConfusion h
        rw [if_neg hc14] at h
        exact Except.noConfusion h

theorem lexAux_wf : ∀ (fuel : Nat) (cs : List Char) (ts : List Token),
    lexAux fuel cs = .ok ts → ts.all wfTokenB = true := by
  intro fuel
  induction fuel with
  | zero => intro cs ts h; exact absurd h (by simp [lexAux])
  | succ f ih =>
    intro cs ts h
    match cs with
    | [] =>
      rw [show lexAux (f + 1) [] = .ok [] from rfl] at h
      cases h; rfl
    | c :: cs' =>
      unfold lexAux at h
      split_ifs at h
      · exact ih _ _ h
      · exact ih _ _ h
      · split at h
        · exact ih _ _ h
        · cases h
      · split at h
        · rename_i t rest hscan
          split at h
          · rename_i ts' hrest
            cases h
            simp only [List.all_cons, Bool.and_eq_true]
            exact ⟨scan1_wf _ _ _ hscan, ih _ _ hrest⟩
          · cases h
        · cases h

theorem lex_wf (cs : List Char) (ts : List Token) (h : lex cs = .ok ts) :
    ts.all wfTokenB = true := lexAux_wf _ _ _ h

/-! ## OtherStatement tails -/

theorem splitOther_append :
    ∀ (raw : List Token) (d : Nat) (rest : List Token),
      rawScan d raw = some 0 → stmtFollowB rest = true →
      splitOther d (raw ++ rest) = (raw, rest) := by
  intro raw
  induction raw with
  | nil =>
    intro d rest hscan hrest
    simp only [rawScan, Option.some_inj] at hscan
    subst hscan
    match rest, hrest with
    | [], _ => rfl
    | .rparen :: ts, _ => rfl
    | .semi :: ts, _ => rfl
  | cons t raw' ih =>
    intro d rest hscan hrest
    cases t with
    | semi =>
      rcases Nat.eq_zero_or_pos d with hd | hd
      · subst hd; simp [rawScan] at hscan
      · have hd' : ¬(d = 0) := by omega
        simp only [rawScan, if_neg hd'] at hscan
        simp only [List.cons_append, splitOther, if_neg hd']
        rw [show List.append raw' rest = raw' ++ rest from rfl,
          ih d rest hscan hrest]
    | rparen =>
      rcases Nat.eq_zero_or_pos d with hd | hd
      · subst hd; simp [rawScan] at hscan
      · have hd' : ¬(d = 0) := by omega
        simp only [rawScan, if_neg hd'] at hscan
        simp only [List.cons_append, splitOther, if_neg hd']
        rw [show List.append raw' rest = raw' ++ rest from rfl,
          ih (d - 1) rest hscan hrest]
    | lparen =>
      simp only [rawScan] at hscan
      simp only [List.cons_append, splitOther]
      rw [show List.append raw' rest = raw' ++ rest from rfl,
        ih (d + 1) rest hscan hrest]
    | kw k =>
      simp only [rawScan] at hscan
      simp only [List.cons_append, splitOther]
      rw [show List.append raw' rest = raw' ++ rest from rfl,
        ih d rest hscan hrest]
    | ident s =>
      simp only [rawScan] at hscan
      simp only [List.cons_append, splitOther]
      rw [show List.append raw' rest = raw' ++ rest from rfl,
        ih d rest hscan hrest]
    | strLit s =>
      simp only [rawScan] at hscan
      simp only [List.cons_append, splitOther]
      rw [show List.append raw' rest = raw' ++ rest from rfl,
        ih d rest hscan hrest]
    | numLit ds =>
      simp only [rawScan] at hscan
      simp only [List.cons_append, splitOther]
      rw [show List.append raw' rest = raw' ++ rest from rfl,
        ih d rest hscan hrest]
    | opTok o =>
      simp only [rawScan] at hscan
      simp only [List.cons_append, splitOther]
      rw [show List.append raw' rest = raw' ++ rest from rfl,
        ih d rest hscan hrest]
    | comma =>
      simp only [rawScan] at hscan
      simp only [List.cons_append, splitOther]
      rw [show List.append raw' rest = raw' ++ rest from rfl,
        ih d rest hscan hrest]
    | dot =>
      simp only [rawScan] at hscan
      simp only [List.cons_append, splitOther]
      rw [show List.append raw' rest = raw' ++ rest from rfl,
        ih d rest hscan hrest]
    | star =>
      simp only [rawScan] at hscan
      simp only [List.cons_append, splitOther]
      rw [show List.append raw' rest = raw' ++ rest from rfl,
        ih d rest hscan hrest]

theorem splitOther_sublist_wf :
    ∀ (ts : List Token) (d : Nat), ts.all wfTokenB = true →
      (splitOther d ts).1.all wfTokenB = true ∧
      (splitOther d ts).2.all wfTokenB = true := by
  intro ts
  induction ts with
  | nil => intro d _; exact ⟨rfl, rfl⟩
  | cons t ts' ih =>
    intro d hts
    simp only [List.all_cons, Bool.and_eq_true] at hts
    cases t with
    | semi =>
      by_cases hd : d = 0
      · subst hd
        simp only [splitOther, if_pos rfl]
        exact ⟨rfl, by simp [hts.1, hts.2]⟩
      · obtain ⟨ha, hb⟩ := ih d hts.2
        simp only [splitOther, if_neg hd]
        rcases hsp : splitOther d ts' with ⟨a, b⟩
        rw [hsp] at ha hb
        exact ⟨by simp [hts.1, ha], hb⟩
    | rparen =>
      by_cases hd : d = 0
      · subst hd
        simp only [splitOther, if_pos rfl]
        exact ⟨rfl, by simp [hts.1, hts.2]⟩
      · obtain ⟨ha, hb⟩ := ih (d - 1) hts.2
        simp only [splitOther, if_neg hd]
        rcases hsp : splitOther (d - 1) ts' with ⟨a, b⟩
        rw [hsp] at ha hb
        exact ⟨by simp [hts.1, ha], hb⟩
    | lparen =>
      obtain ⟨ha, hb⟩ := ih (d + 1) hts.2
      simp only [splitOther]
      rcases hsp : splitOther (d + 1) ts' with ⟨a, b⟩
      rw [hsp] at ha hb
      exact ⟨by simp [hts.1, ha], hb⟩
    | kw k =>
      obtain ⟨ha, hb⟩ := ih d hts.2
      simp only [splitOther]
      rcases hsp : splitOther d ts' with ⟨a, b⟩
      rw [hsp] at ha hb
      exact ⟨by simp [hts.1, ha], hb⟩
    | ident s =>
      obtain ⟨ha, hb⟩ := ih d hts.2
      simp only [splitOther]
      rcases hsp : splitOther d ts' with ⟨a, b⟩
      rw [hsp] at ha hb
      exact ⟨by simp [hts.1, ha], hb⟩
    | strLit s =>
      obtain ⟨ha, hb⟩ := ih d hts.2
      simp only [splitOther]
      rcases hsp : splitOther d ts' with ⟨a, b⟩
      rw [hsp] at ha hb
      exact ⟨by simp [hts.1, ha], hb⟩
    | numLit ds =>
      obtain ⟨ha, hb⟩ := ih d hts.2
      simp only [splitOther]
      rcases hsp : splitOther d ts' with ⟨a, b⟩
      rw [hsp] at ha hb
      exact ⟨by simp [hts.1, ha], hb⟩
    | opTok o =>
      obtain ⟨ha, hb⟩ := ih d hts.2
      simp only [splitOther]
      rcases hsp : splitOther d ts' with ⟨a, b⟩
      rw [hsp] at ha hb
      exact ⟨by simp [hts.1, ha], hb⟩
    | comma =>
      obtain ⟨ha, hb⟩ := ih d hts.2
      simp only [splitOther]
      rcases hsp : splitOther d ts' with ⟨a, b⟩
      rw [hsp] at ha hb
      exact ⟨by simp [hts.1, ha], hb⟩
    | dot =>
      obtain ⟨ha, hb⟩ := ih d hts.2
      simp only [splitOther]
      rcases hsp : splitOther d ts' with ⟨a, b⟩
      rw [hsp] at ha hb
      exact ⟨by simp [hts.1, ha], hb⟩
    | star =>
      obtain ⟨ha, hb⟩ := ih d hts.2
      simp only [splitOther]
      rcases hsp : splitOther d ts' with ⟨a, b⟩
      rw [hsp] at ha hb
      exact ⟨by simp [hts.1, ha], hb⟩

/-! ## Head-classification lemmas for the parser inverse -/

theorem noneOf_empty (bad : List Token) : noneOf bad [] := by
  intro t _ h
  simp at h

theorem noneOf_cons (bad : List Token) (t : Token) (r : List Token)
    (h : t ∉ bad) : noneOf bad (t :: r) := by
  intro u hu hh
  simp only [List.head?_cons, Option.some.injEq] at hh
  subst hh
  exact h hu

theorem noneOf_of_headIs (p : Token → Bool) (bad ts : List Token)
    (h : headIs p ts) (hb : bad.all (fun t => !p t) = true) : noneOf bad ts := by
  intro u hu hh
  cases ts with
  | nil => simp at hh
  | cons t r =>
    simp only [List.head?_cons, Option.some.injEq] at hh
    subst hh
    have hbu := List.all_eq_true.mp hb t hu
    have h' : p t = true := h
    rw [h'] at hbu
    simp at hbu

theorem headIs_mono (p q : Token → Bool) (hpq : ∀ t, p t = true → q t = true) :
    ∀ ts, headIs p ts → headIs q ts
  | [], _ => trivial
  | t :: _, h => hpq t h

theorem rankGe_mono {m n : Nat} (hmn : m ≤ n) (t : Token)
    (h : rankGe n t = true) : rankGe m t = true := by
  simp only [rankGe, decide_eq_true_eq] at h ⊢
  omega

theorem headIs_rankGe_mono {m n : Nat} (hmn : m ≤ n) (ts : List Token)
    (h : headIs (rankGe n) ts) : headIs (rankGe m) ts :=
  headIs_mono _ _ (fun t => rankGe_mono hmn t) ts h

theorem headIs_stmtFollow (rest : List Token) (h : stmtFollowB rest = true) :
    headIs (rankGe 7) rest := by
  cases rest with
  | nil => trivial
  | cons t r => cases t <;> first | rfl | simp [stmtFollowB] at h

theorem selHead6 (lc : Option (Expr × Option Expr)) (rest0 : List Token)
    (h : stmtFollowB rest0 = true) :
    headIs (rankGe 6) (tokLimitSeg lc ++ rest0) := by
  cases lc with
  | none => exact headIs_rankGe_mono (by omega) rest0 (headIs_stmtFollow rest0 h)
  | some p => obtain ⟨e, o⟩ := p; rfl

theorem selHead5 (ob : List (Expr × OrderDir)) (lc : Option (Expr × Option Expr))
    (rest0 : List Token) (h : stmtFollowB rest0 = true) :
    headIs (rankGe 5) (tokOrderSeg ob ++ tokLimitSeg lc ++ rest0) := by
  cases ob with
  | nil => exact headIs_rankGe_mono (by omega) _ (selHead6 lc rest0 h)
  | cons p es => obtain ⟨e, d⟩ := p; rfl

theorem selHead4 (hv : Option Expr) (ob : List (Expr × OrderDir))
    (lc : Option (Expr × Option Expr)) (rest0 : List Token)
    (h : stmtFollowB rest0 = true) :
    headIs (rankGe 4)
      (tokHavingSeg hv ++ tokOrderSeg ob ++ tokLimitSeg lc ++ rest0) := by
  cases hv with
  | none => exact headIs_rankGe_mono (by omega) _ (selHead5 ob lc rest0 h)
  | some e => rfl

theorem selHead3 (g : List Expr) (hv : Option Expr) (ob : List (Expr × OrderDir))
    (lc : Option (Expr × Option Expr)) (rest0 : List Token)
    (h : stmtFollowB rest0 = true) :
    headIs (rankGe 3)
      (tokGroupSeg g ++ tokHavingSeg hv ++ tokOrderSeg ob ++
        tokLimitSeg lc ++ rest0) := by
  cases g with
  | nil => exact headIs_rankGe_mono (by omega) _ (selHead4 hv ob lc rest0 h)
  | cons e es => rfl

theorem selHead2 (w : Option Expr) (g : List Expr) (hv : Option Expr)
    (ob : List (Expr × OrderDir)) (lc : Option (Expr × Option Expr))
    (rest0 : List Token) (h : stmtFollowB rest0 = true) :
    headIs (rankGe 2)
      (tokWhereSeg w ++ tokGroupSeg g ++ tokHavingSeg hv ++ tokOrderSeg ob ++
        tokLimitSeg lc ++ rest0) := by
  cases w with
  | none => exact headIs_rankGe_mono (by omega) _ (selHead3 g hv ob lc rest0 h)
  | some e => rfl

theorem selHead1 (src : Option Source) (w : Option Expr) (g : List Expr)
    (hv : Option Expr) (ob : List (Expr × OrderDir))
    (lc : Option (Expr × Option Expr)) (rest0 : List Token)
    (h : stmtFollowB rest0 = true) :
    headIs (rankGe 1)
      (tokFromSeg src ++ tokWhereSeg w ++ tokGroupSeg g ++ tokHavingSeg hv ++
        tokOrderSeg ob ++ tokLimitSeg lc ++ rest0) := by
  cases src with
  | none => exact headIs_rankGe_mono (by omega) _ (selHead2 w g hv ob lc rest0 h)
  | some s => rfl

theorem jkindOf_none_rank (ts : List Token) (h : headIs (rankGe 1) ts) :
    jkindOf ts = none := by
  cases ts with
  | nil => rfl
  | cons t r =>
    cases t <;> first
      | rfl
      | (rename_i k; cases k <;> first
          | rfl
          | simp [headIs, rankGe, clauseRank] at h)

theorem mulOpOf_none (ts : List Token) (h : noneOf mulBad ts) :
    mulOpOf ts = none := by
  cases ts with
  | nil => rfl
  | cons t r =>
    cases t <;> first
      | rfl
      | (exact absurd rfl (h .star (by decide)))
      | (rename_i o; cases o <;> first
          | rfl
          | (exact absurd rfl (h (.opTok .divS) (by decide))))

theorem addOpOf_none (ts : List Token) (h : noneOf addBad ts) :
    addOpOf ts = none := by
  cases ts with
  | nil => rfl
  | cons t r =>
    cases t <;> first
      | rfl
      | (rename_i o; cases o <;> first
          | rfl
          | (exact absurd rfl (h (.opTok .plusS) (by decide)))
          | (exact absurd rfl (h (.opTok .minusS) (by decide)))
          | (exact absurd rfl (h (.opTok .concatS) (by decide))))

theorem cmpOpOf_none (ts : List Token) (h : noneOf cmpBad ts) :
    cmpOpOf ts = none := by
  cases ts with
  | nil => rfl
  | cons t r =>
    cases t <;> first
      | rfl
      | (rename_i o; cases o <;> first
          | rfl
          | (exact absurd rfl (h (.opTok .eqS) (by decide)))
          | (exact absurd rfl (h (.opTok .neS) (by decide)))
          | (exact absurd rfl (h (.opTok .ltS) (by decide)))
          | (exact absurd rfl (h (.opTok .gtS) (by decide)))
          | (exact absurd rfl (h (.opTok .leS) (by decide)))
          | (exact absurd rfl (h (.opTok .geS) (by decide))))

theorem pOrLoop_stop (f : Nat) (acc : Expr) (ts : List Token)
    (h : ts.head? ≠ some (.kw .orK)) : pOrLoop (f + 1) acc ts = .ok (acc, ts) := by
  cases ts with
  | nil => rfl
  | cons t r =>
    cases t <;> first
      | rfl
      | (rename_i k; cases k <;> first | rfl | simp at h)

theorem pAndLoop_stop (f : Nat) (acc : Expr) (ts : List Token)
    (h : ts.head? ≠ some (.kw .andK)) : pAndLoop (f + 1) acc ts = .ok (acc, ts) := by
  cases ts with
  | nil => rfl
  | cons t r =>
    cases t <;> first
      | rfl
      | (rename_i k; cases k <;> first | rfl | simp at h)

theorem pFromOpt_not (f : Nat) (ts : List Token)
    (h : ts.head? ≠ some (.kw .fromK)) : pFromOpt (f + 1) ts = .ok (none, ts) := by
  cases ts with
  | nil => rfl
  | cons t r =>
    cases t <;> first
      | rfl
      | (rename_i k; cases k <;> first | rfl | simp at h)

theorem pWhereOpt_not (f : Nat) (ts : List Token)
    (h : ts.head? ≠ some (.kw .whereK)) : pWhereOpt (f + 1) ts = .ok (none, ts) := by
  cases ts with
  | nil => rfl
  | cons t r =>
    cases t <;> first
      | rfl
      | (rename_i k; cases k <;> first | rfl | simp at h)

theorem pGroupOpt_not (f : Nat) (ts : List Token)
    (h : ts.head? ≠ some (.kw .group)) : pGroupOpt (f + 1) ts = .ok ([], ts) := by
  cases ts with
  | nil => rfl
  | cons t r =>
    cases t <;> first
      | rfl
      | (rename_i k; cases k <;> first | rfl | simp at h)

theorem pHavingOpt_not (f : Nat) (ts : List Token)
    (h : ts.head? ≠ some (.kw .having)) : pHavingOpt (f + 1) ts = .ok (none, ts) := by
  cases ts with
  | nil => rfl
  | cons t r =>
    cases t <;> first
      | rfl
      | (rename_i k; cases k <;> first | rfl | simp at h)

theorem pOrderOpt_not (f : Nat) (ts : List Token)
    (h : ts.head? ≠ some (.kw .order)) : pOrderOpt (f + 1) ts = .ok ([], ts) := by
  cases ts with
  | nil => rfl
  | cons t r =>
    cases t <;> first
      | rfl
      | (rename_i k; cases k <;> first | rfl | simp at h)

theorem pLimitOpt_not (f : Nat) (ts : List Token)
    (h : ts.head? ≠ some (.kw .limit)) : pLimitOpt (f + 1) ts = .ok (none, ts) := by
  cases ts with
  | nil => rfl
  | cons t r =>
    cases t <;> first
      | rfl
      | (rename_i k; cases k <;> first | rfl | simp at h)

theorem pWith_rec (f : Nat) (r : List Token) :
    pWith (f + 1) (.kw .recursive :: r) =
      (match pCtes f r with
       | .ok (ctes, r2) =>
         match pStmt f r2 with
         | .ok (body, r3) => .ok (.withS true ctes body, r3)
         | .error e => .error e
       | .error e => .error e) := rfl

theorem pWith_plain (f : Nat) (ts : List Token)
    (h : ts.head? ≠ some (.kw .recursive)) :
    pWith (f + 1) ts =
      (match pCtes f ts with
       | .ok (ctes, r2) =>
         match pStmt f r2 with
         | .ok (body, r3) => .ok (.withS false ctes body, r3)
         | .error e => .error e
       | .error e => .error e) := by
  cases ts with
  | nil => rfl
  | cons t r =>
    cases t <;> first
      | rfl
      | (rename_i k; cases k <;> first | rfl | simp at h)

theorem pStmt_select (f : Nat) (r : List Token) :
    pStmt (f + 1) (.kw .select :: r) = pSelect f r := rfl

theorem pStmt_withK (f : Nat) (r : List Token) :
    pStmt (f + 1) (.kw .withK :: r) = pWith f r := rfl

theorem pStmt_other (f : Nat) (k : Kw) (r : List Token)
    (h1 : k ≠ .select) (h2 : k ≠ .withK) :
    pStmt (f + 1) (.kw k :: r) =
      (if k ∈ otherKws then
        match splitOther 0 r with
        | (raw, r2) =>
          if rawScan 0 raw = some 0 then .ok (.other k raw, r2)
          else .error "parse: unbalanced parentheses in statement"
      else .error "parse: unexpected leading keyword") := by
  cases k <;> first | rfl | exact absurd rfl h1 | exact absurd rfl h2

theorem pProj_star (f : Nat) (r : List Token) :
    pProj (f + 1) (.star :: r) = .ok (.star, r) := rfl

theorem pProj_expr (f : Nat) (ts : List Token) (h : ts.head? ≠ some .star) :
    pProj (f + 1) ts =
      (match pOr f ts with
       | .ok (e, .kw .asK :: .ident a :: r) => .ok (.expr e (some a), r)
       | .ok (e, r) => .ok (.expr e none, r)
       | .error e => .error e) := by
  cases ts with
  | nil => rfl
  | cons t r => cases t <;> first | rfl | simp at h

theorem pSItem_tableAlias (f : Nat) (n a : String) (r : List Token) :
    pSItem (f + 1) (.ident n :: .kw .asK :: .ident a :: r) =
      .ok (.table n (some a), r) := rfl

theorem pSItem_table (f : Nat) (n : String) (rest : List Token)
    (h : rest.head? ≠ some (.kw .asK)) :
    pSItem (f + 1) (.ident n :: rest) = .ok (.table n none, rest) := by
  cases rest with
  | nil => rfl
  | cons t r =>
    cases t <;> first
      | rfl
      | (rename_i k; cases k <;> first | rfl | simp at h)

theorem pSItem_sub (f : Nat) (r : List Token) :
    pSItem (f + 1) (.lparen :: r) =
      (match pStmt f r with
       | .ok (s, .rparen :: .kw .asK :: .ident a :: r2) => .ok (.sub s (some a), r2)
       | .ok (s, .rparen :: r2) => .ok (.sub s none, r2)
       | .ok _ => .error "parse: expected close paren after subquery"
       | .error e => .error e) := rfl

theorem tokStmt_head (s : Stmt) (rest : List Token) :
    ∃ k, (tokStmt s ++ rest).head? = some (.kw k) := by
  cases s with
  | select projs src whereC groupBy havingC orderBy limitC => exact ⟨.select, rfl⟩
  | withS recur ctes body => exact ⟨.withK, rfl⟩
  | other k raw => exact ⟨k, rfl⟩

theorem tokExpr_head (e : Expr) (rest : List Token) :
    ∃ t, (tokExpr e ++ rest).head? = some t ∧ exprStartTok t = true := by
  cases e with
  | col o n =>
    cases o with
    | none => exact ⟨.ident n, rfl, rfl⟩
    | some t => exact ⟨.ident t, rfl, rfl⟩
  | numL ds => exact ⟨.numLit ds, rfl, rfl⟩
  | strL s => exact ⟨.strLit s, rfl, rfl⟩
  | fn n args => exact ⟨.ident n, rfl, rfl⟩
  | bin o l r => exact ⟨.lparen, rfl, rfl⟩
  | sub s => exact ⟨.lparen, rfl, rfl⟩

theorem tokExprListTail_cons (e : Expr) (es : List Expr) :
    tokExprListTail (e :: es) = .comma :: tokExprList (e :: es) := rfl

theorem tokProjListTail_cons (p : Proj) (ps : List Proj) :
    tokProjListTail (p :: ps) = .comma :: tokProjList (p :: ps) := rfl

theorem tokOrderTail_cons (e : Expr) (d : OrderDir) (es : List (Expr × OrderDir)) :
    tokOrderTail ((e, d) :: es) = .comma :: tokOrder ((e, d) :: es) := rfl

theorem tokCtesTail_cons (n : String) (s : Stmt) (cs : List (String × Stmt)) :
    tokCtesTail ((n, s) :: cs) = .comma :: tokCtes ((n, s) :: cs) := rfl

theorem tokGroupSeg_cons (e : Expr) (es : List Expr) :
    tokGroupSeg (e :: es) = .kw .group :: .kw .byK :: tokExprList (e :: es) := rfl

theorem tokOrderSeg_cons (e : Expr) (d : OrderDir) (es : List (Expr × OrderDir)) :
    tokOrderSeg ((e, d) :: es) =
      .kw .order :: .kw .byK :: tokOrder ((e, d) :: es) := rfl

/-! ## Remainder well-formedness of the head-operator recognizers -/

theorem jkindOf_wf (ts : List Token) (k : JoinKind) (r : List Token)
    (hjk : jkindOf ts = some (k, r)) (hts : ts.all wfTokenB = true) :
    r.all wfTokenB = true := by
  simp only [jkindOf] at hjk
  split at hjk <;> first
    | (cases hjk
       simp only [List.all_cons, Bool.and_eq_true] at hts
       first | exact hts.2.2 | exact hts.2)
    | (cases hjk)

theorem cmpOpOf_wf (ts : List Token) (o : BinOp) (r : List Token)
    (hc : cmpOpOf ts = some (o, r)) (hts : ts.all wfTokenB = true) :
    r.all wfTokenB = true := by
  simp only [cmpOpOf] at hc
  split at hc <;> first
    | (cases hc
       simp only [List.all_cons, Bool.and_eq_true] at hts
       exact hts.2)
    | (cases hc)

theorem addOpOf_wf (ts : List Token) (o : BinOp) (r : List Token)
    (hc : addOpOf ts = some (o, r)) (hts : ts.all wfTokenB = true) :
    r.all wfTokenB = true := by
  simp only [addOpOf] at hc
  split at hc <;> first
    | (cases hc
       simp only [List.all_cons, Bool.and_eq_true] at hts
       exact hts.2)
    | (cases hc)

theorem mulOpOf_wf (ts : List Token) (o : BinOp) (r : List Token)
    (hc : mulOpOf ts = some (o, r)) (hts : ts.all wfTokenB = true) :
    r.all wfTokenB = true := by
  simp only [mulOpOf] at hc
  split at hc <;> first
    | (cases hc
       simp only [List.all_cons, Bool.and_eq_true] at hts
       exact hts.2)
    | (cases hc)

/-! ## Parser output well-formedness -/

theorem isEmpty_false_of_ne {α : Type} (l : List α) (h : l ≠ []) :
    l.isEmpty = false := by
  cases l with
  | nil => exact absurd rfl h
  | cons a as => rfl

set_option maxHeartbeats 4000000 in
theorem parserWf : ∀ fuel, WfP fuel := by
  intro fuel
  induction fuel with
  | zero =>
    refine ⟨?_, ?_, ?_, ?_, ?_, ?_, ?_, ?_, ?_, ?_, ?_, ?_, ?_, ?_, ?_, ?_, ?_,
      ?_, ?_, ?_, ?_, ?_, ?_, ?_, ?_, ?_, ?_, ?_, ?_⟩
    · intro ts s r _ h; exact absurd h (by simp [pStmt])
    · intro ts s r _ h; exact absurd h (by simp [pWith])
    · intro ts cs r _ h; exact absurd h (by simp [pCtes])
    · intro ts s r _ h; exact absurd h (by simp [pSelect])
    · intro ts ps r _ h; exact absurd h (by simp [pProjList])
    · intro ts p r _ h; exact absurd h (by simp [pProj])
    · intro ts o r _ h; exact absurd h (by simp [pFromOpt])
    · intro ts s r _ h; exact absurd h (by simp [pFromItem])
    · intro ts js r _ h; exact absurd h (by simp [pJoinList])
    · intro ts it r _ h; exact absurd h (by simp [pSItem])
    · intro ts o r _ h; exact absurd h (by simp [pWhereOpt])
    · intro ts es r _ h; exact absurd h (by simp [pGroupOpt])
    · intro ts o r _ h; exact absurd h (by simp [pHavingOpt])
    · intro ts es r _ h; exact absurd h (by simp [pOrderOpt])
    · intro ts es r _ h; exact absurd h (by simp [pOrderList])
    · intro e d ts es r _ _ h; exact absurd h (by simp [pOrderTail])
    · intro ts lc r _ h; exact absurd h (by simp [pLimitOpt])
    · intro ts es r _ h; exact absurd h (by simp [pExprList])
    · intro ts e r _ h; exact absurd h (by simp [pOr])
    · intro acc ts e r _ _ h; exact absurd h (by simp [pOrLoop])
    · intro ts e r _ h; exact absurd h (by simp [pAnd])
    · intro acc ts e r _ _ h; exact absurd h (by simp [pAndLoop])
    · intro ts e r _ h; exact absurd h (by simp [pCmp])
    · intro ts e r _ h; exact absurd h (by simp [pAdd])
    · intro acc ts e r _ _ h; exact absurd h (by simp [pAddLoop])
    · intro ts e r _ h; exact absurd h (by simp [pMul])
    · intro acc ts e r _ _ h; exact absurd h (by simp [pMulLoop])
    · intro ts e r _ h; exact absurd h (by simp [pPrim])
    · intro ts es r _ h; exact absurd h (by simp [pArgs])
  | succ f ih =>
    refine ⟨?_, ?_, ?_, ?_, ?_, ?_, ?_, ?_, ?_, ?_, ?_, ?_, ?_, ?_, ?_, ?_, ?_,
      ?_, ?_, ?_, ?_, ?_, ?_, ?_, ?_, ?_, ?_, ?_, ?_⟩
    · -- pStmt
      intro ts s r hts h
      cases ts with
      | nil => exact absurd h (by simp [pStmt])
      | cons t r1 =>
        simp only [List.all_cons, Bool.and_eq_true] at hts
        cases t
        case kw k =>
          by_cases hk1 : k = .select
          · subst hk1
            rw [pStmt_select] at h
            obtain ⟨w1, w2, w3⟩ := ih.selW r1 s r hts.2 h
            refine ⟨w1, w2, fun k' raw hk => ?_⟩
            rw [hk] at w3
            simp [isOtherRoot] at w3
          · by_cases hk2 : k = .withK
            · subst hk2
              rw [pStmt_withK] at h
              obtain ⟨w1, w2, w3⟩ := ih.withW r1 s r hts.2 h
              refine ⟨w1, w2, fun k' raw hk => ?_⟩
              rw [hk] at w3
              simp [isOtherRoot] at w3
            · rw [pStmt_other f k r1 hk1 hk2] at h
              split at h
              · rename_i hmem
                split at h
                rename_i heq
                split at h
                · rename_i hscan
                  cases h
                  obtain ⟨hw1, hw2⟩ := splitOther_sublist_wf r1 0 hts.2
                  rw [heq] at hw1 hw2
                  refine ⟨?_, by exact hw2, ?_⟩
                  · simp [wfStmtB, hmem, hscan]
                    exact List.all_eq_true.mp (by exact hw1)
                  · intro k' raw' hk
                    cases hk
                    rfl
                · exact absurd h (by simp)
              · exact absurd h (by simp)
        all_goals exact absurd h (by simp [pStmt])
    · -- pWith
      intro ts s r hts h
      have main : ∀ (recur : Bool) (ts1 : List Token), ts1.all wfTokenB = true →
          (match pCtes f ts1 with
           | .ok (ctes, r2) =>
             match pStmt f r2 with
             | .ok (body, r3) =>
               (.ok (.withS recur ctes body, r3) : Except String (Stmt × List Token))
             | .error e => .error e
           | .error e => .error e) = .ok (s, r) →
          wfStmtB s = true ∧ r.all wfTokenB = true ∧ isOtherRoot s = false := by
        intro recur ts1 hts1 hb
        split at hb
        · rename_i hc
          split at hb
          · rename_i hs2
            cases hb
            obtain ⟨c1, c2, c3⟩ := ih.ctesW _ _ _ hts1 hc
            obtain ⟨b1, b2, _⟩ := ih.stmtW _ _ _ c2 hs2
            refine ⟨?_, b2, rfl⟩
            simp [wfStmtB, c1, b1, isEmpty_false_of_ne _ c3]
          · exact absurd hb (by simp)
        · exact absurd hb (by simp)
      by_cases hx : ts.head? = some (.kw .recursive)
      · obtain ⟨r1, rfl⟩ : ∃ r1, ts = .kw .recursive :: r1 := by
          cases ts with
          | nil => simp at hx
          | cons t r1 =>
            simp only [List.head?_cons, Option.some.injEq] at hx
            exact ⟨r1, by rw [hx]⟩
        rw [pWith_rec] at h
        have hts1 : r1.all wfTokenB = true := by
          simp only [List.all_cons, Bool.and_eq_true] at hts
          exact hts.2
        exact main true r1 hts1 h
      · rw [pWith_plain f ts hx] at h
        exact main false ts hts h
    · -- pCtes
      intro ts cs r hts h
      simp only [pCtes] at h
      split at h
      · rename_i n r1
        simp only [List.all_cons, Bool.and_eq_true] at hts
        split at h
        · rename_i hps
          obtain ⟨w1, w2, _⟩ := ih.stmtW _ _ _ hts.2.2.2 hps
          split at h
          · split at h
            · rename_i hpc
              cases h
              obtain ⟨q1, q2, _⟩ := ih.ctesW _ _ _ (by exact w2) hpc
              refine ⟨?_, q2, by simp⟩
              simp [wfCtesB, q1, w1]
              exact hts.1
            · exact absurd h (by simp)
          · cases h
            refine ⟨?_, by exact w2, by simp⟩
            simp [wfCtesB, w1]
            exact hts.1
        · exact absurd h (by simp)
        · exact absurd h (by simp)
      · exact absurd h (by simp)
    · -- pSelect
      intro ts s r hts h
      simp only [pSelect] at h
      split at h
      · exact absurd h (by simp)
      · rename_i hpl
        split at h
        · exact absurd h (by simp)
        · rename_i hfo
          split at h
          · exact absurd h (by simp)
          · rename_i hwo
            split at h
            · exact absurd h (by simp)
            · rename_i hgo
              split at h
              · exact absurd h (by simp)
              · rename_i hho
                split at h
                · exact absurd h (by simp)
                · rename_i hoo
                  split at h
                  · exact absurd h (by simp)
                  · rename_i hlo
                    cases h
                    obtain ⟨a1, a2, a3⟩ := ih.projListW ts _ _ hts hpl
                    obtain ⟨b1, b2⟩ := ih.fromOptW _ _ _ a2 hfo
                    obtain ⟨c1, c2⟩ := ih.whereOptW _ _ _ b2 hwo
                    obtain ⟨d1, d2⟩ := ih.groupOptW _ _ _ c2 hgo
                    obtain ⟨e1, e2⟩ := ih.havingOptW _ _ _ d2 hho
                    obtain ⟨f1, f2⟩ := ih.orderOptW _ _ _ e2 hoo
                    obtain ⟨g1, g2⟩ := ih.limitOptW _ _ _ f2 hlo
                    refine ⟨?_, g2, rfl⟩
                    simp [wfStmtB, isEmpty_false_of_ne _ a3, a1, b1, c1, d1,
                      e1, f1, g1]
    · -- pProjList
      intro ts ps r hts h
      simp only [pProjList] at h
      split at h
      · rename_i hpp
        split at h
        · rename_i hpl
          cases h
          obtain ⟨w1, w2⟩ := ih.projW ts _ _ hts hpp
          obtain ⟨q1, q2, _⟩ := ih.projListW _ _ _ (by exact w2) hpl
          exact ⟨by simp [wfProjListB, w1, q1], q2, by simp⟩
        · exact absurd h (by simp)
      · rename_i hpp
        cases h
        obtain ⟨w1, w2⟩ := ih.projW ts _ _ hts hpp
        exact ⟨by simp [wfProjListB, w1], w2, by simp⟩
      · exact absurd h (by simp)
    · -- pProj
      intro ts p r hts h
      simp only [pProj] at h
      split at h
      · cases h
        exact ⟨rfl, hts⟩
      · split at h
        · rename_i hpo
          cases h
          obtain ⟨w1, w2⟩ := ih.orW ts _ _ hts hpo
          simp only [List.all_cons, Bool.and_eq_true] at w2
          refine ⟨?_, w2.2.2⟩
          simp [wfProjB, wfAliasB, w1]
          exact w2.2.1
        · rename_i hpo
          cases h
          obtain ⟨w1, w2⟩ := ih.orW ts _ _ hts hpo
          exact ⟨by simp [wfProjB, wfAliasB, w1], w2⟩
        · exact absurd h (by simp)
    · -- pFromOpt
      intro ts o r hts h
      simp only [pFromOpt] at h
      split at h
      · split at h
        · rename_i hfi
          cases h
          obtain ⟨w1, w2⟩ := ih.fromItemW _ _ _ (by exact hts) hfi
          exact ⟨by simpa [wfOptSourceB] using w1, w2⟩
        · exact absurd h (by simp)
      · cases h
        exact ⟨rfl, hts⟩
    · -- pFromItem
      intro ts s r hts h
      simp only [pFromItem] at h
      split at h
      · rename_i hsi
        split at h
        · rename_i hjl
          cases h
          obtain ⟨w1, w2⟩ := ih.sitemW ts _ _ hts hsi
          obtain ⟨q1, q2⟩ := ih.joinListW _ _ _ w2 hjl
          exact ⟨by simp [wfSourceB, w1, q1], q2⟩
        · exact absurd h (by simp)
      · exact absurd h (by simp)
    · -- pJoinList
      intro ts js r hts h
      simp only [pJoinList] at h
      split at h
      · rename_i hjk
        split at h
        · rename_i hsi
          obtain ⟨w1, w2⟩ := ih.sitemW _ _ _ (jkindOf_wf ts _ _ hjk hts) hsi
          split at h
          · rename_i hpo
            obtain ⟨q1, q2⟩ := ih.orW _ _ _ (by exact w2) hpo
            split at h
            · rename_i hjl
              cases h
              obtain ⟨u1, u2⟩ := ih.joinListW _ _ _ q2 hjl
              exact ⟨by simp [wfJoinsB, w1, q1, u1], u2⟩
            · exact absurd h (by simp)
          · exact absurd h (by simp)
        · exact absurd h (by simp)
        · exact absurd h (by simp)
      · cases h
        exact ⟨rfl, hts⟩
    · -- pSItem
      intro ts it r hts h
      simp only [pSItem] at h
      split at h
      · cases h
        simp only [List.all_cons, Bool.and_eq_true] at hts
        refine ⟨?_, hts.2.2.2⟩
        simp [wfSItemB, wfAliasB]
        exact ⟨hts.1, hts.2.2.1⟩
      · cases h
        simp only [List.all_cons, Bool.and_eq_true] at hts
        refine ⟨?_, hts.2⟩
        simp [wfSItemB, wfAliasB]
        exact hts.1
      · split at h
        · rename_i hps
          cases h
          obtain ⟨w1, w2, _⟩ := ih.stmtW _ _ _ (by exact hts) hps
          simp only [List.all_cons, Bool.and_eq_true] at w2
          refine ⟨?_, w2.2.2.2⟩
          simp [wfSItemB, wfAliasB, w1]
          exact w2.2.2.1
        · rename_i hps
          cases h
          obtain ⟨w1, w2, _⟩ := ih.stmtW _ _ _ (by exact hts) hps
          exact ⟨by simp [wfSItemB, wfAliasB, w1], by exact w2⟩
        · exact absurd h (by simp)
        · exact absurd h (by simp)
      · exact absurd h (by simp)
    · -- pWhereOpt
      intro ts o r hts h
      simp only [pWhereOpt] at h
      split at h
      · split at h
        · rename_i hpo
          cases h
          obtain ⟨w1, w2⟩ := ih.orW _ _ _ (by exact hts) hpo
          exact ⟨by simpa [wfOptExprB] using w1, w2⟩
        · exact absurd h (by simp)
      · cases h
        exact ⟨rfl, hts⟩
    · -- pGroupOpt
      intro ts es r hts h
      simp only [pGroupOpt] at h
      split at h
      · exact ih.exprListW _ _ _ (by exact hts) h
      · cases h
        exact ⟨rfl, hts⟩
    · -- pHavingOpt
      intro ts o r hts h
      simp only [pHavingOpt] at h
      split at h
      · split at h
        · rename_i hpo
          cases h
          obtain ⟨w1, w2⟩ := ih.orW _ _ _ (by exact hts) hpo
          exact ⟨by simpa [wfOptExprB] using w1, w2⟩
        · exact absurd h (by simp)
      · cases h
        exact ⟨rfl, hts⟩
    · -- pOrderOpt
      intro ts es r hts h
      simp only [pOrderOpt] at h
      split at h
      · exact ih.orderListW _ _ _ (by exact hts) h
      · cases h
        exact ⟨rfl, hts⟩
    · -- pOrderList
      intro ts es r hts h
      simp only [pOrderList] at h
      split at h
      · exact absurd h (by simp)
      · rename_i hpo
        obtain ⟨w1, w2⟩ := ih.orW ts _ _ hts hpo
        exact ih.orderTailW _ _ _ _ _ w1 (by exact w2) h
      · rename_i hpo
        obtain ⟨w1, w2⟩ := ih.orW ts _ _ hts hpo
        exact ih.orderTailW _ _ _ _ _ w1 (by exact w2) h
      · rename_i hpo
        obtain ⟨w1, w2⟩ := ih.orW ts _ _ hts hpo
        exact ih.orderTailW _ _ _ _ _ w1 (by exact w2) h
    · -- pOrderTail
      intro e d ts es r he hts h
      simp only [pOrderTail] at h
      split at h
      · split at h
        · rename_i hol
          cases h
          obtain ⟨q1, q2⟩ := ih.orderListW _ _ _ (by exact hts) hol
          exact ⟨by simp [wfOrderB, he, q1], q2⟩
        · exact absurd h (by simp)
      · cases h
        exact ⟨by simp [wfOrderB, he], hts⟩
    · -- pLimitOpt
      intro ts lc r hts h
      simp only [pLimitOpt] at h
      split at h
      · split at h
        · rename_i hpo
          obtain ⟨w1, w2⟩ := ih.orW _ _ _ (by exact hts) hpo
          split at h
          · rename_i hpo2
            cases h
            obtain ⟨q1, q2⟩ := ih.orW _ _ _ (by exact w2) hpo2
            exact ⟨by simp [wfLimitB, wfOptExprB, w1, q1], q2⟩
          · exact absurd h (by simp)
        · rename_i hpo
          cases h
          obtain ⟨w1, w2⟩ := ih.orW _ _ _ (by exact hts) hpo
          exact ⟨by simp [wfLimitB, wfOptExprB, w1], w2⟩
        · exact absurd h (by simp)
      · cases h
        exact ⟨rfl, hts⟩
    · -- pExprList
      intro ts es r hts h
      simp only [pExprList] at h
      split at h
      · rename_i hpo
        split at h
        · rename_i hel
          cases h
          obtain ⟨w1, w2⟩ := ih.orW ts _ _ hts hpo
          obtain ⟨q1, q2⟩ := ih.exprListW _ _ _ (by exact w2) hel
          exact ⟨by simp [wfExprListB, w1, q1], q2⟩
        · exact absurd h (by simp)
      · rename_i hpo
        cases h
        obtain ⟨w1, w2⟩ := ih.orW ts _ _ hts hpo
        exact ⟨by simp [wfExprListB, w1], w2⟩
      · exact absurd h (by simp)
    · -- pOr
      intro ts e r hts h
      simp only [pOr] at h
      split at h
      · rename_i hpa
        obtain ⟨w1, w2⟩ := ih.andW ts _ _ hts hpa
        exact ih.orLoopW _ _ _ _ w1 w2 h
      · exact absurd h (by simp)
    · -- pOrLoop
      intro acc ts e r hacc hts h
      simp only [pOrLoop] at h
      split at h
      · split at h
        · rename_i hpa
          obtain ⟨w1, w2⟩ := ih.andW _ _ _ (by exact hts) hpa
          exact ih.orLoopW _ _ _ _ (by simp [wfExprB, hacc, w1]) w2 h
        · exact absurd h (by simp)
      · cases h
        exact ⟨hacc, hts⟩
    · -- pAnd
      intro ts e r hts h
      simp only [pAnd] at h
      split at h
      · rename_i hpc
        obtain ⟨w1, w2⟩ := ih.cmpW ts _ _ hts hpc
        exact ih.andLoopW _ _ _ _ w1 w2 h
      · exact absurd h (by simp)
    · -- pAndLoop
      intro acc ts e r hacc hts h
      simp only [pAndLoop] at h
      split at h
      · split at h
        · rename_i hpc
          obtain ⟨w1, w2⟩ := ih.cmpW _ _ _ (by exact hts) hpc
          exact ih.andLoopW _ _ _ _ (by simp [wfExprB, hacc, w1]) w2 h
        · exact absurd h (by simp)
      · cases h
        exact ⟨hacc, hts⟩
    · -- pCmp
      intro ts e r hts h
      simp only [pCmp] at h
      split at h
      · rename_i hpa
        obtain ⟨w1, w2⟩ := ih.addW ts _ _ hts hpa
        split at h
        · rename_i hco
          split at h
          · rename_i hpa2
            cases h
            obtain ⟨q1, q2⟩ := ih.addW _ _ _ (cmpOpOf_wf _ _ _ hco w2) hpa2
            exact ⟨by simp [wfExprB, w1, q1], q2⟩
          · exact absurd h (by simp)
        · cases h
          exact ⟨w1, w2⟩
      · exact absurd h (by simp)
    · -- pAdd
      intro ts e r hts h
      simp only [pAdd] at h
      split at h
      · rename_i hpm
        obtain ⟨w1, w2⟩ := ih.mulW ts _ _ hts hpm
        exact ih.addLoopW _ _ _ _ w1 w2 h
      · exact absurd h (by simp)
    · -- pAddLoop
      intro acc ts e r hacc hts h
      simp only [pAddLoop] at h
      split at h
      · rename_i hao
        split at h
        · rename_i hpm
          obtain ⟨w1, w2⟩ := ih.mulW _ _ _ (addOpOf_wf _ _ _ hao hts) hpm
          exact ih.addLoopW _ _ _ _ (by simp [wfExprB, hacc, w1]) w2 h
        · exact absurd h (by simp)
      · cases h
        exact ⟨hacc, hts⟩
    · -- pMul
      intro ts e r hts h
      simp only [pMul] at h
      split at h
      · rename_i hpp
        obtain ⟨w1, w2⟩ := ih.primW ts _ _ hts hpp
        exact ih.mulLoopW _ _ _ _ w1 w2 h
      · exact absurd h (by simp)
    · -- pMulLoop
      intro acc ts e r hacc hts h
      simp only [pMulLoop] at h
      split at h
      · rename_i hmo
        split at h
        · rename_i hpp
          obtain ⟨w1, w2⟩ := ih.primW _ _ _ (mulOpOf_wf _ _ _ hmo hts) hpp
          exact ih.mulLoopW _ _ _ _ (by simp [wfExprB, hacc, w1]) w2 h
        · exact absurd h (by simp)
      · cases h
        exact ⟨hacc, hts⟩
    · -- pPrim
      intro ts e r hts h
      simp only [pPrim] at h
      split at h
      · cases h
        simp only [List.all_cons, Bool.and_eq_true] at hts
        exact ⟨by simpa [wfExprB, wfTokenB] using hts.1, hts.2⟩
      · cases h
        simp only [List.all_cons, Bool.and_eq_true] at hts
        exact ⟨by simpa [wfExprB, wfTokenB] using hts.1, hts.2⟩
      · simp only [List.all_cons, Bool.and_eq_true] at hts
        split at h
        · cases h
          refine ⟨?_, hts.2.2⟩
          simp [wfExprB, wfArgsB]
          exact hts.1
        · cases h
          refine ⟨?_, hts.2.2⟩
          simp [wfExprB, wfArgsB, wfExprListB]
          exact hts.1
        · split at h
          · rename_i hpar
            cases h
            obtain ⟨w1, w2⟩ := ih.argsW _ _ _ hts.2.2 hpar
            refine ⟨?_, w2⟩
            simp [wfExprB, wfArgsB, w1]
            exact hts.1
          · exact absurd h (by simp)
          · exact absurd h (by simp)
      · cases h
        simp only [List.all_cons, Bool.and_eq_true] at hts
        refine ⟨?_, hts.2.2.2⟩
        simp [wfExprB]
        exact ⟨hts.1, hts.2.2.1⟩
      · cases h
        simp only [List.all_cons, Bool.and_eq_true] at hts
        exact ⟨by simpa [wfExprB, wfTokenB] using hts.1, hts.2⟩
      · split at h
        · split at h
          · rename_i hps
            rename Stmt => s1
            cases h
            obtain ⟨w1, w2, w3⟩ := ih.stmtW _ _ _ (by exact hts) hps
            refine ⟨?_, by exact w2⟩
            have hio : isOtherRoot s1 = false := by
              cases s1 with
              | select p1 p2 p3 p4 p5 p6 p7 => rfl
              | withS q1 q2 q3 => rfl
              | other k2 raw2 =>
                have hh := w3 k2 raw2 rfl
                simp only [List.head?_cons, Option.some.injEq,
                  Token.kw.injEq] at hh
                subst hh
                exact Bool.noConfusion w1
            simp [wfExprB, hio, w1]
          · exact absurd h (by simp)
          · exact absurd h (by simp)
        · split at h
          · rename_i hps
            rename Stmt => s1
            cases h
            obtain ⟨w1, w2, w3⟩ := ih.stmtW _ _ _ (by exact hts) hps
            refine ⟨?_, by exact w2⟩
            have hio : isOtherRoot s1 = false := by
              cases s1 with
              | select p1 p2 p3 p4 p5 p6 p7 => rfl
              | withS q1 q2 q3 => rfl
              | other k2 raw2 =>
                have hh := w3 k2 raw2 rfl
                simp only [List.head?_cons, Option.some.injEq,
                  Token.kw.injEq] at hh
                subst hh
                exact Bool.noConfusion w1
            simp [wfExprB, hio, w1]
          · exact absurd h (by simp)
          · exact absurd h (by simp)
        · split at h
          · rename_i hpo
            cases h
            obtain ⟨w1, w2⟩ := ih.orW _ _ _ (by exact hts) hpo
            exact ⟨w1, by exact w2⟩
          · exact absurd h (by simp)
          · exact absurd h (by simp)
      · exact absurd h (by simp)
    · -- pArgs
      intro ts es r hts h
      simp only [pArgs] at h
      split at h
      · rename_i hpo
        split at h
        · rename_i hpar
          cases h
          obtain ⟨w1, w2⟩ := ih.orW ts _ _ hts hpo
          obtain ⟨q1, q2⟩ := ih.argsW _ _ _ (by exact w2) hpar
          exact ⟨by simp [wfExprListB, w1, q1], q2⟩
        · exact absurd h (by simp)
      · rename_i hpo
        cases h
        obtain ⟨w1, w2⟩ := ih.orW ts _ _ hts hpo
        exact ⟨by simp [wfExprListB, w1], w2⟩
      · exact absurd h (by simp)

/-! ## Big-step reduction lemmas for the parser inverse -/

theorem tokExpr_head_ne (e : Expr) (rest : List Token) (t : Token)
    (ht : exprStartTok t = false) : (tokExpr e ++ rest).head? ≠ some t := by
  obtain ⟨t0, ht0, hst⟩ := tokExpr_head e rest
  rw [ht0]
  intro hc
  rw [Option.some_inj] at hc
  rw [hc] at hst
  rw [hst] at ht
  exact Bool.noConfusion ht

theorem pPrim_num (f : Nat) (ds : List Char) (r : List Token) :
    pPrim (f + 1) (.numLit ds :: r) = .ok (.numL ds, r) := rfl

theorem pPrim_str (f : Nat) (s : String) (r : List Token) :
    pPrim (f + 1) (.strLit s :: r) = .ok (.strL s, r) := rfl

theorem pPrim_qual (f : Nat) (t n : String) (r : List Token) :
    pPrim (f + 1) (.ident t :: .dot :: .ident n :: r) =
      .ok (.col (some t) n, r) := rfl

theorem pPrim_identCol (f : Nat) (n : String) (rest : List Token)
    (h1 : rest.head? ≠ some .lparen) (h2 : rest.head? ≠ some .dot) :
    pPrim (f + 1) (.ident n :: rest) = .ok (.col none n, rest) := by
  cases rest with
  | nil => rfl
  | cons t r =>
    cases t <;> first
      | rfl
      | exact absurd rfl h1
      | exact absurd rfl h2

theorem pPrim_fn_args (f : Nat) (nm : String) (r : List Token)
    (es : List Expr) (r2 : List Token)
    (h1 : r.head? ≠ some .star) (h2 : r.head? ≠ some .rparen)
    (hpar : pArgs f r = .ok (es, .rparen :: r2)) :
    pPrim (f + 1) (.ident nm :: .lparen :: r) = .ok (.fn nm (.exprs es), r2) := by
  cases r with
  | nil => simp only [pPrim, hpar]
  | cons t r' =>
    cases t <;> first
      | exact absurd rfl h1
      | exact absurd rfl h2
      | (simp only [pPrim, hpar])

theorem pPrim_paren_stmt (f : Nat) (r : List Token) (s : Stmt) (r2 : List Token)
    (h : r.head? = some (.kw .select) ∨ r.head? = some (.kw .withK))
    (hps : pStmt f r = .ok (s, .rparen :: r2)) :
    pPrim (f + 1) (.lparen :: r) = .ok (.sub s, r2) := by
  rcases h with h | h <;>
    (cases r with
     | nil => simp at h
     | cons t r' =>
       simp only [List.head?_cons, Option.some.injEq] at h
       subst h
       simp only [pPrim, hps])

theorem pPrim_paren_expr (f : Nat) (r : List Token)
    (h1 : r.head? ≠ some (.kw .select)) (h2 : r.head? ≠ some (.kw .withK)) :
    pPrim (f + 1) (.lparen :: r) =
      (match pOr f r with
       | .ok (e, .rparen :: r2) => .ok (e, r2)
       | .ok _ => .error "parse: expected close paren"
       | .error e => .error e) := by
  cases r with
  | nil => rfl
  | cons t r' =>
    cases t <;> first
      | rfl
      | (rename_i k; cases k <;> first
          | rfl
          | exact absurd rfl h1
          | exact absurd rfl h2)

theorem pPrim_paren_ok (f : Nat) (r : List Token) (e : Expr) (r2 : List Token)
    (h1 : r.head? ≠ some (.kw .select)) (h2 : r.head? ≠ some (.kw .withK))
    (hpo : pOr f r = .ok (e, .rparen :: r2)) :
    pPrim (f + 1) (.lparen :: r) = .ok (e, r2) := by
  rw [pPrim_paren_expr f r h1 h2, hpo]

theorem pMulLoop_none (f : Nat) (acc : Expr) (ts : List Token)
    (h : mulOpOf ts = none) : pMulLoop (f + 1) acc ts = .ok (acc, ts) := by
  simp only [pMulLoop, h]

theorem pAddLoop_none (f : Nat) (acc : Expr) (ts : List Token)
    (h : addOpOf ts = none) : pAddLoop (f + 1) acc ts = .ok (acc, ts) := by
  simp only [pAddLoop, h]

theorem pExprList_last (f : Nat) (ts : List Token) (e : Expr) (r : List Token)
    (hpo : pOr f ts = .ok (e, r)) (hc : r.head? ≠ some .comma) :
    pExprList (f + 1) ts = .ok ([e], r) := by
  simp only [pExprList, hpo]
  cases r with
  | nil => rfl
  | cons t r' => cases t <;> first | rfl | simp at hc

theorem pExprList_cons (f : Nat) (ts : List Token) (e : Expr) (r : List Token)
    (es : List Expr) (r2 : List Token)
    (hpo : pOr f ts = .ok (e, .comma :: r))
    (hrec : pExprList f r = .ok (es, r2)) :
    pExprList (f + 1) ts = .ok (e :: es, r2) := by
  simp only [pExprList, hpo, hrec]

theorem pArgs_last (f : Nat) (ts : List Token) (e : Expr) (r : List Token)
    (hpo : pOr f ts = .ok (e, r)) (hc : r.head? ≠ some .comma) :
    pArgs (f + 1) ts = .ok ([e], r) := by
  simp only [pArgs, hpo]
  cases r with
  | nil => rfl
  | cons t r' => cases t <;> first | rfl | simp at hc

theorem pArgs_cons (f : Nat) (ts : List Token) (e : Expr) (r : List Token)
    (es : List Expr) (r2 : List Token)
    (hpo : pOr f ts = .ok (e, .comma :: r))
    (hrec : pArgs f r = .ok (es, r2)) :
    pArgs (f + 1) ts = .ok (e :: es, r2) := by
  simp only [pArgs, hpo, hrec]

theorem pProj_exprNone (f : Nat) (ts : List Token) (e : Expr) (r : List Token)
    (hstar : ts.head? ≠ some .star) (hpo : pOr f ts = .ok (e, r))
    (hask : r.head? ≠ some (.kw .asK)) :
    pProj (f + 1) ts = .ok (.expr e none, r) := by
  rw [pProj_expr f ts hstar, hpo]
  cases r with
  | nil => rfl
  | cons t r' =>
    cases t <;> first
      | rfl
      | (rename_i k; cases k <;> first | rfl | simp at hask)

theorem pProj_exprSome (f : Nat) (ts : List Token) (e : Expr) (a : String)
    (r : List Token) (hstar : ts.head? ≠ some .star)
    (hpo : pOr f ts = .ok (e, .kw .asK :: .ident a :: r)) :
    pProj (f + 1) ts = .ok (.expr e (some a), r) := by
  rw [pProj_expr f ts hstar, hpo]

theorem pProjList_last (f : Nat) (ts : List Token) (p : Proj) (r : List Token)
    (hpp : pProj f ts = .ok (p, r)) (hc : r.head? ≠ some .comma) :
    pProjList (f + 1) ts = .ok ([p], r) := by
  simp only [pProjList, hpp]
  cases r with
  | nil => rfl
  | cons t r' => cases t <;> first | rfl | simp at hc

theorem pProjList_cons (f : Nat) (ts : List Token) (p : Proj) (r : List Token)
    (ps : List Proj) (r2 : List Token)
    (hpp : pProj f ts = .ok (p, .comma :: r))
    (hrec : pProjList f r = .ok (ps, r2)) :
    pProjList (f + 1) ts = .ok (p :: ps, r2) := by
  simp only [pProjList, hpp, hrec]

theorem pSItem_subNone (f : Nat) (r1 : List Token) (s : Stmt) (r2 : List Token)
    (hps : pStmt f r1 = .ok (s, .rparen :: r2))
    (hask : r2.head? ≠ some (.kw .asK)) :
    pSItem (f + 1) (.lparen :: r1) = .ok (.sub s none, r2) := by
  rw [pSItem_sub f r1, hps]
  cases r2 with
  | nil => rfl
  | cons t r' =>
    cases t <;> first
      | rfl
      | (rename_i k; cases k <;> first | rfl | simp at hask)

theorem pSItem_subSome (f : Nat) (r1 : List Token) (s : Stmt) (a : String)
    (r2 : List Token)
    (hps : pStmt f r1 = .ok (s, .rparen :: .kw .asK :: .ident a :: r2)) :
    pSItem (f + 1) (.lparen :: r1) = .ok (.sub s (some a), r2) := by
  rw [pSItem_sub f r1, hps]

theorem pJoinList_none (f : Nat) (ts : List Token) (h : jkindOf ts = none) :
    pJoinList (f + 1) ts = .ok ([], ts) := by
  simp only [pJoinList, h]

theorem pJoinList_cons (f : Nat) (ts : List Token) (k : JoinKind)
    (r1 : List Token) (it : SItem) (r2 : List Token) (e : Expr)
    (r3 : List Token) (js : List (JoinKind × SItem × Expr)) (r4 : List Token)
    (hjk : jkindOf ts = some (k, r1))
    (hsi : pSItem f r1 = .ok (it, .kw .onK :: r2))
    (hpo : pOr f r2 = .ok (e, r3))
    (hrec : pJoinList f r3 = .ok (js, r4)) :
    pJoinList (f + 1) ts = .ok ((k, it, e) :: js, r4) := by
  simp only [pJoinList, hjk, hsi, hpo, hrec]

theorem pFromItem_ok (f : Nat) (ts : List Token) (base : SItem)
    (r1 : List Token) (js : List (JoinKind × SItem × Expr)) (r2 : List Token)
    (hsi : pSItem f ts = .ok (base, r1))
    (hjl : pJoinList f r1 = .ok (js, r2)) :
    pFromItem (f + 1) ts = .ok (.item base js, r2) := by
  simp only [pFromItem, hsi, hjl]

theorem pFromOpt_from (f : Nat) (r1 : List Token) (s : Source) (r2 : List Token)
    (hfi : pFromItem f r1 = .ok (s, r2)) :
    pFromOpt (f + 1) (.kw .fromK :: r1) = .ok (some s, r2) := by
  simp only [pFromOpt, hfi]

theorem pWhereOpt_where (f : Nat) (r1 : List Token) (e : Expr) (r2 : List Token)
    (hpo : pOr f r1 = .ok (e, r2)) :
    pWhereOpt (f + 1) (.kw .whereK :: r1) = .ok (some e, r2) := by
  simp only [pWhereOpt, hpo]

theorem pHavingOpt_having (f : Nat) (r1 : List Token) (e : Expr)
    (r2 : List Token) (hpo : pOr f r1 = .ok (e, r2)) :
    pHavingOpt (f + 1) (.kw .having :: r1) = .ok (some e, r2) := by
  simp only [pHavingOpt, hpo]

theorem pGroupOpt_group (f : Nat) (r1 : List Token) (es : List Expr)
    (r2 : List Token) (hel : pExprList f r1 = .ok (es, r2)) :
    pGroupOpt (f + 1) (.kw .group :: .kw .byK :: r1) = .ok (es, r2) := by
  simp only [pGroupOpt, hel]

theorem pOrderOpt_order (f : Nat) (r1 : List Token)
    (es : List (Expr × OrderDir)) (r2 : List Token)
    (hol : pOrderList f r1 = .ok (es, r2)) :
    pOrderOpt (f + 1) (.kw .order :: .kw .byK :: r1) = .ok (es, r2) := by
  simp only [pOrderOpt, hol]

theorem pLimit_noOff (f : Nat) (r1 : List Token) (e : Expr) (r2 : List Token)
    (hpo : pOr f r1 = .ok (e, r2)) (hoff : r2.head? ≠ some (.kw .offset)) :
    pLimitOpt (f + 1) (.kw .limit :: r1) = .ok (some (e, none), r2) := by
  simp only [pLimitOpt, hpo]
  cases r2 with
  | nil => rfl
  | cons t r' =>
    cases t <;> first
      | rfl
      | (rename_i k; cases k <;> first | rfl | simp at hoff)

theorem pLimit_off (f : Nat) (r1 : List Token) (e : Expr) (r2 : List Token)
    (o : Expr) (r3 : List Token)
    (hpo : pOr f r1 = .ok (e, .kw .offset :: r2))
    (hpo2 : pOr f r2 = .ok (o, r3)) :
    pLimitOpt (f + 1) (.kw .limit :: r1) = .ok (some (e, some o), r3) := by
  simp only [pLimitOpt, hpo, hpo2]

theorem pOrderList_dir (f : Nat) (ts : List Token) (e : Expr) (d : OrderDir)
    (r2 : List Token) (hpo : pOr f ts = .ok (e, dirToken d :: r2)) :
    pOrderList (f + 1) ts = pOrderTail f e d r2 := by
  cases d <;> (simp only [dirToken] at hpo; simp only [pOrderList, hpo])

theorem pOrderTail_last (f : Nat) (e : Expr) (d : OrderDir) (r2 : List Token)
    (hc : r2.head? ≠ some .comma) :
    pOrderTail (f + 1) e d r2 = .ok ([(e, d)], r2) := by
  cases r2 with
  | nil => rfl
  | cons t r' => cases t <;> first | rfl | simp at hc

theorem pOrderTail_cons (f : Nat) (e : Expr) (d : OrderDir) (r3 : List Token)
    (es : List (Expr × OrderDir)) (r4 : List Token)
    (hrec : pOrderList f r3 = .ok (es, r4)) :
    pOrderTail (f + 1) e d (.comma :: r3) = .ok ((e, d) :: es, r4) := by
  simp only [pOrderTail, hrec]

theorem pCtes_last (f : Nat) (n : String) (s : Stmt) (r1 r2 : List Token)
    (hps : pStmt f r1 = .ok (s, .rparen :: r2))
    (hc : r2.head? ≠ some .comma) :
    pCtes (f + 1) (.ident n :: .kw .asK :: .lparen :: r1) = .ok ([(n, s)], r2) := by
  simp only [pCtes, hps]
  cases r2 with
  | nil => rfl
  | cons t r' => cases t <;> first | rfl | simp at hc

theorem pCtes_cons (f : Nat) (n : String) (s : Stmt) (r1 r3 : List Token)
    (cs : List (String × Stmt)) (r4 : List Token)
    (hps : pStmt f r1 = .ok (s, .rparen :: .comma :: r3))
    (hrec : pCtes f r3 = .ok (cs, r4)) :
    pCtes (f + 1) (.ident n :: .kw .asK :: .lparen :: r1) =
      .ok ((n, s) :: cs, r4) := by
  simp only [pCtes, hps, hrec]

theorem pSelect_ok (f : Nat) (ts : List Token) (projs : List Proj)
    (ts1 : List Token) (src : Option Source) (ts2 : List Token)
    (whereC : Option Expr) (ts3 : List Token) (groupBy : List Expr)
    (ts4 : List Token) (havingC : Option Expr) (ts5 : List Token)
    (orderBy : List (Expr × OrderDir)) (ts6 : List Token)
    (limitC : Option (Expr × Option Expr)) (ts7 : List Token)
    (h1 : pProjList f ts = .ok (projs, ts1))
    (h2 : pFromOpt f ts1 = .ok (src, ts2))
    (h3 : pWhereOpt f ts2 = .ok (whereC, ts3))
    (h4 : pGroupOpt f ts3 = .ok (groupBy, ts4))
    (h5 : pHavingOpt f ts4 = .ok (havingC, ts5))
    (h6 : pOrderOpt f ts5 = .ok (orderBy, ts6))
    (h7 : pLimitOpt f ts6 = .ok (limitC, ts7)) :
    pSelect (f + 1) ts =
      .ok (.select projs src whereC groupBy havingC orderBy limitC, ts7) := by
  simp only [pSelect, h1, h2, h3, h4, h5, h6, h7]

theorem pWith_plain_ok (f : Nat) (ts : List Token)
    (ctes : List (String × Stmt)) (r2 : List Token) (body : Stmt)
    (r3 : List Token) (hnr : ts.head? ≠ some (.kw .recursive))
    (hc : pCtes f ts = .ok (ctes, r2)) (hs : pStmt f r2 = .ok (body, r3)) :
    pWith (f + 1) ts = .ok (.withS false ctes body, r3) := by
  rw [pWith_plain f ts hnr]
  simp only [hc, hs]

theorem pWith_rec_ok (f : Nat) (r1 : List Token)
    (ctes : List (String × Stmt)) (r2 : List Token) (body : Stmt)
    (r3 : List Token)
    (hc : pCtes f r1 = .ok (ctes, r2)) (hs : pStmt f r2 = .ok (body, r3)) :
    pWith (f + 1) (.kw .recursive :: r1) = .ok (.withS true ctes body, r3) := by
  rw [pWith_rec f r1]
  simp only [hc, hs]

theorem pStmt_other_ok (f : Nat) (k : Kw) (r raw r2 : List Token)
    (h1 : k ≠ .select) (h2 : k ≠ .withK) (hmem : k ∈ otherKws)
    (hsp : splitOther 0 r = (raw, r2)) (hscan : rawScan 0 raw = some 0) :
    pStmt (f + 1) (.kw k :: r) = .ok (.other k raw, r2) := by
  rw [pStmt_other f k r h1 h2, if_pos hmem]
  simp only [hsp]
  rw [if_pos hscan]

/-! ## The bin-operator interior re-parses at the expression entry point -/

theorem noneOf_sub (bad bad2 : List Token) (ts : List Token)
    (hs : ∀ t ∈ bad2, t ∈ bad) (h : noneOf bad ts) : noneOf bad2 ts :=
  fun t ht => h t (hs t ht)

theorem tokExpr_length_pos (e : Expr) : 1 ≤ (tokExpr e).length := by
  cases e with
  | col o n => cases o <;> simp [tokExpr]
  | numL ds => simp [tokExpr]
  | strL s => simp [tokExpr]
  | fn n a => simp [tokExpr]
  | bin o l r => simp [tokExpr]
  | sub s => simp [tokExpr]

theorem jkindOf_tok (k : JoinKind) (x : List Token) :
    jkindOf (tokJoinKind k ++ x) = some (k, x) := by
  cases k <;> rfl

theorem joins_headIs (js : List (JoinKind × SItem × Expr)) (rest : List Token)
    (h : headIs (rankGe 1) rest) : headIs joinTailTok (tokJoins js ++ rest) := by
  cases js with
  | nil =>
    exact headIs_mono _ _ (fun t ht => by simp [joinTailTok, ht]) rest h
  | cons j js2 =>
    obtain ⟨k, it, e⟩ := j
    cases k <;> rfl

theorem binInterior (m : Nat) (P : InvP m) (o : BinOp) (l r : Expr)
    (hll : (tokExpr l).length ≤ m) (hlr : (tokExpr r).length ≤ m)
    (hwl : wfExprB l = true) (hwr : wfExprB r = true) :
    ∀ fuel rest, 64 * ((tokExpr l).length + (tokExpr r).length) + 70 ≤ fuel →
    noneOf orBad rest →
    pOr fuel (tokExpr l ++ (opToken o :: (tokExpr r ++ rest))) =
      .ok (.bin o l r, rest) := by
  intro fuel rest hfuel hrest
  obtain ⟨f1, rfl⟩ : ∃ g, fuel = g + 1 := ⟨fuel - 1, by omega⟩
  obtain ⟨f2, hf1⟩ : ∃ g, f1 = g + 1 := ⟨f1 - 1, by omega⟩
  obtain ⟨f3, hf2⟩ : ∃ g, f2 = g + 1 := ⟨f2 - 1, by omega⟩
  obtain ⟨f4, hf3⟩ : ∃ g, f3 = g + 1 := ⟨f3 - 1, by omega⟩
  obtain ⟨f5, hf4⟩ : ∃ g, f4 = g + 1 := ⟨f4 - 1, by omega⟩
  obtain ⟨f6, hf5⟩ : ∃ g, f5 = g + 1 := ⟨f5 - 1, by omega⟩
  obtain ⟨f7, hf6⟩ : ∃ g, f6 = g + 1 := ⟨f6 - 1, by omega⟩
  cases o with
  | eq =>
    have hl := P.addI l hll hwl f3 (Token.opTok .eqS :: (tokExpr r ++ rest))
      (by omega) (noneOf_cons _ _ _ (by decide))
    have hr2 := P.addI r hlr hwr f3 rest (by omega)
      (noneOf_sub _ _ _ (by decide) hrest)
    have hCmp : pCmp f2 (tokExpr l ++ (Token.opTok .eqS :: (tokExpr r ++ rest))) =
        .ok (.bin .eq l r, rest) := by
      rw [hf2]
      simp only [pCmp, hl, cmpOpOf, hr2]
    have hAnd : pAnd f1 (tokExpr l ++ (Token.opTok .eqS :: (tokExpr r ++ rest))) =
        .ok (.bin .eq l r, rest) := by
      rw [hf1]
      simp only [pAnd, hCmp]
      rw [hf2]
      exact pAndLoop_stop f3 _ rest (hrest _ (by decide))
    simp only [opToken, pOr, hAnd]
    rw [hf1]
    exact pOrLoop_stop f2 _ rest (hrest _ (by decide))
  | ne =>
    have hl := P.addI l hll hwl f3 (Token.opTok .neS :: (tokExpr r ++ rest))
      (by omega) (noneOf_cons _ _ _ (by decide))
    have hr2 := P.addI r hlr hwr f3 rest (by omega)
      (noneOf_sub _ _ _ (by decide) hrest)
    have hCmp : pCmp f2 (tokExpr l ++ (Token.opTok .neS :: (tokExpr r ++ rest))) =
        .ok (.bin .ne l r, rest) := by
      rw [hf2]
      simp only [pCmp, hl, cmpOpOf, hr2]
    have hAnd : pAnd f1 (tokExpr l ++ (Token.opTok .neS :: (tokExpr r ++ rest))) =
        .ok (.bin .ne l r, rest) := by
      rw [hf1]
      simp only [pAnd, hCmp]
      rw [hf2]
      exact pAndLoop_stop f3 _ rest (hrest _ (by decide))
    simp only [opToken, pOr, hAnd]
    rw [hf1]
    exact pOrLoop_stop f2 _ rest (hrest _ (by decide))
  | lt =>
    have hl := P.addI l hll hwl f3 (Token.opTok .ltS :: (tokExpr r ++ rest))
      (by omega) (noneOf_cons _ _ _ (by decide))
    have hr2 := P.addI r hlr hwr f3 rest (by omega)
      (noneOf_sub _ _ _ (by decide) hrest)
    have hCmp : pCmp f2 (tokExpr l ++ (Token.opTok .ltS :: (tokExpr r ++ rest))) =
        .ok (.bin .lt l r, rest) := by
      rw [hf2]
      simp only [pCmp, hl, cmpOpOf, hr2]
    have hAnd : pAnd f1 (tokExpr l ++ (Token.opTok .ltS :: (tokExpr r ++ rest))) =
        .ok (.bin .lt l r, rest) := by
      rw [hf1]
      simp only [pAnd, hCmp]
      rw [hf2]
      exact pAndLoop_stop f3 _ rest (hrest _ (by decide))
    simp only [opToken, pOr, hAnd]
    rw [hf1]
    exact pOrLoop_stop f2 _ rest (hrest _ (by decide))
  | gt =>
    have hl := P.addI l hll hwl f3 (Token.opTok .gtS :: (tokExpr r ++ rest))
      (by omega) (noneOf_cons _ _ _ (by decide))
    have hr2 := P.addI r hlr hwr f3 rest (by omega)
      (noneOf_sub _ _ _ (by decide) hrest)
    have hCmp : pCmp f2 (tokExpr l ++ (Token.opTok .gtS :: (tokExpr r ++ rest))) =
        .ok (.bin .gt l r, rest) := by
      rw [hf2]
      simp only [pCmp, hl, cmpOpOf, hr2]
    have hAnd : pAnd f1 (tokExpr l ++ (Token.opTok .gtS :: (tokExpr r ++ rest))) =
        .ok (.bin .gt l r, rest) := by
      rw [hf1]
      simp only [pAnd, hCmp]
      rw [hf2]
      exact pAndLoop_stop f3 _ rest (hrest _ (by decide))
    simp only [opToken, pOr, hAnd]
    rw [hf1]
    exact pOrLoop_stop f2 _ rest (hrest _ (by decide))
  | le =>
    have hl := P.addI l hll hwl f3 (Token.opTok .leS :: (tokExpr r ++ rest))
      (by omega) (noneOf_cons _ _ _ (by decide))
    have hr2 := P.addI r hlr hwr f3 rest (by omega)
      (noneOf_sub _ _ _ (by decide) hrest)
    have hCmp : pCmp f2 (tokExpr l ++ (Token.opTok .leS :: (tokExpr r ++ rest))) =
        .ok (.bin .le l r, rest) := by
      rw [hf2]
      simp only [pCmp, hl, cmpOpOf, hr2]
    have hAnd : pAnd f1 (tokExpr l ++ (Token.opTok .leS :: (tokExpr r ++ rest))) =
        .ok (.bin .le l r, rest) := by
      rw [hf1]
      simp only [pAnd, hCmp]
      rw [hf2]
      exact pAndLoop_stop f3 _ rest (hrest _ (by decide))
    simp only [opToken, pOr, hAnd]
    rw [hf1]
    exact pOrLoop_stop f2 _ rest (hrest _ (by decide))
  | ge =>
    have hl := P.addI l hll hwl f3 (Token.opTok .geS :: (tokExpr r ++ rest))
      (by omega) (noneOf_cons _ _ _ (by decide))
    have hr2 := P.addI r hlr hwr f3 rest (by omega)
      (noneOf_sub _ _ _ (by decide) hrest)
    have hCmp : pCmp f2 (tokExpr l ++ (Token.opTok .geS :: (tokExpr r ++ rest))) =
        .ok (.bin .ge l r, rest) := by
      rw [hf2]
      simp only [pCmp, hl, cmpOpOf, hr2]
    have hAnd : pAnd f1 (tokExpr l ++ (Token.opTok .geS :: (tokExpr r ++ rest))) =
        .ok (.bin .ge l r, rest) := by
      rw [hf1]
      simp only [pAnd, hCmp]
      rw [hf2]
      exact pAndLoop_stop f3 _ rest (hrest _ (by decide))
    simp only [opToken, pOr, hAnd]
    rw [hf1]
    exact pOrLoop_stop f2 _ rest (hrest _ (by decide))
  | add =>
    have hl := P.mulI l hll hwl f4 (Token.opTok .plusS :: (tokExpr r ++ rest))
      (by omega) (noneOf_cons _ _ _ (by decide))
    have hr2 := P.mulI r hlr hwr f5 rest (by omega)
      (noneOf_sub _ _ _ (by decide) hrest)
    have hstopc := cmpOpOf_none rest (noneOf_sub _ _ _ (by decide) hrest)
    have hAdd : pAdd f3 (tokExpr l ++ (Token.opTok .plusS :: (tokExpr r ++ rest))) =
        .ok (.bin .add l r, rest) := by
      rw [hf3]
      simp only [pAdd, hl]
      rw [hf4]
      simp only [pAddLoop, addOpOf, hr2]
      rw [hf5]
      exact pAddLoop_none f6 _ rest
        (addOpOf_none rest (noneOf_sub _ _ _ (by decide) hrest))
    have hCmp : pCmp f2 (tokExpr l ++ (Token.opTok .plusS :: (tokExpr r ++ rest))) =
        .ok (.bin .add l r, rest) := by
      rw [hf2]
      simp only [pCmp, hAdd, hstopc]
    have hAnd : pAnd f1 (tokExpr l ++ (Token.opTok .plusS :: (tokExpr r ++ rest))) =
        .ok (.bin .add l r, rest) := by
      rw [hf1]
      simp only [pAnd, hCmp]
      rw [hf2]
      exact pAndLoop_stop f3 _ rest (hrest _ (by decide))
    simp only [opToken, pOr, hAnd]
    rw [hf1]
    exact pOrLoop_stop f2 _ rest (hrest _ (by decide))
  | sub =>
    have hl := P.mulI l hll hwl f4 (Token.opTok .minusS :: (tokExpr r ++ rest))
      (by omega) (noneOf_cons _ _ _ (by decide))
    have hr2 := P.mulI r hlr hwr f5 rest (by omega)
      (noneOf_sub _ _ _ (by decide) hrest)
    have hstopc := cmpOpOf_none rest (noneOf_sub _ _ _ (by decide) hrest)
    have hAdd : pAdd f3 (tokExpr l ++ (Token.opTok .minusS :: (tokExpr r ++ rest))) =
        .ok (.bin .sub l r, rest) := by
      rw [hf3]
      simp only [pAdd, hl]
      rw [hf4]
      simp only [pAddLoop, addOpOf, hr2]
      rw [hf5]
      exact pAddLoop_none f6 _ rest
        (addOpOf_none rest (noneOf_sub _ _ _ (by decide) hrest))
    have hCmp : pCmp f2 (tokExpr l ++ (Token.opTok .minusS :: (tokExpr r ++ rest))) =
        .ok (.bin .sub l r, rest) := by
      rw [hf2]
      simp only [pCmp, hAdd, hstopc]
    have hAnd : pAnd f1 (tokExpr l ++ (Token.opTok .minusS :: (tokExpr r ++ rest))) =
        .ok (.bin .sub l r, rest) := by
      rw [hf1]
      simp only [pAnd, hCmp]
      rw [hf2]
      exact pAndLoop_stop f3 _ rest (hrest _ (by decide))
    simp only [opToken, pOr, hAnd]
    rw [hf1]
    exact pOrLoop_stop f2 _ rest (hrest _ (by decide))
  | concat =>
    have hl := P.mulI l hll hwl f4 (Token.opTok .concatS :: (tokExpr r ++ rest))
      (by omega) (noneOf_cons _ _ _ (by decide))
    have hr2 := P.mulI r hlr hwr f5 rest (by omega)
      (noneOf_sub _ _ _ (by decide) hrest)
    have hstopc := cmpOpOf_none rest (noneOf_sub _ _ _ (by decide) hrest)
    have hAdd : pAdd f3 (tokExpr l ++ (Token.opTok .concatS :: (tokExpr r ++ rest))) =
        .ok (.bin .concat l r, rest) := by
      rw [hf3]
      simp only [pAdd, hl]
      rw [hf4]
      simp only [pAddLoop, addOpOf, hr2]
      rw [hf5]
      exact pAddLoop_none f6 _ rest
        (addOpOf_none rest (noneOf_sub _ _ _ (by decide) hrest))
    have hCmp : pCmp f2 (tokExpr l ++ (Token.opTok .concatS :: (tokExpr r ++ rest))) =
        .ok (.bin .concat l r, rest) := by
      rw [hf2]
      simp only [pCmp, hAdd, hstopc]
    have hAnd : pAnd f1 (tokExpr l ++ (Token.opTok .concatS :: (tokExpr r ++ rest))) =
        .ok (.bin .concat l r, rest) := by
      rw [hf1]
      simp only [pAnd, hCmp]
      rw [hf2]
      exact pAndLoop_stop f3 _ rest (hrest _ (by decide))
    simp only [opToken, pOr, hAnd]
    rw [hf1]
    exact pOrLoop_stop f2 _ rest (hrest _ (by decide))
  | mul =>
    have hl := P.prim l hll hwl f5 (Token.star :: (tokExpr r ++ rest))
      (by omega) (noneOf_cons _ _ _ (by decide))
    have hr2 := P.prim r hlr hwr f6 rest (by omega)
      (noneOf_sub _ _ _ (by decide) hrest)
    have hstopc := cmpOpOf_none rest (noneOf_sub _ _ _ (by decide) hrest)
    have hMul : pMul f4 (tokExpr l ++ (Token.star :: (tokExpr r ++ rest))) =
        .ok (.bin .mul l r, rest) := by
      rw [hf4]
      simp only [pMul, hl]
      rw [hf5]
      simp only [pMulLoop, mulOpOf, hr2]
      rw [hf6]
      exact pMulLoop_none f7 _ rest
        (mulOpOf_none rest (noneOf_sub _ _ _ (by decide) hrest))
    have hAdd : pAdd f3 (tokExpr l ++ (Token.star :: (tokExpr r ++ rest))) =
        .ok (.bin .mul l r, rest) := by
      rw [hf3]
      simp only [pAdd, hMul]
      rw [hf4]
      exact pAddLoop_none f5 _ rest
        (addOpOf_none rest (noneOf_sub _ _ _ (by decide) hrest))
    have hCmp : pCmp f2 (tokExpr l ++ (Token.star :: (tokExpr r ++ rest))) =
        .ok (.bin .mul l r, rest) := by
      rw [hf2]
      simp only [pCmp, hAdd, hstopc]
    have hAnd : pAnd f1 (tokExpr l ++ (Token.star :: (tokExpr r ++ rest))) =
        .ok (.bin .mul l r, rest) := by
      rw [hf1]
      simp only [pAnd, hCmp]
      rw [hf2]
      exact pAndLoop_stop f3 _ rest (hrest _ (by decide))
    simp only [opToken, pOr, hAnd]
    rw [hf1]
    exact pOrLoop_stop f2 _ rest (hrest _ (by decide))
  | div =>
    have hl := P.prim l hll hwl f5 (Token.opTok .divS :: (tokExpr r ++ rest))
      (by omega) (noneOf_cons _ _ _ (by decide))
    have hr2 := P.prim r hlr hwr f6 rest (by omega)
      (noneOf_sub _ _ _ (by decide) hrest)
    have hstopc := cmpOpOf_none rest (noneOf_sub _ _ _ (by decide) hrest)
    have hMul : pMul f4 (tokExpr l ++ (Token.opTok .divS :: (tokExpr r ++ rest))) =
        .ok (.bin .div l r, rest) := by
      rw [hf4]
      simp only [pMul, hl]
      rw [hf5]
      simp only [pMulLoop, mulOpOf, hr2]
      rw [hf6]
      exact pMulLoop_none f7 _ rest
        (mulOpOf_none rest (noneOf_sub _ _ _ (by decide) hrest))
    have hAdd : pAdd f3 (tokExpr l ++ (Token.opTok .divS :: (tokExpr r ++ rest))) =
        .ok (.bin .div l r, rest) := by
      rw [hf3]
      simp only [pAdd, hMul]
      rw [hf4]
      exact pAddLoop_none f5 _ rest
        (addOpOf_none rest (noneOf_sub _ _ _ (by decide) hrest))
    have hCmp : pCmp f2 (tokExpr l ++ (Token.opTok .divS :: (tokExpr r ++ rest))) =
        .ok (.bin .div l r, rest) := by
      rw [hf2]
      simp only [pCmp, hAdd, hstopc]
    have hAnd : pAnd f1 (tokExpr l ++ (Token.opTok .divS :: (tokExpr r ++ rest))) =
        .ok (.bin .div l r, rest) := by
      rw [hf1]
      simp only [pAnd, hCmp]
      rw [hf2]
      exact pAndLoop_stop f3 _ rest (hrest _ (by decide))
    simp only [opToken, pOr, hAnd]
    rw [hf1]
    exact pOrLoop_stop f2 _ rest (hrest _ (by decide))
  | andB =>
    have hl := P.cmpI l hll hwl f2 (Token.kw .andK :: (tokExpr r ++ rest))
      (by omega) (noneOf_cons _ _ _ (by decide))
    have hr2 := P.cmpI r hlr hwr f3 rest (by omega)
      (noneOf_sub _ _ _ (by decide) hrest)
    have hAnd : pAnd f1 (tokExpr l ++ (Token.kw .andK :: (tokExpr r ++ rest))) =
        .ok (.bin .andB l r, rest) := by
      rw [hf1]
      simp only [pAnd, hl]
      rw [hf2]
      simp only [pAndLoop, hr2]
      rw [hf3]
      exact pAndLoop_stop f4 _ rest (hrest _ (by decide))
    simp only [opToken, pOr, hAnd]
    rw [hf1]
    exact pOrLoop_stop f2 _ rest (hrest _ (by decide))
  | orB =>
    have hl := P.andI l hll hwl f1 (Token.kw .orK :: (tokExpr r ++ rest))
      (by omega) (noneOf_cons _ _ _ (by decide))
    have hr2 := P.andI r hlr hwr f2 rest (by omega)
      (noneOf_sub _ _ _ (by decide) hrest)
    simp only [opToken, pOr, hl]
    rw [hf1]
    simp only [pOrLoop, hr2]
    rw [hf2]
    exact pOrLoop_stop f3 _ rest (hrest _ (by decide))

theorem primInv (n : Nat) (ih : ∀ m, m < n → InvP m) : PrimSt n := by
  intro e hlen hwf fuel rest hfuel hrest
  have hpos := tokExpr_length_pos e
  obtain ⟨f1, rfl⟩ : ∃ g, fuel = g + 1 := ⟨fuel - 1, by omega⟩
  cases e with
  | col o nm =>
    cases o with
    | none =>
      exact pPrim_identCol f1 nm rest (hrest _ (by decide)) (hrest _ (by decide))
    | some t => exact pPrim_qual f1 t nm rest
  | numL ds => exact pPrim_num f1 ds rest
  | strL s => exact pPrim_str f1 s rest
  | fn nm args =>
    cases args with
    | star => rfl
    | exprs es =>
      cases es with
      | nil => rfl
      | cons e1 es2 =>
        have hl1 : (tokExpr (Expr.fn nm (.exprs (e1 :: es2)))).length =
            (tokExprList (e1 :: es2)).length + 3 := by
          simp only [tokExpr, tokArgs, List.length_append, List.length_cons, List.length_nil]
        have hP := ih (n - 1) (by omega)
        have hw2 : wfExprListB (e1 :: es2) = true := by
          simp only [wfExprB, wfArgsB, Bool.and_eq_true] at hwf
          exact hwf.2
        have hargs := hP.argsI (e1 :: es2) (by simp) (by omega) hw2 f1
          (Token.rparen :: rest) (by omega) (noneOf_cons _ _ _ (by decide))
        have hh1 : (tokExprList (e1 :: es2) ++ (Token.rparen :: rest)).head? ≠
            some Token.star := by
          rw [show tokExprList (e1 :: es2) = tokExpr e1 ++ tokExprListTail es2
            from rfl, List.append_assoc]
          exact tokExpr_head_ne e1 _ _ rfl
        have hh2 : (tokExprList (e1 :: es2) ++ (Token.rparen :: rest)).head? ≠
            some Token.rparen := by
          rw [show tokExprList (e1 :: es2) = tokExpr e1 ++ tokExprListTail es2
            from rfl, List.append_assoc]
          exact tokExpr_head_ne e1 _ _ rfl
        have hassoc : tokExpr (Expr.fn nm (.exprs (e1 :: es2))) ++ rest =
            Token.ident nm :: Token.lparen ::
              (tokExprList (e1 :: es2) ++ (Token.rparen :: rest)) := by
          simp [tokExpr, tokArgs]
        rw [hassoc]
        exact pPrim_fn_args f1 nm _ (e1 :: es2) rest hh1 hh2 hargs
  | bin o l r =>
    have hposl := tokExpr_length_pos l
    have hposr := tokExpr_length_pos r
    have hl2 : (tokExpr (Expr.bin o l r)).length =
        (tokExpr l).length + (tokExpr r).length + 3 := by
      simp only [tokExpr, List.length_append, List.length_cons, List.length_nil]
      omega
    obtain ⟨hwl, hwr⟩ : wfExprB l = true ∧ wfExprB r = true := by
      simpa [wfExprB] using hwf
    have hP := ih (n - 1) (by omega)
    have hBin := binInterior (n - 1) hP o l r (by omega) (by omega) hwl hwr f1
      (Token.rparen :: rest) (by omega) (noneOf_cons _ _ _ (by decide))
    have hassoc : tokExpr (Expr.bin o l r) ++ rest =
        Token.lparen ::
          (tokExpr l ++ (opToken o :: (tokExpr r ++ (Token.rparen :: rest)))) := by
      simp [tokExpr]
    rw [hassoc]
    exact pPrim_paren_ok f1 _ (Expr.bin o l r) rest
      (tokExpr_head_ne l _ _ rfl) (tokExpr_head_ne l _ _ rfl) hBin
  | sub s =>
    obtain ⟨hnr, hws⟩ : isOtherRoot s = false ∧ wfStmtB s = true := by
      simpa [wfExprB] using hwf
    have hl2 : (tokExpr (Expr.sub s)).length = (tokStmt s).length + 2 := by
      simp only [tokExpr, List.length_append, List.length_cons, List.length_nil]
    have hP := ih (n - 1) (by omega)
    have hs := hP.stmtI s (by omega) hws f1 (Token.rparen :: rest) (by omega) rfl
    have hassoc : tokExpr (Expr.sub s) ++ rest =
        Token.lparen :: (tokStmt s ++ (Token.rparen :: rest)) := by
      simp [tokExpr]
    have hhead : (tokStmt s ++ (Token.rparen :: rest)).head? =
        some (Token.kw .select) ∨
        (tokStmt s ++ (Token.rparen :: rest)).head? = some (Token.kw .withK) := by
      cases s with
      | select p1 p2 p3 p4 p5 p6 p7 => exact Or.inl rfl
      | withS q1 q2 q3 => exact Or.inr rfl
      | other k raw => simp [isOtherRoot] at hnr
    rw [hassoc]
    exact pPrim_paren_stmt f1 _ s rest hhead hs

theorem mulInv (n : Nat) (hp : PrimSt n) : MulSt n := by
  intro e hlen hwf fuel rest hfuel hrest
  have hpos := tokExpr_length_pos e
  obtain ⟨f1, rfl⟩ : ∃ g, fuel = g + 1 := ⟨fuel - 1, by omega⟩
  obtain ⟨f2, hf1⟩ : ∃ g, f1 = g + 1 := ⟨f1 - 1, by omega⟩
  have hpr := hp e hlen hwf f1 rest (by omega)
    (noneOf_sub _ _ _ (by decide) hrest)
  simp only [pMul, hpr]
  rw [hf1]
  exact pMulLoop_none f2 e rest (mulOpOf_none rest hrest)

theorem addInv (n : Nat) (hm : MulSt n) : AddSt n := by
  intro e hlen hwf fuel rest hfuel hrest
  have hpos := tokExpr_length_pos e
  obtain ⟨f1, rfl⟩ : ∃ g, fuel = g + 1 := ⟨fuel - 1, by omega⟩
  obtain ⟨f2, hf1⟩ : ∃ g, f1 = g + 1 := ⟨f1 - 1, by omega⟩
  have hm1 := hm e hlen hwf f1 rest (by omega)
    (noneOf_sub _ _ _ (by decide) hrest)
  simp only [pAdd, hm1]
  rw [hf1]
  exact pAddLoop_none f2 e rest (addOpOf_none rest hrest)

theorem cmpInv (n : Nat) (ha : AddSt n) : CmpSt n := by
  intro e hlen hwf fuel rest hfuel hrest
  have hpos := tokExpr_length_pos e
  obtain ⟨f1, rfl⟩ : ∃ g, fuel = g + 1 := ⟨fuel - 1, by omega⟩
  have ha1 := ha e hlen hwf f1 rest (by omega)
    (noneOf_sub _ _ _ (by decide) hrest)
  simp only [pCmp, ha1, cmpOpOf_none rest hrest]

theorem andInv (n : Nat) (hc : CmpSt n) : AndSt n := by
  intro e hlen hwf fuel rest hfuel hrest
  have hpos := tokExpr_length_pos e
  obtain ⟨f1, rfl⟩ : ∃ g, fuel = g + 1 := ⟨fuel - 1, by omega⟩
  obtain ⟨f2, hf1⟩ : ∃ g, f1 = g + 1 := ⟨f1 - 1, by omega⟩
  have hc1 := hc e hlen hwf f1 rest (by omega)
    (noneOf_sub _ _ _ (by decide) hrest)
  simp only [pAnd, hc1]
  rw [hf1]
  exact pAndLoop_stop f2 e rest (hrest _ (by decide))

theorem orInv (n : Nat) (ha : AndSt n) : OrSt n := by
  intro e hlen hwf fuel rest hfuel hrest
  have hpos := tokExpr_length_pos e
  obtain ⟨f1, rfl⟩ : ∃ g, fuel = g + 1 := ⟨fuel - 1, by omega⟩
  obtain ⟨f2, hf1⟩ : ∃ g, f1 = g + 1 := ⟨f1 - 1, by omega⟩
  have ha1 := ha e hlen hwf f1 rest (by omega)
    (noneOf_sub _ _ _ (by decide) hrest)
  simp only [pOr, ha1]
  rw [hf1]
  exact pOrLoop_stop f2 e rest (hrest _ (by decide))

theorem exprListInv (n : Nat) (ho : OrSt n) : ExprListSt n := by
  intro es
  induction es with
  | nil => intro hne; exact absurd rfl hne
  | cons e1 es2 ihl =>
    intro _ hlen hwf fuel rest hfuel hrest
    obtain ⟨hw1, hw2⟩ : wfExprB e1 = true ∧ wfExprListB es2 = true := by
      simpa [wfExprListB] using hwf
    obtain ⟨f1, rfl⟩ : ∃ g, fuel = g + 1 := ⟨fuel - 1, by omega⟩
    cases es2 with
    | nil =>
      have hlenEq : (tokExprList [e1]).length = (tokExpr e1).length := by
        simp [tokExprList, tokExprListTail]
      have ho1 := ho e1 (by omega) hw1 f1 rest (by omega)
        (noneOf_sub _ _ _ (by decide) hrest)
      rw [show tokExprList [e1] ++ rest = tokExpr e1 ++ rest by
        simp [tokExprList, tokExprListTail]]
      exact pExprList_last f1 _ e1 rest ho1 (hrest _ (by decide))
    | cons e2 es3 =>
      have hlenEq : (tokExprList (e1 :: e2 :: es3)).length =
          (tokExpr e1).length + (tokExprList (e2 :: es3)).length + 1 := by
        rw [show tokExprList (e1 :: e2 :: es3) =
          tokExpr e1 ++ tokExprListTail (e2 :: es3) from rfl, tokExprListTail_cons]
        simp only [List.length_append, List.length_cons]
        omega
      have ho1 := ho e1 (by omega) hw1 f1
        (Token.comma :: (tokExprList (e2 :: es3) ++ rest)) (by omega)
        (noneOf_cons _ _ _ (by decide))
      have hrec := ihl (by simp) (by omega) hw2 f1 rest (by omega) hrest
      rw [show tokExprList (e1 :: e2 :: es3) ++ rest =
          tokExpr e1 ++ (Token.comma :: (tokExprList (e2 :: es3) ++ rest)) by
        rw [show tokExprList (e1 :: e2 :: es3) =
          tokExpr e1 ++ tokExprListTail (e2 :: es3) from rfl, tokExprListTail_cons]
        simp]
      exact pExprList_cons f1 _ e1 _ _ rest ho1 hrec

theorem argsInv (n : Nat) (ho : OrSt n) : ArgsSt n := by
  intro es
  induction es with
  | nil => intro hne; exact absurd rfl hne
  | cons e1 es2 ihl =>
    intro _ hlen hwf fuel rest hfuel hrest
    obtain ⟨hw1, hw2⟩ : wfExprB e1 = true ∧ wfExprListB es2 = true := by
      simpa [wfExprListB] using hwf
    obtain ⟨f1, rfl⟩ : ∃ g, fuel = g + 1 := ⟨fuel - 1, by omega⟩
    cases es2 with
    | nil =>
      have hlenEq : (tokExprList [e1]).length = (tokExpr e1).length := by
        simp [tokExprList, tokExprListTail]
      have ho1 := ho e1 (by omega) hw1 f1 rest (by omega)
        (noneOf_sub _ _ _ (by decide) hrest)
      rw [show tokExprList [e1] ++ rest = tokExpr e1 ++ rest by
        simp [tokExprList, tokExprListTail]]
      exact pArgs_last f1 _ e1 rest ho1 (hrest _ (by decide))
    | cons e2 es3 =>
      have hlenEq : (tokExprList (e1 :: e2 :: es3)).length =
          (tokExpr e1).length + (tokExprList (e2 :: es3)).length + 1 := by
        rw [show tokExprList (e1 :: e2 :: es3) =
          tokExpr e1 ++ tokExprListTail (e2 :: es3) from rfl, tokExprListTail_cons]
        simp only [List.length_append, List.length_cons]
        omega
      have ho1 := ho e1 (by omega) hw1 f1
        (Token.comma :: (tokExprList (e2 :: es3) ++ rest)) (by omega)
        (noneOf_cons _ _ _ (by decide))
      have hrec := ihl (by simp) (by omega) hw2 f1 rest (by omega) hrest
      rw [show tokExprList (e1 :: e2 :: es3) ++ rest =
          tokExpr e1 ++ (Token.comma :: (tokExprList (e2 :: es3) ++ rest)) by
        rw [show tokExprList (e1 :: e2 :: es3) =
          tokExpr e1 ++ tokExprListTail (e2 :: es3) from rfl, tokExprListTail_cons]
        simp]
      exact pArgs_cons f1 _ e1 _ _ rest ho1 hrec

theorem projInv (n : Nat) (ho : OrSt n) : ProjSt n := by
  intro p hlen hwf fuel rest hfuel hrest
  obtain ⟨f1, rfl⟩ : ∃ g, fuel = g + 1 := ⟨fuel - 1, by omega⟩
  cases p with
  | star => exact pProj_star f1 rest
  | expr e al =>
    obtain ⟨hwe, hwa⟩ : wfExprB e = true ∧ wfAliasB al = true := by
      simpa [wfProjB] using hwf
    cases al with
    | none =>
      have hlenEq : (tokProj (Proj.expr e none)).length = (tokExpr e).length := rfl
      have ho1 := ho e (by omega) hwe f1 rest (by omega)
        (noneOf_sub _ _ _ (by decide) hrest)
      rw [show tokProj (Proj.expr e none) ++ rest = tokExpr e ++ rest from rfl]
      exact pProj_exprNone f1 _ e rest (tokExpr_head_ne e rest _ rfl) ho1
        (hrest _ (by decide))
    | some a =>
      have hlenEq : (tokProj (Proj.expr e (some a))).length =
          (tokExpr e).length + 2 := by
        simp only [tokProj, List.length_append, List.length_cons, List.length_nil]
      have ho1 := ho e (by omega) hwe f1 (Token.kw .asK :: Token.ident a :: rest)
        (by omega) (noneOf_cons _ _ _ (by decide))
      rw [show tokProj (Proj.expr e (some a)) ++ rest =
          tokExpr e ++ (Token.kw .asK :: Token.ident a :: rest) by
        simp [tokProj]]
      exact pProj_exprSome f1 _ e a rest (tokExpr_head_ne e _ _ rfl) ho1

theorem projListInv (n : Nat) (hp : ProjSt n) : ProjListSt n := by
  intro ps
  induction ps with
  | nil => intro hne; exact absurd rfl hne
  | cons p1 ps2 ihl =>
    intro _ hlen hwf fuel rest hfuel hrest
    obtain ⟨hw1, hw2⟩ : wfProjB p1 = true ∧ wfProjListB ps2 = true := by
      simpa [wfProjListB] using hwf
    obtain ⟨f1, rfl⟩ : ∃ g, fuel = g + 1 := ⟨fuel - 1, by omega⟩
    cases ps2 with
    | nil =>
      have hlenEq : (tokProjList [p1]).length = (tokProj p1).length := by
        simp [tokProjList, tokProjListTail]
      have hp1 := hp p1 (by omega) hw1 f1 rest (by omega)
        (noneOf_sub _ _ _ (by decide) hrest)
      rw [show tokProjList [p1] ++ rest = tokProj p1 ++ rest by
        simp [tokProjList, tokProjListTail]]
      exact pProjList_last f1 _ p1 rest hp1 (hrest _ (by decide))
    | cons p2 ps3 =>
      have hlenEq : (tokProjList (p1 :: p2 :: ps3)).length =
          (tokProj p1).length + (tokProjList (p2 :: ps3)).length + 1 := by
        rw [show tokProjList (p1 :: p2 :: ps3) =
          tokProj p1 ++ tokProjListTail (p2 :: ps3) from rfl, tokProjListTail_cons]
        simp only [List.length_append, List.length_cons]
        omega
      have hp1 := hp p1 (by omega) hw1 f1
        (Token.comma :: (tokProjList (p2 :: ps3) ++ rest)) (by omega)
        (noneOf_cons _ _ _ (by decide))
      have hrec := ihl (by simp) (by omega) hw2 f1 rest (by omega) hrest
      rw [show tokProjList (p1 :: p2 :: ps3) ++ rest =
          tokProj p1 ++ (Token.comma :: (tokProjList (p2 :: ps3) ++ rest)) by
        rw [show tokProjList (p1 :: p2 :: ps3) =
          tokProj p1 ++ tokProjListTail (p2 :: ps3) from rfl, tokProjListTail_cons]
        simp]
      exact pProjList_cons f1 _ p1 _ _ rest hp1 hrec

theorem sitemInv (n : Nat) (ih : ∀ m, m < n → InvP m) : SItemSt n := by
  intro it hlen hwf fuel rest hfuel hrest
  obtain ⟨f1, rfl⟩ : ∃ g, fuel = g + 1 := ⟨fuel - 1, by omega⟩
  cases it with
  | table nm al =>
    cases al with
    | none => exact pSItem_table f1 nm rest (hrest _ (by decide))
    | some a => exact pSItem_tableAlias f1 nm a rest
  | sub s al =>
    obtain ⟨hws, hwa⟩ : wfStmtB s = true ∧ wfAliasB al = true := by
      simpa [wfSItemB] using hwf
    cases al with
    | none =>
      have hlenEq : (tokSItem (SItem.sub s none)).length =
          (tokStmt s).length + 2 := by
        simp only [tokSItem, tokAlias, List.length_append, List.length_cons,
          List.length_nil]
      have hP := ih (n - 1) (by omega)
      have hs1 := hP.stmtI s (by omega) hws f1 (Token.rparen :: rest)
        (by omega) rfl
      rw [show tokSItem (SItem.sub s none) ++ rest =
          Token.lparen :: (tokStmt s ++ (Token.rparen :: rest)) by
        simp [tokSItem, tokAlias]]
      exact pSItem_subNone f1 _ s rest hs1 (hrest _ (by decide))
    | some a =>
      have hlenEq : (tokSItem (SItem.sub s (some a))).length =
          (tokStmt s).length + 4 := by
        simp only [tokSItem, tokAlias, List.length_append, List.length_cons,
          List.length_nil]
      have hP := ih (n - 1) (by omega)
      have hs1 := hP.stmtI s (by omega) hws f1
        (Token.rparen :: Token.kw .asK :: Token.ident a :: rest) (by omega) rfl
      rw [show tokSItem (SItem.sub s (some a)) ++ rest =
          Token.lparen :: (tokStmt s ++
            (Token.rparen :: Token.kw .asK :: Token.ident a :: rest)) by
        simp [tokSItem, tokAlias]]
      exact pSItem_subSome f1 _ s a rest hs1

theorem joinsInv (n : Nat) (hsi : SItemSt n) (ho : OrSt n) : JoinsSt n := by
  intro js
  induction js with
  | nil =>
    intro hlen hwf fuel rest hfuel hrest
    obtain ⟨f1, rfl⟩ : ∃ g, fuel = g + 1 := ⟨fuel - 1, by omega⟩
    exact pJoinList_none f1 rest (jkindOf_none_rank rest hrest)
  | cons j js2 ihl =>
    obtain ⟨k, it, e⟩ := j
    intro hlen hwf fuel rest hfuel hrest
    obtain ⟨⟨hwit, hwe⟩, hwjs⟩ : (wfSItemB it = true ∧ wfExprB e = true) ∧
        wfJoinsB js2 = true := by simpa [wfJoinsB] using hwf
    have hjkl : (tokJoinKind k).length ≤ 2 ∧ 1 ≤ (tokJoinKind k).length := by
      cases k <;> simp [tokJoinKind]
    have hlenEq : (tokJoins ((k, it, e) :: js2)).length =
        (tokJoinKind k).length + (tokSItem it).length + 1 + (tokExpr e).length +
          (tokJoins js2).length := by
      simp only [tokJoins, List.length_append, List.length_cons]
      omega
    have hpose := tokExpr_length_pos e
    obtain ⟨f1, rfl⟩ : ∃ g, fuel = g + 1 := ⟨fuel - 1, by omega⟩
    have hjt := joins_headIs js2 rest hrest
    have hsi1 := hsi it (by omega) hwit f1
      (Token.kw .onK :: (tokExpr e ++ (tokJoins js2 ++ rest))) (by omega)
      (noneOf_cons _ _ _ (by decide))
    have ho1 := ho e (by omega) hwe f1 (tokJoins js2 ++ rest) (by omega)
      (noneOf_of_headIs joinTailTok _ _ hjt (by decide))
    have hrec := ihl (by omega) hwjs f1 rest (by omega) hrest
    rw [show tokJoins ((k, it, e) :: js2) ++ rest =
        tokJoinKind k ++ (tokSItem it ++
          (Token.kw .onK :: (tokExpr e ++ (tokJoins js2 ++ rest)))) by
      simp [tokJoins]]
    exact pJoinList_cons f1 _ k _ it _ e _ js2 rest
      (jkindOf_tok k _) hsi1 ho1 hrec

theorem sourceInv (n : Nat) (hsi : SItemSt n) (hj : JoinsSt n) : SourceSt n := by
  intro s hlen hwf fuel rest hfuel hrest
  cases s with
  | item base js =>
    obtain ⟨hwb, hwj⟩ : wfSItemB base = true ∧ wfJoinsB js = true := by
      simpa [wfSourceB] using hwf
    have hposb : 1 ≤ (tokSItem base).length := by
      cases base with
      | table nm al => simp [tokSItem]
      | sub s2 al => simp [tokSItem]
    have hlenEq : (tokSource (Source.item base js)).length =
        (tokSItem base).length + (tokJoins js).length := by
      simp only [tokSource, List.length_append]
    obtain ⟨f1, rfl⟩ : ∃ g, fuel = g + 1 := ⟨fuel - 1, by omega⟩
    have hsi1 := hsi base (by omega) hwb f1 (tokJoins js ++ rest) (by omega)
      (noneOf_of_headIs joinTailTok _ _ (joins_headIs js rest hrest) (by decide))
    have hj1 := hj js (by omega) hwj f1 rest (by omega) hrest
    rw [show tokSource (Source.item base js) ++ rest =
        tokSItem base ++ (tokJoins js ++ rest) by simp [tokSource]]
    exact pFromItem_ok f1 _ base _ js rest hsi1 hj1

theorem orderInv (n : Nat) (ho : OrSt n) : OrderSt n := by
  intro obs
  induction obs with
  | nil => intro hne; exact absurd rfl hne
  | cons ob obs2 ihl =>
    obtain ⟨e, d⟩ := ob
    intro _ hlen hwf fuel rest hfuel hrest
    obtain ⟨hwe, hwo⟩ : wfExprB e = true ∧ wfOrderB obs2 = true := by
      simpa [wfOrderB] using hwf
    obtain ⟨f1, rfl⟩ : ∃ g, fuel = g + 1 := ⟨fuel - 1, by omega⟩
    obtain ⟨f2, hf1⟩ : ∃ g, f1 = g + 1 := ⟨f1 - 1, by omega⟩
    have hd : dirToken d ∉ orBad := by cases d <;> decide
    cases obs2 with
    | nil =>
      have hlenEq : (tokOrder [(e, d)]).length = (tokExpr e).length + 1 := by
        simp only [tokOrder, tokOrderTail, List.length_append, List.length_cons,
          List.length_nil]
      have ho1 := ho e (by omega) hwe f1 (dirToken d :: rest) (by omega)
        (noneOf_cons _ _ _ hd)
      rw [show tokOrder [(e, d)] ++ rest = tokExpr e ++ (dirToken d :: rest) by
        simp [tokOrder, tokOrderTail]]
      rw [pOrderList_dir f1 _ e d rest ho1, hf1]
      exact pOrderTail_last f2 e d rest
        ((noneOf_of_headIs (rankGe 6) [Token.comma] rest hrest (by decide)) _
          (by decide))
    | cons ob2 obs3 =>
      obtain ⟨e2, d2⟩ := ob2
      have hlenEq : (tokOrder ((e, d) :: (e2, d2) :: obs3)).length =
          (tokExpr e).length + (tokOrder ((e2, d2) :: obs3)).length + 2 := by
        rw [show tokOrder ((e, d) :: (e2, d2) :: obs3) =
          tokExpr e ++ (dirToken d :: tokOrderTail ((e2, d2) :: obs3)) from rfl,
          tokOrderTail_cons]
        simp only [List.length_append, List.length_cons]
        omega
      have ho1 := ho e (by omega) hwe f1
        (dirToken d :: (Token.comma :: (tokOrder ((e2, d2) :: obs3) ++ rest)))
        (by omega) (noneOf_cons _ _ _ hd)
      have hrec := ihl (by simp) (by omega) hwo f2 rest (by omega) hrest
      rw [show tokOrder ((e, d) :: (e2, d2) :: obs3) ++ rest =
          tokExpr e ++ (dirToken d ::
            (Token.comma :: (tokOrder ((e2, d2) :: obs3) ++ rest))) by
        rw [show tokOrder ((e, d) :: (e2, d2) :: obs3) =
          tokExpr e ++ (dirToken d :: tokOrderTail ((e2, d2) :: obs3)) from rfl,
          tokOrderTail_cons]
        simp]
      rw [pOrderList_dir f1 _ e d _ ho1, hf1]
      exact pOrderTail_cons f2 e d _ _ rest hrec

theorem ctesInv (n : Nat) (ih : ∀ m, m < n → InvP m) : CtesSt n := by
  intro cs
  induction cs with
  | nil => intro hne; exact absurd rfl hne
  | cons c cs2 ihl =>
    obtain ⟨nm, s⟩ := c
    intro _ hlen hwf fuel rest hfuel hrest
    obtain ⟨⟨hn, hws⟩, hwcs⟩ : (wfIdentB nm = true ∧ wfStmtB s = true) ∧
        wfCtesB cs2 = true := by simpa [wfCtesB] using hwf
    obtain ⟨f1, rfl⟩ : ∃ g, fuel = g + 1 := ⟨fuel - 1, by omega⟩
    cases cs2 with
    | nil =>
      have hlenEq : (tokCtes [(nm, s)]).length = (tokStmt s).length + 4 := by
        simp only [tokCtes, tokCtesTail, List.length_append, List.length_cons,
          List.length_nil]
      have hP := ih (n - 1) (by omega)
      have hs1 := hP.stmtI s (by omega) hws f1 (Token.rparen :: rest)
        (by omega) rfl
      rw [show tokCtes [(nm, s)] ++ rest =
          Token.ident nm :: Token.kw .asK :: Token.lparen ::
            (tokStmt s ++ (Token.rparen :: rest)) by
        simp [tokCtes, tokCtesTail]]
      exact pCtes_last f1 nm s _ rest hs1 hrest
    | cons c2 cs3 =>
      obtain ⟨n2, s2⟩ := c2
      have hlenEq : (tokCtes ((nm, s) :: (n2, s2) :: cs3)).length =
          (tokStmt s).length + (tokCtes ((n2, s2) :: cs3)).length + 5 := by
        rw [show tokCtes ((nm, s) :: (n2, s2) :: cs3) =
          Token.ident nm :: Token.kw .asK :: Token.lparen ::
            (tokStmt s ++ (Token.rparen :: tokCtesTail ((n2, s2) :: cs3)))
          from rfl, tokCtesTail_cons]
        simp only [List.length_append, List.length_cons]
        omega
      have hP := ih (n - 1) (by omega)
      have hs1 := hP.stmtI s (by omega) hws f1
        (Token.rparen :: Token.comma :: (tokCtes ((n2, s2) :: cs3) ++ rest))
        (by omega) rfl
      have hrec := ihl (by simp) (by omega) hwcs f1 rest (by omega) hrest
      rw [show tokCtes ((nm, s) :: (n2, s2) :: cs3) ++ rest =
          Token.ident nm :: Token.kw .asK :: Token.lparen ::
            (tokStmt s ++ (Token.rparen :: Token.comma ::
              (tokCtes ((n2, s2) :: cs3) ++ rest))) by
        rw [show tokCtes ((nm, s) :: (n2, s2) :: cs3) =
          Token.ident nm :: Token.kw .asK :: Token.lparen ::
            (tokStmt s ++ (Token.rparen :: tokCtesTail ((n2, s2) :: cs3)))
          from rfl, tokCtesTail_cons]
        simp]
      exact pCtes_cons f1 nm s _ _ _ rest hs1 hrec

set_option maxHeartbeats 1600000 in
theorem stmtInv (n : Nat) (ih : ∀ m, m < n → InvP m)
    (hpl : ProjListSt n) (hsrc : SourceSt n) (hor : OrSt n)
    (hel : ExprListSt n) (hob : OrderSt n) (hcs : CtesSt n) : StmtSt n := by
  intro s hlen hwf fuel rest hfuel hrest
  cases s with
  | select projs src whereC groupBy havingC orderBy limitC =>
    simp only [wfStmtB, Bool.and_eq_true] at hwf
    obtain ⟨⟨⟨⟨⟨⟨⟨hne, hwp⟩, hwsrc⟩, hww⟩, hwg⟩, hwh⟩, hwob⟩, hwlim⟩ := hwf
    have hpne : projs ≠ [] := by
      intro hc
      rw [hc] at hne
      simp at hne
    have hlenTot : (tokStmt (.select projs src whereC groupBy havingC orderBy
        limitC)).length = 1 + (tokProjList projs).length +
        (tokFromSeg src).length + (tokWhereSeg whereC).length +
        (tokGroupSeg groupBy).length + (tokHavingSeg havingC).length +
        (tokOrderSeg orderBy).length + (tokLimitSeg limitC).length := by
      simp only [tokStmt, List.length_append, List.length_cons]
      omega
    obtain ⟨f1, rfl⟩ : ∃ g, fuel = g + 1 := ⟨fuel - 1, by omega⟩
    obtain ⟨f2, hf1⟩ : ∃ g, f1 = g + 1 := ⟨f1 - 1, by omega⟩
    obtain ⟨f3, hf2⟩ : ∃ g, f2 = g + 1 := ⟨f2 - 1, by omega⟩
    have hT7 : headIs (rankGe 7) rest := headIs_stmtFollow rest hrest
    have hT6 : headIs (rankGe 6) (tokLimitSeg limitC ++ rest) :=
      selHead6 limitC rest hrest
    have hT5 : headIs (rankGe 5)
        (tokOrderSeg orderBy ++ (tokLimitSeg limitC ++ rest)) := by
      have := selHead5 orderBy limitC rest hrest
      simpa [List.append_assoc] using this
    have hT4 : headIs (rankGe 4)
        (tokHavingSeg havingC ++ (tokOrderSeg orderBy ++
          (tokLimitSeg limitC ++ rest))) := by
      have := selHead4 havingC orderBy limitC rest hrest
      simpa [List.append_assoc] using this
    have hT3 : headIs (rankGe 3)
        (tokGroupSeg groupBy ++ (tokHavingSeg havingC ++ (tokOrderSeg orderBy ++
          (tokLimitSeg limitC ++ rest)))) := by
      have := selHead3 groupBy havingC orderBy limitC rest hrest
      simpa [List.append_assoc] using this
    have hT2 : headIs (rankGe 2)
        (tokWhereSeg whereC ++ (tokGroupSeg groupBy ++ (tokHavingSeg havingC ++
          (tokOrderSeg orderBy ++ (tokLimitSeg limitC ++ rest))))) := by
      have := selHead2 whereC groupBy havingC orderBy limitC rest hrest
      simpa [List.append_assoc] using this
    have hT1 : headIs (rankGe 1)
        (tokFromSeg src ++ (tokWhereSeg whereC ++ (tokGroupSeg groupBy ++
          (tokHavingSeg havingC ++ (tokOrderSeg orderBy ++
            (tokLimitSeg limitC ++ rest)))))) := by
      have := selHead1 src whereC groupBy havingC orderBy limitC rest hrest
      simpa [List.append_assoc] using this
    have h1 : pProjList f2 (tokProjList projs ++ (tokFromSeg src ++
        (tokWhereSeg whereC ++ (tokGroupSeg groupBy ++ (tokHavingSeg havingC ++
          (tokOrderSeg orderBy ++ (tokLimitSeg limitC ++ rest))))))) =
        .ok (projs, tokFromSeg src ++ (tokWhereSeg whereC ++
          (tokGroupSeg groupBy ++ (tokHavingSeg havingC ++
            (tokOrderSeg orderBy ++ (tokLimitSeg limitC ++ rest)))))) :=
      hpl projs hpne (by omega) hwp f2 _ (by omega)
        (noneOf_of_headIs (rankGe 1) projListBad _ hT1 (by decide))
    have h2 : pFromOpt f2 (tokFromSeg src ++ (tokWhereSeg whereC ++
        (tokGroupSeg groupBy ++ (tokHavingSeg havingC ++ (tokOrderSeg orderBy ++
          (tokLimitSeg limitC ++ rest)))))) = .ok (src, tokWhereSeg whereC ++
        (tokGroupSeg groupBy ++ (tokHavingSeg havingC ++ (tokOrderSeg orderBy ++
          (tokLimitSeg limitC ++ rest))))) := by
      cases src with
      | none =>
        rw [hf2]
        exact pFromOpt_not f3 _
          ((noneOf_of_headIs (rankGe 2) [Token.kw Kw.fromK] _ hT2 (by decide)) _
            (by decide))
      | some s0 =>
        simp only [wfOptSourceB] at hwsrc
        have hl2 : (tokFromSeg (some s0)).length = (tokSource s0).length + 1 := by
          simp [tokFromSeg]
        simp only [tokFromSeg, List.cons_append]
        rw [hf2]
        exact pFromOpt_from f3 _ s0 _
          (hsrc s0 (by omega) hwsrc f3 _ (by omega)
            (headIs_rankGe_mono (by omega) _ hT2))
    have h3 : pWhereOpt f2 (tokWhereSeg whereC ++ (tokGroupSeg groupBy ++
        (tokHavingSeg havingC ++ (tokOrderSeg orderBy ++
          (tokLimitSeg limitC ++ rest))))) = .ok (whereC, tokGroupSeg groupBy ++
        (tokHavingSeg havingC ++ (tokOrderSeg orderBy ++
          (tokLimitSeg limitC ++ rest)))) := by
      cases whereC with
      | none =>
        rw [hf2]
        exact pWhereOpt_not f3 _
          ((noneOf_of_headIs (rankGe 3) [Token.kw Kw.whereK] _ hT3 (by decide)) _
            (by decide))
      | some e =>
        simp only [wfOptExprB] at hww
        have hl3 : (tokWhereSeg (some e)).length = (tokExpr e).length + 1 := by
          simp [tokWhereSeg]
        simp only [tokWhereSeg, List.cons_append]
        rw [hf2]
        exact pWhereOpt_where f3 _ e _
          (hor e (by omega) hww f3 _ (by omega)
            (noneOf_of_headIs (rankGe 3) orBad _ hT3 (by decide)))
    have h4 : pGroupOpt f2 (tokGroupSeg groupBy ++ (tokHavingSeg havingC ++
        (tokOrderSeg orderBy ++ (tokLimitSeg limitC ++ rest)))) =
        .ok (groupBy, tokHavingSeg havingC ++ (tokOrderSeg orderBy ++
          (tokLimitSeg limitC ++ rest))) := by
      cases groupBy with
      | nil =>
        rw [hf2]
        exact pGroupOpt_not f3 _
          ((noneOf_of_headIs (rankGe 4) [Token.kw Kw.group] _ hT4 (by decide)) _
            (by decide))
      | cons e es =>
        have hl4 : (tokGroupSeg (e :: es)).length =
            (tokExprList (e :: es)).length + 2 := by
          rw [tokGroupSeg_cons]
          simp only [List.length_cons]
        rw [tokGroupSeg_cons]
        simp only [List.cons_append]
        rw [hf2]
        exact pGroupOpt_group f3 _ (e :: es) _
          (hel (e :: es) (by simp) (by omega) hwg f3 _ (by omega)
            (noneOf_of_headIs (rankGe 4) exprListBad _ hT4 (by decide)))
    have h5 : pHavingOpt f2 (tokHavingSeg havingC ++ (tokOrderSeg orderBy ++
        (tokLimitSeg limitC ++ rest))) = .ok (havingC, tokOrderSeg orderBy ++
        (tokLimitSeg limitC ++ rest)) := by
      cases havingC with
      | none =>
        rw [hf2]
        exact pHavingOpt_not f3 _
          ((noneOf_of_headIs (rankGe 5) [Token.kw Kw.having] _ hT5 (by decide)) _
            (by decide))
      | some e =>
        simp only [wfOptExprB] at hwh
        have hl5 : (tokHavingSeg (some e)).length = (tokExpr e).length + 1 := by
          simp [tokHavingSeg]
        simp only [tokHavingSeg, List.cons_append]
        rw [hf2]
        exact pHavingOpt_having f3 _ e _
          (hor e (by omega) hwh f3 _ (by omega)
            (noneOf_of_headIs (rankGe 5) orBad _ hT5 (by decide)))
    have h6 : pOrderOpt f2 (tokOrderSeg orderBy ++ (tokLimitSeg limitC ++
        rest)) = .ok (orderBy, tokLimitSeg limitC ++ rest) := by
      cases orderBy with
      | nil =>
        rw [hf2]
        exact pOrderOpt_not f3 _
          ((noneOf_of_headIs (rankGe 6) [Token.kw Kw.order] _ hT6 (by decide)) _
            (by decide))
      | cons p es =>
        obtain ⟨e, d⟩ := p
        have hl6 : (tokOrderSeg ((e, d) :: es)).length =
            (tokOrder ((e, d) :: es)).length + 2 := by
          rw [tokOrderSeg_cons]
          simp only [List.length_cons]
        rw [tokOrderSeg_cons]
        simp only [List.cons_append]
        rw [hf2]
        exact pOrderOpt_order f3 _ ((e, d) :: es) _
          (hob ((e, d) :: es) (by simp) (by omega) hwob f3 _ (by omega) hT6)
    have h7 : pLimitOpt f2 (tokLimitSeg limitC ++ rest) =
        .ok (limitC, rest) := by
      cases limitC with
      | none =>
        rw [hf2]
        exact pLimitOpt_not f3 _
          ((noneOf_of_headIs (rankGe 7) [Token.kw Kw.limit] _ hT7 (by decide)) _
            (by decide))
      | some p =>
        obtain ⟨e, o⟩ := p
        simp only [wfLimitB, Bool.and_eq_true] at hwlim
        obtain ⟨hwe, hwo⟩ := hwlim
        cases o with
        | none =>
          have hl7 : (tokLimitSeg (some (e, none))).length =
              (tokExpr e).length + 1 := by
            simp [tokLimitSeg, tokOffSeg]
          simp only [tokLimitSeg, tokOffSeg, List.cons_append, List.append_nil]
          rw [hf2]
          exact pLimit_noOff f3 _ e rest
            (hor e (by omega) hwe f3 rest (by omega)
              (noneOf_of_headIs (rankGe 7) orBad rest hT7 (by decide)))
            ((noneOf_of_headIs (rankGe 7) [Token.kw Kw.offset] rest hT7
              (by decide)) _ (by decide))
        | some oe =>
          simp only [wfOptExprB] at hwo
          have hl7 : (tokLimitSeg (some (e, some oe))).length =
              (tokExpr e).length + (tokExpr oe).length + 2 := by
            simp only [tokLimitSeg, tokOffSeg, List.length_append,
              List.length_cons]
            omega
          simp only [tokLimitSeg, tokOffSeg, List.cons_append, List.append_assoc]
          rw [hf2]
          exact pLimit_off f3 _ e _ oe rest
            (hor e (by omega) hwe f3 _ (by omega)
              (noneOf_cons _ _ _ (by decide)))
            (hor oe (by omega) hwo f3 rest (by omega)
              (noneOf_of_headIs (rankGe 7) orBad rest hT7 (by decide)))
    rw [show tokStmt (Stmt.select projs src whereC groupBy havingC orderBy
        limitC) ++ rest = Token.kw Kw.select :: (tokProjList projs ++
        (tokFromSeg src ++ (tokWhereSeg whereC ++ (tokGroupSeg groupBy ++
          (tokHavingSeg havingC ++ (tokOrderSeg orderBy ++
            (tokLimitSeg limitC ++ rest))))))) by
      simp [tokStmt, List.append_assoc]]
    rw [pStmt_select f1, hf1]
    exact pSelect_ok f2 _ projs _ src _ whereC _ groupBy _ havingC _ orderBy _
      limitC _ h1 h2 h3 h4 h5 h6 h7
  | withS recur ctes body =>
    simp only [wfStmtB, Bool.and_eq_true] at hwf
    obtain ⟨⟨hne, hwc⟩, hwb⟩ := hwf
    cases ctes with
    | nil => simp at hne
    | cons c cs =>
      obtain ⟨nm, s0⟩ := c
      have hcne : ((nm, s0) :: cs : List (String × Stmt)) ≠ [] := by simp
      have hcomma : (tokStmt body ++ rest).head? ≠ some Token.comma := by
        obtain ⟨k, hk⟩ := tokStmt_head body rest
        rw [hk]
        simp
      cases recur with
      | false =>
        have hlenTot : (tokStmt (Stmt.withS false ((nm, s0) :: cs)
            body)).length = (tokCtes ((nm, s0) :: cs)).length +
            (tokStmt body).length + 1 := by
          simp [tokStmt]
        obtain ⟨f1, rfl⟩ : ∃ g, fuel = g + 1 := ⟨fuel - 1, by omega⟩
        obtain ⟨f2, hf1⟩ : ∃ g, f1 = g + 1 := ⟨f1 - 1, by omega⟩
        have hP := ih (n - 1) (by omega)
        have hc := hcs ((nm, s0) :: cs) hcne (by omega) hwc f2
          (tokStmt body ++ rest) (by omega) hcomma
        have hs := hP.stmtI body (by omega) hwb f2 rest (by omega) hrest
        rw [show tokStmt (Stmt.withS false ((nm, s0) :: cs) body) ++ rest =
            Token.kw Kw.withK :: (tokCtes ((nm, s0) :: cs) ++
              (tokStmt body ++ rest)) by
          simp [tokStmt, List.append_assoc]]
        rw [pStmt_withK f1, hf1]
        exact pWith_plain_ok f2 _ ((nm, s0) :: cs) _ body rest
          (by simp [tokCtes]) hc hs
      | true =>
        have hlenTot : (tokStmt (Stmt.withS true ((nm, s0) :: cs)
            body)).length = (tokCtes ((nm, s0) :: cs)).length +
            (tokStmt body).length + 2 := by
          simp [tokStmt]
        obtain ⟨f1, rfl⟩ : ∃ g, fuel = g + 1 := ⟨fuel - 1, by omega⟩
        obtain ⟨f2, hf1⟩ : ∃ g, f1 = g + 1 := ⟨f1 - 1, by omega⟩
        have hP := ih (n - 1) (by omega)
        have hc := hcs ((nm, s0) :: cs) hcne (by omega) hwc f2
          (tokStmt body ++ rest) (by omega) hcomma
        have hs := hP.stmtI body (by omega) hwb f2 rest (by omega) hrest
        rw [show tokStmt (Stmt.withS true ((nm, s0) :: cs) body) ++ rest =
            Token.kw Kw.withK :: (Token.kw Kw.recursive ::
              (tokCtes ((nm, s0) :: cs) ++ (tokStmt body ++ rest))) by
          simp [tokStmt, List.append_assoc]]
        rw [pStmt_withK f1, hf1]
        exact pWith_rec_ok f2 _ ((nm, s0) :: cs) _ body rest hc hs
  | other k raw =>
    simp only [wfStmtB, Bool.and_eq_true, decide_eq_true_eq] at hwf
    obtain ⟨⟨hmem, hraw⟩, hscan⟩ := hwf
    obtain ⟨f1, rfl⟩ : ∃ g, fuel = g + 1 := ⟨fuel - 1, by omega⟩
    have hk1 : k ≠ Kw.select := by
      intro hc
      subst hc
      exact absurd hmem (by decide)
    have hk2 : k ≠ Kw.withK := by
      intro hc
      subst hc
      exact absurd hmem (by decide)
    rw [show tokStmt (Stmt.other k raw) ++ rest =
        Token.kw k :: (raw ++ rest) from rfl]
    exact pStmt_other_ok f1 k _ raw rest hk1 hk2 hmem
      (splitOther_append raw 0 rest hscan hrest) hscan

theorem parserInv : ∀ n, InvP n := by
  intro n
  induction n using Nat.strong_induction_on with
  | _ n ih =>
    have hprim := primInv n ih
    have hmul := mulInv n hprim
    have hadd := addInv n hmul
    have hcmp := cmpInv n hadd
    have hand := andInv n hcmp
    have horr := orInv n hand
    have hexl := exprListInv n horr
    have hargs := argsInv n horr
    have hproj := projInv n horr
    have hplist := projListInv n hproj
    have hsit := sitemInv n ih
    have hjoins := joinsInv n hsit horr
    have hsrc := sourceInv n hsit hjoins
    have hord := orderInv n horr
    have hctes := ctesInv n ih
    have hstmt := stmtInv n ih hplist hsrc horr hexl hord hctes
    exact ⟨hprim, hmul, hadd, hcmp, hand, horr, hexl, hargs, hproj, hplist,
      hsit, hjoins, hsrc, hord, hctes, hstmt⟩

theorem parse_wf (q : String) (a : Stmt) (h : parse q = .ok a) :
    wfStmtB a = true := by
  cases hlex : lex q.data with
  | error e =>
    simp only [parse, hlex] at h
    exact Except.noConfusion h
  | ok ts =>
    simp only [parse, hlex] at h
    have hwts := lex_wf q.data ts hlex
    simp only [pTop] at h
    split at h
    · rename_i heq
      simp only [Except.ok.injEq] at h
      subst h
      exact ((parserWf _).stmtW ts _ [] hwts heq).1
    · rename_i heq
      simp only [Except.ok.injEq] at h
      subst h
      exact ((parserWf _).stmtW ts _ _ hwts heq).1
    · exact Except.noConfusion h
    · exact Except.noConfusion h

theorem parse_roundtrip (a : Stmt) (h : wfStmtB a = true) :
    parse (formatStmt true a) = .ok a := by
  have hlex : lex (render true (tokStmt a)) = .ok (tokStmt a) :=
    lex_render true (tokStmt a) (tokStmt_wf a h)
  have hinv := (parserInv (tokStmt a).length).stmtI a (le_refl _) h
    (512 * ((tokStmt a).length + 1)) [] (by omega) rfl
  rw [List.append_nil] at hinv
  simp only [parse]
  rw [show (formatStmt true a).data = render true (tokStmt a) from rfl, hlex]
  simp only [pTop, hinv]

/-- C8: for every string that parses successfully — in particular every
syntactically valid SELECT, witnessed by a true classification — re-parsing
the formatter's rendering of the parsed tree returns exactly the same tree,
so the analysis of the round-tripped text (`analyze(parse(format(parse(sql))))`)
agrees field-for-field with the analysis of the original
(`analyze(parse(sql))`), even though the rendered text may differ from the
original input. -/
theorem c8_format_round_trip (q : String) (a : Stmt)
    (hp : parse q = .ok a) (hsel : is_select_query q = .ok true) :
    parse (formatStmt true a) = .ok a ∧
    analyze_query (formatStmt true a) = analyze_query q := by
  have hwf := parse_wf q a hp
  have hrt := parse_roundtrip a hwf
  refine ⟨hrt, ?_⟩
  simp only [analyze_query, hrt, hp]

/-- C8 witness: the round-trip theorem instantiated at the concrete query
`SELECT a FROM t`, with both hypotheses discharged by evaluation. -/
theorem c8_witness :
    parse "SELECT a FROM t" = .ok (Stmt.select
      [Proj.expr (Expr.col none "a") none]
      (some (Source.item (SItem.table "t" none) [])) none [] none [] none) ∧
    is_select_query "SELECT a FROM t" = .ok true ∧
    (parse (formatStmt true (Stmt.select
        [Proj.expr (Expr.col none "a") none]
        (some (Source.item (SItem.table "t" none) [])) none [] none [] none)) =
      .ok (Stmt.select [Proj.expr (Expr.col none "a") none]
        (some (Source.item (SItem.table "t" none) [])) none [] none [] none) ∧
      analyze_query (formatStmt true (Stmt.select
        [Proj.expr (Expr.col none "a") none]
        (some (Source.item (SItem.table "t" none) [])) none [] none [] none)) =
        analyze_query "SELECT a FROM t") :=
  ⟨rfl, rfl, c8_format_round_trip "SELECT a FROM t" _ rfl rfl⟩

end SqlGateway
